import Mathlib

/-!
Verification of the maze-graph builder (`src/maze.rs`) and the ghost pursuit
planner (`src/ghost.rs`) of the pacman3d repository.

Modelling conventions:
* 2D coordinates are rational numbers (`ℚ`).  The Rust source stores `f32`;
  every operation performed by the modelled code paths (comparison, addition,
  subtraction, absolute value) is exact on the rationals, so the embedding is
  faithful on inputs whose coordinates are exactly representable.
* The Euclidean `distance` helper of `ghost.rs` (which uses `sqrt`) is passed
  as a parameter `dist : Point → Point → ℚ` to the planner; theorems state the
  hypotheses about it that the source geometry guarantees (non-negativity,
  Lipschitz bounds along edges), and concrete instances evaluate it at
  axis-aligned argument pairs, where the Euclidean distance is the absolute
  coordinate difference and hence exactly rational.
* Panics (`assert!`, `expect`) are modelled by `Option`: `none` is a panic.
* The unbounded `while` loop of `find_shortest_path` is modelled with an
  explicit fuel parameter; termination claims quantify over the fuel.
-/

/- The rational arithmetic operations are `@[irreducible]` upstream, which
blocks kernel evaluation of the concrete mazes and searches below; restore
the default reducibility (this affects only definitional unfolding during
elaboration, not the trusted kernel checking). -/
set_option allowUnsafeReducibility true in
attribute [semireducible] Rat.add Rat.sub Rat.mul Rat.inv

namespace Pacman

/-- A 2D coordinate, `(x, y)`, mirroring `(f32, f32)` in the source. -/
abbrev Point : Type := ℚ × ℚ

/-- An input corridor segment, `((f32, f32), (f32, f32))` in the source:
a pair of endpoints (start, end). -/
abbrev Seg : Type := Point × Point

/-- `struct Path { end_index: usize, length: f32 }` from `maze.rs`. -/
structure Path where
  end_index : ℕ
  length : ℚ
deriving DecidableEq, Repr

/-- `struct Intersection` from `maze.rs`: up to four outgoing paths plus the
node's coordinates. -/
structure Intersection where
  left : Option Path
  right : Option Path
  forward : Option Path
  backward : Option Path
  coordinates : Point
deriving DecidableEq, Repr

/-- `Intersection::new`: a node with no paths yet. -/
def Intersection.mk' (c : Point) : Intersection :=
  ⟨none, none, none, none, c⟩

/-- `struct Maze { intersections: Vec<Intersection> }` from `maze.rs`. -/
structure Maze where
  intersections : List Intersection
deriving DecidableEq, Repr

/-- Placeholder node used to model out-of-bounds indexing (which panics in
Rust; all theorems maintain in-bounds invariants so it is never reached). -/
def dummyIntersection : Intersection := ⟨none, none, none, none, (0, 0)⟩

/-- `f32::abs`, on the rationals: `if q < 0 then -q else q`. -/
def ratAbs (q : ℚ) : ℚ := if q < 0 then -q else q

/-- `start.1 == end.1` — the segment is horizontal (`is_horizontal` in
`Maze::new`). -/
def isHoriz (s : Seg) : Prop := s.1.2 = s.2.2

instance (s : Seg) : Decidable (isHoriz s) :=
  decidable_of_iff (s.1.2 = s.2.2) Iff.rfl

/-- The `assert!(start.0 == end.0 || start.1 == end.1)` condition: the segment
is vertical or horizontal. -/
def segAligned (s : Seg) : Prop := s.1.1 = s.2.1 ∨ s.1.2 = s.2.2

instance (s : Seg) : Decidable (segAligned s) :=
  decidable_of_iff (s.1.1 = s.2.1 ∨ s.1.2 = s.2.2) Iff.rfl

/-- The crossing point computed in `Maze::new` for two segments of different
orientation: the vertical one supplies the x coordinate (of its start), the
horizontal one the y coordinate (of its start). -/
def crossingOf (p other : Seg) : Point :=
  if isHoriz p then (other.1.1, p.1.2) else (p.1.1, other.1.2)

/-- The inner pairing loop of `Maze::new` phase 1 for the segment `p`:
walks the later segments, asserting alignment and non-duplication, and pushes
one (blank) intersection for every horizontal/vertical pair, updating the
"endpoint already exists" flags when a crossing coincides with an endpoint
of `p`.  `none` models a panicking `assert!`. -/
def innerLoop (p : Seg) :
    List Seg → List Intersection × Bool × Bool →
    Option (List Intersection × Bool × Bool)
  | [], st => some st
  | other :: rest, (acc, sF, eF) =>
    if ¬ segAligned other then none
    else if p = other then none
    else if decide (isHoriz p) ≠ decide (isHoriz other) then
      let c := crossingOf p other
      innerLoop p rest
        (acc ++ [Intersection.mk' c], sF || decide (c = p.1), eF || decide (c = p.2))
    else
      innerLoop p rest (acc, sF, eF)

/-- `start.0 < end.0 || start.1 < end.1` — the segment runs toward increasing
coordinates (`is_going_forward` / `is_moving_forward` in the source). -/
def goingForward (p : Seg) : Prop := p.1.1 < p.2.1 ∨ p.1.2 < p.2.2

instance (p : Seg) : Decidable (goingForward p) :=
  decidable_of_iff (p.1.1 < p.2.1 ∨ p.1.2 < p.2.2) Iff.rfl

/-- Phase 1 of `Maze::new` (node discovery): for each segment, assert it is
axis-aligned, push a node for each crossing with a later segment, then push
its endpoints (unless a coordinate-equal node exists), geometrically earlier
endpoint first. -/
def phase1 : List Seg → List Intersection → Option (List Intersection)
  | [], acc => some acc
  | p :: rest, acc =>
    if ¬ segAligned p then none
    else
      let sF : Bool := acc.any fun it => decide (it.coordinates = p.1)
      let eF : Bool := acc.any fun it => decide (it.coordinates = p.2)
      match innerLoop p rest (acc, sF, eF) with
      | none => none
      | some (acc2, sF2, eF2) =>
        let addStart := fun (a : List Intersection) =>
          if sF2 then a else a ++ [Intersection.mk' p.1]
        let addEnd := fun (a : List Intersection) =>
          if eF2 then a else a ++ [Intersection.mk' p.2]
        phase1 rest
          (if goingForward p then addEnd (addStart acc2) else addStart (addEnd acc2))

/-- The phase-2 filter of `Maze::new`: does the node coordinate `c` lie on the
actual extent of segment `p`?  (Four branches, by direction and orientation,
exactly as in the source.) -/
def matchPred (p : Seg) (c : Point) : Prop :=
  if goingForward p then
    if isHoriz p then
      c.2 = p.1.2 ∧ p.1.1 ≤ c.1 ∧ c.1 ≤ p.2.1
    else
      c.1 = p.1.1 ∧ p.1.2 ≤ c.2 ∧ c.2 ≤ p.2.2
  else
    if isHoriz p then
      c.2 = p.1.2 ∧ p.2.1 ≤ c.1 ∧ c.1 ≤ p.1.1
    else
      c.1 = p.1.1 ∧ p.2.2 ≤ c.2 ∧ c.2 ≤ p.1.2

instance (p : Seg) (c : Point) : Decidable (matchPred p c) :=
  decidable_of_iff
    (if goingForward p then
      if isHoriz p then
        c.2 = p.1.2 ∧ p.1.1 ≤ c.1 ∧ c.1 ≤ p.2.1
      else
        c.1 = p.1.1 ∧ p.1.2 ≤ c.2 ∧ c.2 ≤ p.2.2
    else
      if isHoriz p then
        c.2 = p.1.2 ∧ p.2.1 ≤ c.1 ∧ c.1 ≤ p.1.1
      else
        c.1 = p.1.1 ∧ p.2.2 ≤ c.2 ∧ c.2 ≤ p.1.2) Iff.rfl

/-- Distance of a node from the start of its segment, as computed in phase 2:
`(x − start.x).abs + (y − start.y).abs` (one term is always zero for a
matching node). -/
def distAlong (p : Seg) (c : Point) : ℚ :=
  ratAbs (c.1 - p.1.1) + ratAbs (c.2 - p.1.2)

/-- Stable insertion into a list sorted by the first (key) component:
the new element goes before the first strictly larger key, after equal keys.
Models the stable `sort_by(total_cmp)` of the source. -/
def insertByKey (x : ℚ × ℕ) : List (ℚ × ℕ) → List (ℚ × ℕ)
  | [] => [x]
  | y :: ys => if x.1 ≤ y.1 then x :: y :: ys else y :: insertByKey x ys

/-- Stable sort by the first component (insertion sort; agrees with any
stable comparison sort, in particular Rust's `sort_by` with `total_cmp`). -/
def sortByKey : List (ℚ × ℕ) → List (ℚ × ℕ)
  | [] => []
  | x :: xs => insertByKey x (sortByKey xs)

/-- Replace the element at position `i` (no-op when out of bounds), modelling
an in-place write through `iter_mut`. -/
def setAt (l : List Intersection) (i : ℕ) (f : Intersection → Intersection) :
    List Intersection :=
  match l.get? i with
  | none => l
  | some it => l.set i (f it)

/-- The record update for one matched node of a segment: `path_to_previous`
and `path_to_next` go into direction slots chosen by orientation and
direction of travel, exactly as in the source. -/
def writeRec (p : Seg) (pPrev pNext : Option Path) (it : Intersection) :
    Intersection :=
  if goingForward p then
    if isHoriz p then
      { it with left := pPrev, right := pNext }
    else
      { it with backward := pPrev, forward := pNext }
  else
    if isHoriz p then
      { it with right := pPrev, left := pNext }
    else
      { it with forward := pPrev, backward := pNext }

/-- Write the slots of the node at index `i`. -/
def updateSlots (p : Seg) (i : ℕ) (pPrev pNext : Option Path)
    (l : List Intersection) : List Intersection :=
  setAt l i (writeRec p pPrev pNext)

/-- The per-node writes performed while walking a sorted matched list: node
index, path to the previous chain node, path to the next chain node. -/
def chainPairs :
    Option (ℚ × ℕ) → List (ℚ × ℕ) → List (ℕ × Option Path × Option Path)
  | _, [] => []
  | prev, (d, i) :: rest =>
    (i, prev.map fun q => Path.mk q.2 (d - q.1),
      rest.head?.map fun q => Path.mk q.2 (q.1 - d)) ::
      chainPairs (some (d, i)) rest

/-- Walk the sorted matched list of a segment, linking each consecutive pair:
the previous neighbour (if any) with length `d − d_prev`, the next (if any)
with `d_next − d`. -/
def chainWrites (p : Seg) :
    Option (ℚ × ℕ) → List (ℚ × ℕ) → List Intersection → List Intersection
  | _, [], l => l
  | prev, (d, i) :: rest, l =>
    let pPrev : Option Path := prev.map fun q => ⟨q.2, d - q.1⟩
    let pNext : Option Path := rest.head?.map fun q => ⟨q.2, q.1 - d⟩
    chainWrites p (some (d, i)) rest (updateSlots p i pPrev pNext l)

/-- The sorted (distance, index) list of the nodes lying on segment `p`. -/
def sortedMatches (p : Seg) (l : List Intersection) : List (ℚ × ℕ) :=
  sortByKey
    ((l.enum.filter fun q => decide (matchPred p q.2.coordinates)).map
      fun q => (distAlong p q.2.coordinates, q.1))

/-- Phase 2 of `Maze::new` for one segment: find the nodes on its extent,
sort them by distance from its start, and link consecutive pairs. -/
def phase2Seg (l : List Intersection) (p : Seg) : List Intersection :=
  chainWrites p none (sortedMatches p l) l

/-- `Maze::new` from `maze.rs`.  `none` models a panicking `assert!`. -/
def mazeNew (segs : List Seg) : Option Maze :=
  match phase1 segs [] with
  | none => none
  | some inters => some ⟨segs.foldl phase2Seg inters⟩

/-! ## `ghost.rs`: localization (`find_path`) -/

/-- Modelled from the spec: the constant `HALF_PATH_WIDTH` is imported from
the `maze` module by `ghost.rs` and `main.rs` but its module-level definition
is not present under `src/`.  The spec's localization example (a point half a
unit from a node localizes to the adjoining edge, not to the node) forces
`0 < HALF_PATH_WIDTH ≤ 1/2`; we take `1/2`.  Planner definitions take the
tolerance as a parameter `w` so theorems can quantify over it. -/
def HALF_PATH_WIDTH : ℚ := 1/2

/-- `within_range` from `find_path`: `(a − b).abs() < HALF_PATH_WIDTH`. -/
def withinRange (w a b : ℚ) : Prop := ratAbs (a - b) < w

instance (w a b : ℚ) : Decidable (withinRange w a b) :=
  decidable_of_iff (ratAbs (a - b) < w) Iff.rfl

/-- First pass of `find_path`: snap to the first intersection within `w` on
both axes, returning the degenerate pair `(i, i)`. -/
def snapScan (w : ℚ) (pos : Point) : ℕ → List Intersection → Option (ℕ × ℕ)
  | _, [] => none
  | i, it :: rest =>
    if withinRange w it.coordinates.1 pos.1 ∧ withinRange w it.coordinates.2 pos.2 then
      some (i, i)
    else snapScan w pos (i + 1) rest

/-- The body of the second pass of `find_path` for one intersection:
first the vertical check (x within range, walk forward/backward), then —
falling through if it yields nothing — the horizontal check. -/
def edgeCheck (w : ℚ) (pos : Point) (i : ℕ) (it : Intersection) :
    Option (ℕ × ℕ) :=
  let vert : Option (ℕ × ℕ) :=
    if withinRange w it.coordinates.1 pos.1 then
      if it.coordinates.2 < pos.2 then
        match it.forward with
        | some fp => if pos.2 - it.coordinates.2 < fp.length then some (i, fp.end_index) else none
        | none => none
      else if pos.2 < it.coordinates.2 then
        match it.backward with
        | some bp => if it.coordinates.2 - pos.2 < bp.length then some (i, bp.end_index) else none
        | none => none
      else none
    else none
  match vert with
  | some r => some r
  | none =>
    if withinRange w it.coordinates.2 pos.2 then
      if it.coordinates.1 < pos.1 then
        match it.right with
        | some rp => if pos.1 - it.coordinates.1 < rp.length then some (i, rp.end_index) else none
        | none => none
      else if pos.1 < it.coordinates.1 then
        match it.left with
        | some lp => if it.coordinates.1 - pos.1 < lp.length then some (i, lp.end_index) else none
        | none => none
      else none
    else none

/-- Second pass of `find_path`: scan intersections in index order applying
`edgeCheck`. -/
def edgeScan (w : ℚ) (pos : Point) : ℕ → List Intersection → Option (ℕ × ℕ)
  | _, [] => none
  | i, it :: rest =>
    match edgeCheck w pos i it with
    | some r => some r
    | none => edgeScan w pos (i + 1) rest

/-- `find_path` from `ghost.rs`: locate a continuous position on the graph,
preferring a node snap, else the first matching edge. -/
def findPath (w : ℚ) (pos : Point) (m : Maze) : Option (ℕ × ℕ) :=
  match snapScan w pos 0 m.intersections with
  | some r => some r
  | none => edgeScan w pos 0 m.intersections

/-! ## `ghost.rs`: the pursuit search (`find_shortest_path`) -/

/-- The node at index `i` (out-of-bounds indexing panics in Rust; theorems
keep indices in bounds). -/
def nodeAt (m : Maze) (i : ℕ) : Intersection :=
  m.intersections.getD i dummyIntersection

/-- The adjoining paths of a node, in the iteration order of the source:
`forward`, then `backward`, then `left`, then `right`. -/
def joining (m : Maze) (i : ℕ) : List Path :=
  (nodeAt m i).forward.toList ++ (nodeAt m i).backward.toList ++
    (nodeAt m i).left.toList ++ (nodeAt m i).right.toList

/-- The straight-line hop from node `i` to the target's position, as added to
a completed route's cost. -/
def hop (dist : Point → Point → ℚ) (m : Maze) (playerPos : Point) (i : ℕ) : ℚ :=
  dist (nodeAt m i).coordinates playerPos

/-- Search state threaded through one round of the frontier loop:
the `tried_indices_to_distances` map (association list; keys are unique since
an entry is only ever inserted for an absent key), the next round's frontier,
and the completed routes. -/
structure SState where
  tried : List (ℕ × ℚ)
  newPot : List (ℚ × List ℕ)
  completed : List (ℚ × List ℕ)
deriving Repr

/-- The expansion of one frontier item over one adjoining path: drop the
candidate if its node is already recorded at a distance `≤` the new one;
otherwise complete the route (if the node is one of the target-edge
endpoints) or add it to the next frontier. -/
def expandStep (dist : Point → Point → ℚ) (m : Maze) (pp : ℕ × ℕ)
    (playerPos : Point) (acc : ℚ) (path : List ℕ) (st : SState) (jp : Path) :
    SState :=
  let nd := acc + jp.length
  match st.tried.lookup jp.end_index with
  | some od => if od ≤ nd then st else
      expandKeep dist m pp playerPos path st jp nd
  | none => expandKeep dist m pp playerPos path st jp nd
where
  /-- Keep the candidate: complete it or push it onto the next frontier. -/
  expandKeep (dist : Point → Point → ℚ) (m : Maze) (pp : ℕ × ℕ)
      (playerPos : Point) (path : List ℕ) (st : SState) (jp : Path) (nd : ℚ) :
      SState :=
    let npath := path ++ [jp.end_index]
    if jp.end_index = pp.1 ∨ jp.end_index = pp.2 then
      { st with
        completed := st.completed ++ [(nd + hop dist m playerPos jp.end_index, npath)] }
    else
      { st with newPot := st.newPot ++ [(nd, npath)] }

/-- Process one frontier item: skip it if a strictly cheaper route to its
terminal node is recorded; otherwise record its distance (if the terminal is
unrecorded) and expand along every adjoining path. -/
def processItem (dist : Point → Point → ℚ) (m : Maze) (pp : ℕ × ℕ)
    (playerPos : Point) (st : SState) (item : ℚ × List ℕ) : SState :=
  let acc := item.1
  let cur := item.2.getLastD 0
  match st.tried.lookup cur with
  | some d =>
    if d < acc then st
    else (joining m cur).foldl (expandStep dist m pp playerPos acc item.2) st
  | none =>
    (joining m cur).foldl (expandStep dist m pp playerPos acc item.2)
      { st with tried := (cur, acc) :: st.tried }

/-- One round of the frontier loop: process every current frontier item. -/
def runRound (dist : Point → Point → ℚ) (m : Maze) (pp : ℕ × ℕ)
    (playerPos : Point) (tried : List (ℕ × ℚ)) (frontier : List (ℚ × List ℕ))
    (completed : List (ℚ × List ℕ)) : SState :=
  frontier.foldl (processItem dist m pp playerPos) ⟨tried, [], completed⟩

/-- The `while !potential_paths.is_empty()` loop of `find_shortest_path`,
with explicit fuel; `none` models running out of fuel before the frontier
empties. -/
def searchLoop (dist : Point → Point → ℚ) (m : Maze) (pp : ℕ × ℕ)
    (playerPos : Point) :
    ℕ → List (ℕ × ℚ) → List (ℚ × List ℕ) → List (ℚ × List ℕ) →
    Option (List (ℚ × List ℕ))
  | _, _, [], completed => some completed
  | 0, _, _ :: _, _ => none
  | fuel + 1, tried, frontier@(_ :: _), completed =>
    let st := runRound dist m pp playerPos tried frontier completed
    searchLoop dist m pp playerPos fuel st.tried st.newPot st.completed

/-- `min_by(partial_cmp)` over the completed routes: the first route of
minimal total cost (`none` on an empty list, which is a panicking `expect`
in the source). -/
def minByFirst : List (ℚ × List ℕ) → Option (ℚ × List ℕ)
  | [] => none
  | x :: xs => some (xs.foldl (fun b y => if y.1 < b.1 then y else b) x)

/-- The body of `find_shortest_path` after both localizations succeeded with
edge pairs `pp` (target) and `gp` (chaser): the same-edge and shared-endpoint
shortcuts, otherwise the frontier search, the `min_by` choice, and the
snapped-chaser trimming. -/
def planRoute (dist : Point → Point → ℚ) (fuel : ℕ)
    (playerPos ghostPos : Point) (m : Maze) (pp gp : ℕ × ℕ) : Option (List ℕ) :=
  if gp = pp then some []
  else if gp.1 = pp.1 ∨ gp.1 = pp.2 then some [gp.1]
  else if gp.2 = pp.1 ∨ gp.2 = pp.2 then some [gp.2]
  else
    let d0 := dist (nodeAt m gp.1).coordinates ghostPos
    let d1 := dist (nodeAt m gp.2).coordinates ghostPos
    let seeds : List (ℚ × List ℕ) :=
      if gp.1 ≠ gp.2 then [(d0, [gp.1]), (d1, [gp.2])] else [(d0, [gp.1])]
    match searchLoop dist m pp playerPos fuel [] seeds [] with
    | none => none
    | some completed =>
      match minByFirst completed with
      | none => none
      | some best => some (if gp.1 = gp.2 then best.2.drop 1 else best.2)

/-- `find_shortest_path` from `ghost.rs`: localize both positions (an
unlocalizable position is a panicking `expect`), then plan. -/
def findShortestPath (dist : Point → Point → ℚ) (w : ℚ) (fuel : ℕ)
    (playerPos ghostPos : Point) (m : Maze) : Option (List ℕ) :=
  match findPath w playerPos m, findPath w ghostPos m with
  | some pp, some gp => planRoute dist fuel playerPos ghostPos m pp gp
  | _, _ => none

/-! ## Concrete instances used by witnesses and counterexamples -/

/-- The Manhattan distance.  On axis-aligned argument pairs (one equal
coordinate) it coincides with the Euclidean `distance` of `ghost.rs`; every
concrete instance below only ever evaluates the distance parameter at such
pairs, so the rational result is exactly the source's value. -/
def distM (a b : Point) : ℚ := ratAbs (a.1 - b.1) + ratAbs (a.2 - b.2)

/-- Reverse the declared endpoint order of a segment. -/
def swapSeg (s : Seg) : Seg := (s.2, s.1)

/-- The cross-shaped maze of the `test_find_path` unit test. -/
def crossSegs : List Seg := [((1, 0), (-1, 0)), ((0, 1), (0, -1))]

/-- The maze built from `crossSegs`. -/
def crossMaze : Maze := (mazeNew crossSegs).getD ⟨[]⟩

/-- The 2×2 grid-with-diamond maze of the `test_find_shortest_path` test. -/
def gridSegs : List Seg :=
  [((1, 0), (-1, 0)), ((0, 1), (0, -1)), ((1, 1), (1, -1)),
   ((1, 1), (-1, 1)), ((-1, 1), (-1, -1)), ((-1, -1), (1, -1))]

/-- The maze built from `gridSegs`. -/
def gridMaze : Maze := (mazeNew gridSegs).getD ⟨[]⟩

/-- A valid segment list (axis-aligned, no literal duplicates) on which the
crossing of the second and third segment duplicates a coordinate that is
already registered. -/
def dupSegs : List Seg := [((0, 0), (1, 0)), ((0, 5), (0, 6)), ((5, 0), (6, 0))]

/-- `dupSegs` with the first segment's endpoints swapped. -/
def dupSegsRev : List Seg := [((1, 0), (0, 0)), ((0, 5), (0, 6)), ((5, 0), (6, 0))]

/-- The maze built from `dupSegs`. -/
def dupMaze : Maze := (mazeNew dupSegs).getD ⟨[]⟩

/-- Two distinct collinear segments sharing one endpoint: the second
segment's chain overwrites the shared node's `left` slot. -/
def overlapSegs : List Seg := [((0, 0), (1, 0)), ((1, 0), (2, 0))]

/-- The maze built from `overlapSegs`. -/
def overlapMaze : Maze := (mazeNew overlapSegs).getD ⟨[]⟩

/-- A hand-built maze graph on which the frontier loop never terminates: a
zero-length edge joins nodes `1` and `2`, node `1` is first recorded through
the long direct edge from node `0`, and the cheap detour `0→3→4→1` later
reaches it strictly below every recorded distance, so the candidate bounces
along the zero-length edge forever.  Nodes `5`/`6` carry the isolated edge
the player stands on. -/
def c8Maze : Maze :=
  ⟨[⟨none, some ⟨1, 10⟩, some ⟨3, 1⟩, none, (0, 0)⟩,
    ⟨some ⟨0, 10⟩, some ⟨2, 0⟩, some ⟨4, 1⟩, none, (10, 0)⟩,
    ⟨some ⟨1, 0⟩, none, none, none, (10, 0)⟩,
    ⟨none, some ⟨4, 1⟩, none, some ⟨0, 1⟩, (0, 1)⟩,
    ⟨some ⟨3, 1⟩, none, none, some ⟨1, 1⟩, (10, 1)⟩,
    ⟨none, none, some ⟨6, 1⟩, none, (100, 0)⟩,
    ⟨none, none, none, some ⟨5, 1⟩, (100, 1)⟩]⟩

/-- The player position of the divergence instance: on the isolated edge. -/
def c8player : Point := (100, 1/2)

/-- The chaser position of the divergence instance: exactly on node `0`. -/
def c8ghost : Point := (0, 0)

/-- The four slot paths of a node, in the iteration order of the source. -/
def slotPaths (it : Intersection) : List Path :=
  it.forward.toList ++ it.backward.toList ++ it.left.toList ++ it.right.toList

/-- The number of keys of `U` that the map has not recorded yet. -/
def remaining (U : List ℕ) (tried : List (ℕ × ℚ)) : ℕ :=
  (U.filter fun k => (tried.lookup k).isNone).length

/-- An upper bound on every distance recorded in the map. -/
def valBound (tried : List (ℕ × ℚ)) : ℚ :=
  tried.foldr (fun p acc => max p.2 acc) 0

/-! ## Structural predicates -/

/-- `pa` occupies one of the four direction slots of `it`. -/
def slotMem (pa : Path) (it : Intersection) : Prop :=
  it.left = some pa ∨ it.right = some pa ∨
    it.forward = some pa ∨ it.backward = some pa

/-- A node carrying no edges yet (as produced by `Intersection::new`). -/
def isBlank (it : Intersection) : Prop :=
  it.left = none ∧ it.right = none ∧ it.forward = none ∧ it.backward = none

/-- Every edge of every node points inside the intersection list. -/
def MazeWF (m : Maze) : Prop :=
  ∀ it ∈ m.intersections, ∀ pa : Path, slotMem pa it →
    pa.end_index < m.intersections.length

/-- A segment differing in exactly one axis: purely horizontal (equal y,
distinct x) or purely vertical (equal x, distinct y).  This is the validity
condition of spec §3 on corridor inputs. -/
def properSeg (s : Seg) : Prop :=
  (isHoriz s ∧ s.1.1 ≠ s.2.1) ∨ (s.1.1 = s.2.1 ∧ ¬ isHoriz s)

/-- No two horizontal segments on the same horizontal line, no two vertical
segments on the same vertical line. -/
def distinctLines (segs : List Seg) : Prop :=
  segs.Pairwise fun s t =>
    (isHoriz s → isHoriz t → s.1.2 ≠ t.1.2) ∧
    (¬ isHoriz s → ¬ isHoriz t → s.1.1 ≠ t.1.1)

instance (s : Seg) : Decidable (properSeg s) :=
  decidable_of_iff
    ((isHoriz s ∧ s.1.1 ≠ s.2.1) ∨ (s.1.1 = s.2.1 ∧ ¬ isHoriz s)) Iff.rfl

instance (segs : List Seg) : Decidable (distinctLines segs) :=
  decidable_of_iff
    (segs.Pairwise fun s t =>
      (isHoriz s → isHoriz t → s.1.2 ≠ t.1.2) ∧
      (¬ isHoriz s → ¬ isHoriz t → s.1.1 ≠ t.1.1)) Iff.rfl

/-- Reciprocity of one opposite-slot pair: a `getB` edge `k → j` is mirrored
by a `getA` edge `j → k` of the same length, and conversely. -/
def SlotSym (getA getB : Intersection → Option Path)
    (l : List Intersection) : Prop :=
  ∀ k j : ℕ, ∀ len : ℚ,
    (getB (l.getD k dummyIntersection) = some ⟨j, len⟩ →
      getA (l.getD j dummyIntersection) = some ⟨k, len⟩) ∧
    (getA (l.getD k dummyIntersection) = some ⟨j, len⟩ →
      getB (l.getD j dummyIntersection) = some ⟨k, len⟩)

/-- Provenance of one opposite-slot pair: every stored edge was written by an
already-processed segment of orientation `P` matching both endpoints. -/
def SlotProv (P : Seg → Prop) (getA getB : Intersection → Option Path)
    (done : List Seg) (l : List Intersection) : Prop :=
  ∀ k j : ℕ, ∀ len : ℚ,
    (getA (l.getD k dummyIntersection) = some ⟨j, len⟩ ∨
      getB (l.getD k dummyIntersection) = some ⟨j, len⟩) →
    ∃ s ∈ done, P s ∧ matchPred s (l.getD k dummyIntersection).coordinates ∧
      matchPred s (l.getD j dummyIntersection).coordinates

/-- The crossing points pushed during the inner pairing loop for segment `p`
against the later segments, in push order. -/
def crossList (p : Seg) (others : List Seg) : List Point :=
  (others.filter fun o => decide (isHoriz p) ≠ decide (isHoriz o)).map
    (crossingOf p)

/-- The coordinates of a node list, in order. -/
def coordsOf (l : List Intersection) : List Point :=
  l.map (·.coordinates)

/-- The provenance of a coordinate present in the phase-1 accumulator when
the segments of `done` have been processed and those of `rest` have not:
an endpoint of a processed segment, or the crossing of a processed segment
with any other segment of the input. -/
def originOf (done rest : List Seg) (pt : Point) : Prop :=
  (∃ s ∈ done, pt = s.1 ∨ pt = s.2) ∨
  (∃ u ∈ done, ∃ v ∈ done ++ rest,
    decide (isHoriz u) ≠ decide (isHoriz v) ∧ pt = crossingOf u v)

/-! ## Connecting routes of the pursuit graph (for the optimality claim) -/

/-- The cost of traversing a node list along stored edges: one graph edge
for each consecutive pair, summing the traversed lengths. -/
inductive ChainCost (m : Maze) : List ℕ → ℚ → Prop where
  | single (a : ℕ) : ChainCost m [a] 0
  | cons (a b : ℕ) (r : List ℕ) (l c : ℚ)
      (he : ∃ jp ∈ joining m a, jp.end_index = b ∧ jp.length = l)
      (hr : ChainCost m (b :: r) c) : ChainCost m (a :: b :: r) (l + c)

/-- A graph path connecting the chaser's localized edge to the target's:
it starts at an endpoint of `gp` and ends at an endpoint of `pp`. -/
def ConnPath (pp gp : ℕ × ℕ) (P : List ℕ) : Prop :=
  (P.head? = some gp.1 ∨ P.head? = some gp.2) ∧
  (P.getLast? = some pp.1 ∨ P.getLast? = some pp.2)

/-- The claim's total for route `P`: straight-line seed from the chaser's
position to the route's first node, plus the traversed edge lengths, plus
the straight-line hop from the route's final node to the target's
position. -/
def ConnTotal (dist : Point → Point → ℚ) (m : Maze) (ppos gpos : Point)
    (P : List ℕ) (t : ℚ) : Prop :=
  ∃ c, ChainCost m P c ∧
    t = dist (nodeAt m (P.headD 0)).coordinates gpos + c +
      hop dist m ppos (P.getLastD 0)

/-- The route touches the target edge's endpoints only at its final node
(first arrival at the target corridor). -/
def FirstArrival (pp : ℕ × ℕ) (P : List ℕ) : Prop :=
  ∀ a ∈ P.dropLast, a ≠ pp.1 ∧ a ≠ pp.2

/-- A three-node corridor exercising the snapped-chaser trimming: nodes
`0`, `1`, `2` at `(0,0)`, `(10,0)`, `(20,0)` joined by length-10 edges.
Every position involved lies on the x-axis, so the Manhattan `distM`
coincides with the source's Euclidean distance at every evaluated pair. -/
def c1Maze : Maze :=
  ⟨[⟨none, some ⟨1, 10⟩, none, none, (0, 0)⟩,
    ⟨some ⟨0, 10⟩, some ⟨2, 10⟩, none, none, (10, 0)⟩,
    ⟨some ⟨1, 10⟩, none, none, none, (20, 0)⟩]⟩

/-- The target's position: interior of the corridor between nodes 1 and 2. -/
def c1ppos : Point := (15, 0)

/-- The chaser's position: beside node 0, within snapping range. -/
def c1gpos : Point := (3/10, 0)

/-- A four-node corridor for the non-degenerate optimality instance:
nodes `0`..`3` at `(0,0)`, `(10,0)`, `(20,0)`, `(30,0)` joined by
length-10 edges. -/
def c1Maze4 : Maze :=
  ⟨[⟨none, some ⟨1, 10⟩, none, none, (0, 0)⟩,
    ⟨some ⟨0, 10⟩, some ⟨2, 10⟩, none, none, (10, 0)⟩,
    ⟨some ⟨1, 10⟩, some ⟨3, 10⟩, none, none, (20, 0)⟩,
    ⟨some ⟨2, 10⟩, none, none, none, (30, 0)⟩]⟩

/-- `k` is an endpoint of the target's localized edge `pp`. -/
def isPPE (pp : ℕ × ℕ) (k : ℕ) : Prop := k = pp.1 ∨ k = pp.2

/-- A node/budget list whose consecutive pairs follow stored edges, each
budget covering the previous budget plus the traversed length. -/
def BudgetChain (m : Maze) : List (ℕ × ℚ) → Prop
  | (a, ba) :: (b, bb) :: r =>
      (∃ jp ∈ joining m a, jp.end_index = b ∧ ba + jp.length ≤ bb) ∧
        BudgetChain m ((b, bb) :: r)
  | _ => True

/-- The budget list ends on the target edge within total `t`. -/
def Closes (dist : Point → Point → ℚ) (m : Maze) (pp : ℕ × ℕ)
    (ppos : Point) (L : List (ℕ × ℚ)) (t : ℚ) : Prop :=
  ∃ w bw, L.getLast? = some (w, bw) ∧ isPPE pp w ∧
    bw + hop dist m ppos w ≤ t

/-- Every non-final entry of the budget list avoids the target edge. -/
def IntFree (pp : ℕ × ℕ) (L : List (ℕ × ℚ)) : Prop :=
  ∀ p ∈ L.dropLast, ¬ isPPE pp p.1

/-- A frontier item ends at `n` within budget `b`. -/
def Fcov (F : List (ℚ × List ℕ)) (n : ℕ) (b : ℚ) : Prop :=
  ∃ it ∈ F, it.2.getLastD 0 = n ∧ it.1 ≤ b

/-- The map records `n` within budget `b`. -/
def Tcov (T : List (ℕ × ℚ)) (n : ℕ) (b : ℚ) : Prop :=
  ∃ od, T.lookup n = some od ∧ od ≤ b

/-- Some completed route costs at most `t`. -/
def Ccov (C : List (ℚ × List ℕ)) (t : ℚ) : Prop := ∃ c ∈ C, c.1 ≤ t

/-- The state covers the head of the (non-final) suffix `S`. -/
def Cov (T : List (ℕ × ℚ)) (F : List (ℚ × List ℕ))
    (S : List (ℕ × ℚ)) : Prop :=
  ∃ n b S2, S = (n, b) :: S2 ∧ S2 ≠ [] ∧ (Fcov F n b ∨ Tcov T n b)

/-- The state covers the budget list somewhere: a completed route within
the total, or a frontier/map cover at some suffix position. -/
def Reach (T : List (ℕ × ℚ)) (F C : List (ℚ × List ℕ))
    (L : List (ℕ × ℚ)) (t : ℚ) : Prop :=
  Ccov C t ∨ ∃ S, S <:+ L ∧ Cov T F S

/-- Every map cover at a suffix position is matched by coverage strictly
further along the budget list: the recording item's expansions were all
dispatched when the record was made. -/
def TGood (T : List (ℕ × ℚ)) (F C : List (ℚ × List ℕ))
    (L : List (ℕ × ℚ)) (t : ℚ) : Prop :=
  ∀ n b S2, ((n, b) :: S2) <:+ L → S2 ≠ [] → Tcov T n b →
    Ccov C t ∨ ∃ S3, S3 <:+ S2 ∧ Cov T F S3

/-- The target edge's endpoints are unrecorded and no frontier item ends
on them. -/
def SideInv (pp : ℕ × ℕ) (T : List (ℕ × ℚ))
    (F : List (ℚ × List ℕ)) : Prop :=
  T.lookup pp.1 = none ∧ T.lookup pp.2 = none ∧
    ∀ it ∈ F, ¬ isPPE pp (it.2.getLastD 0)

/-- A sound frontier item: a nonempty node list starting at a chaser-edge
endpoint, avoiding the target edge, whose value is the seeding distance
plus its accumulated traversal cost. -/
def ItemSound (dist : Point → Point → ℚ) (m : Maze) (pp gp : ℕ × ℕ)
    (gpos : Point) (it : ℚ × List ℕ) : Prop :=
  ∃ g, (g = gp.1 ∨ g = gp.2) ∧ it.2.head? = some g ∧
    (∀ a ∈ it.2, ¬ isPPE pp a) ∧
    ∃ c, ChainCost m it.2 c ∧
      it.1 = dist (nodeAt m g).coordinates gpos + c

/-- A sound completed entry: a first-arrival connecting route whose
recorded value is the claim's total. -/
def CompSound (dist : Point → Point → ℚ) (m : Maze) (pp gp : ℕ × ℕ)
    (ppos gpos : Point) (e : ℚ × List ℕ) : Prop :=
  ConnPath pp gp e.2 ∧ FirstArrival pp e.2 ∧
    ConnTotal dist m ppos gpos e.2 e.1

/-! # Theorems -/

/-- When both localizations succeed, `find_shortest_path` is the planning
body applied to the two localized edge pairs. -/
theorem findShortestPath_localized (dist : Point → Point → ℚ) (w : ℚ)
    (fuel : ℕ) (playerPos ghostPos : Point) (m : Maze) (pp gp : ℕ × ℕ)
    (hp : findPath w playerPos m = some pp)
    (hg : findPath w ghostPos m = some gp) :
    findShortestPath dist w fuel playerPos ghostPos m =
      planRoute dist fuel playerPos ghostPos m pp gp := by
  unfold findShortestPath
  rw [hp, hg]

/-- C6: for every maze and every pair of target and chaser positions that
localize to the identical `(idxA, idxB)` edge pair, `find_shortest_path`
returns the empty route. -/
theorem c6_same_edge_empty_route (dist : Point → Point → ℚ) (w : ℚ) (fuel : ℕ)
    (playerPos ghostPos : Point) (m : Maze) (e : ℕ × ℕ)
    (hp : findPath w playerPos m = some e) (hg : findPath w ghostPos m = some e) :
    findShortestPath dist w fuel playerPos ghostPos m = some [] := by
  rw [findShortestPath_localized dist w fuel playerPos ghostPos m e e hp hg]
  unfold planRoute
  simp

/-- Witness for C6: on the cross maze, `(1/10, 0)` and `(1/5, 0)` both snap to
the node at the origin, and the planner returns the empty route. -/
theorem c6_witness :
    findPath HALF_PATH_WIDTH (1/10, 0) crossMaze = some (0, 0) ∧
    findPath HALF_PATH_WIDTH (1/5, 0) crossMaze = some (0, 0) ∧
    findShortestPath distM HALF_PATH_WIDTH 5 (1/10, 0) (1/5, 0) crossMaze = some [] :=
  ⟨by decide, by decide,
    c6_same_edge_empty_route distM HALF_PATH_WIDTH 5 (1/10, 0) (1/5, 0) crossMaze
      (0, 0) (by decide) (by decide)⟩

/-- C7: on the maze whose node at the origin has unit edges towards
`(1,0)`, `(−1,0)`, `(0,1)`, `(0,−1)`, the four half-way points localize to
the corresponding edges (as index pairs), not to a snap onto the origin
node. -/
theorem c7_localization_examples :
    mazeNew crossSegs = some crossMaze ∧
    (nodeAt crossMaze 0).coordinates = (0, 0) ∧
    (nodeAt crossMaze 1).coordinates = (-1, 0) ∧
    (nodeAt crossMaze 2).coordinates = (1, 0) ∧
    (nodeAt crossMaze 3).coordinates = (0, -1) ∧
    (nodeAt crossMaze 4).coordinates = (0, 1) ∧
    (nodeAt crossMaze 0).left = some ⟨1, 1⟩ ∧
    (nodeAt crossMaze 0).right = some ⟨2, 1⟩ ∧
    (nodeAt crossMaze 0).forward = some ⟨4, 1⟩ ∧
    (nodeAt crossMaze 0).backward = some ⟨3, 1⟩ ∧
    findPath HALF_PATH_WIDTH (-1/2, 0) crossMaze = some (0, 1) ∧
    findPath HALF_PATH_WIDTH (1/2, 0) crossMaze = some (0, 2) ∧
    findPath HALF_PATH_WIDTH (0, 1/2) crossMaze = some (0, 4) ∧
    findPath HALF_PATH_WIDTH (0, -1/2) crossMaze = some (0, 3) := by
  decide

/-- C10: if the chaser snaps exactly onto intersection `i` while the target
localizes to a different edge having `i` as an endpoint, the planner returns
the one-element route `[i]` (the snapped-node trimming is not applied on the
shared-endpoint shortcut branch). -/
theorem c10_snapped_chaser_shared_endpoint (dist : Point → Point → ℚ)
    (w : ℚ) (fuel : ℕ) (playerPos ghostPos : Point) (m : Maze) (i a b : ℕ)
    (hg : findPath w ghostPos m = some (i, i))
    (hp : findPath w playerPos m = some (a, b))
    (hne : (i, i) ≠ (a, b)) (hshare : i = a ∨ i = b) :
    findShortestPath dist w fuel playerPos ghostPos m = some [i] := by
  rw [findShortestPath_localized dist w fuel playerPos ghostPos m (a, b) (i, i) hp hg]
  unfold planRoute
  rw [if_neg hne,
    if_pos (show (i, i).1 = (a, b).1 ∨ (i, i).1 = (a, b).2 from hshare)]

/-- Witness for C10: on the grid maze, the chaser at the origin snaps to node
0 while the target at `(1/2, 0)` localizes to the edge `(0, 1)`; the returned
route is `[0]`, the node the chaser already occupies. -/
theorem c10_witness :
    findPath HALF_PATH_WIDTH (0, 0) gridMaze = some (0, 0) ∧
    findPath HALF_PATH_WIDTH (1/2, 0) gridMaze = some (0, 1) ∧
    findShortestPath distM HALF_PATH_WIDTH 9 (1/2, 0) (0, 0) gridMaze = some [0] :=
  ⟨by decide, by decide,
    c10_snapped_chaser_shared_endpoint distM HALF_PATH_WIDTH 9 (1/2, 0) (0, 0)
      gridMaze 0 0 1 (by decide) (by decide) (by decide) (Or.inl rfl)⟩

/-- C2 counterexample: `dupSegs` is a valid input (each segment axis-aligned
and non-degenerate, no two literally identical), yet the built maze holds the
coordinate `(0, 0)` at the two distinct indices 0 and 2: the crossing of the
second and third segments duplicates the already-registered first endpoint. -/
theorem c2_counterexample :
    (∀ s ∈ dupSegs, segAligned s ∧ s.1 ≠ s.2) ∧ dupSegs.Nodup ∧
    mazeNew dupSegs = some dupMaze ∧
    (nodeAt dupMaze 0).coordinates = (nodeAt dupMaze 2).coordinates ∧
    (0 : ℕ) ≠ 2 ∧ 2 < dupMaze.intersections.length := by
  decide

/-- C3 counterexample: on the valid input `overlapSegs` (two distinct
collinear corridors sharing the node at `(1,0)`), node 0 holds a `right`
edge to node 1 of length 1, but node 1 holds no `left` edge at all: the
second segment's chain overwrote it.  Edges do not occur in reciprocal
pairs. -/
theorem c3_counterexample :
    (∀ s ∈ overlapSegs, segAligned s ∧ s.1 ≠ s.2) ∧ overlapSegs.Nodup ∧
    mazeNew overlapSegs = some overlapMaze ∧
    (nodeAt overlapMaze 0).right = some ⟨1, 1⟩ ∧
    (nodeAt overlapMaze 1).left = none := by
  decide

/-- C4 counterexample: swapping the endpoints of exactly the first segment of
`dupSegs` (a valid input) changes the built maze: the duplicate-coordinate
nodes tie in the phase-2 sort, and the stable order resolves the tie
differently for the two directions of travel. -/
theorem c4_counterexample :
    dupSegsRev = dupSegs.set 0 (swapSeg ((0, 0), (1, 0))) ∧
    (mazeNew dupSegs).isSome ∧ (mazeNew dupSegsRev).isSome ∧
    mazeNew dupSegs ≠ mazeNew dupSegsRev := by
  decide

/-! ## C5: construction failure characterization -/

/-- The inner pairing loop panics exactly when a later segment is unaligned
or literally equals the current one (independently of the threaded state). -/
theorem innerLoop_none_iff (p : Seg) :
    ∀ (others : List Seg) (st : List Intersection × Bool × Bool),
      innerLoop p others st = none ↔ ∃ o ∈ others, ¬ segAligned o ∨ p = o
  | [], st => by simp [innerLoop]
  | other :: rest, ⟨acc, sF, eF⟩ => by
    unfold innerLoop
    by_cases h1 : segAligned other
    · rw [if_neg (not_not_intro h1)]
      by_cases h2 : p = other
      · rw [if_pos h2]
        simp [h2]
      · rw [if_neg h2]
        by_cases h3 : decide (isHoriz p) ≠ decide (isHoriz other)
        · rw [if_pos h3, innerLoop_none_iff p rest _]
          simp [h1, h2]
        · rw [if_neg h3, innerLoop_none_iff p rest _]
          simp [h1, h2]
    · rw [if_pos h1]
      simp [h1]

/-- Phase 1 panics exactly when a segment is unaligned or two segments are
literally identical (for any accumulator). -/
theorem phase1_none_iff :
    ∀ (segs : List Seg) (acc : List Intersection),
      phase1 segs acc = none ↔ (∃ s ∈ segs, ¬ segAligned s) ∨ ¬ segs.Nodup
  | [], acc => by simp [phase1]
  | p :: rest, acc => by
    unfold phase1
    by_cases h1 : segAligned p
    · rw [if_neg (not_not_intro h1)]
      dsimp only
      rcases hi : innerLoop p rest
          (acc, acc.any fun it => decide (it.coordinates = p.1),
            acc.any fun it => decide (it.coordinates = p.2)) with _ | ⟨acc2, sF2, eF2⟩
      · have hex := (innerLoop_none_iff p rest _).mp hi
        simp only [List.nodup_cons]
        constructor
        · intro _
          rcases hex with ⟨o, ho, hbad | hbad⟩
          · exact Or.inl ⟨o, List.mem_cons_of_mem p ho, hbad⟩
          · subst hbad
            exact Or.inr (by simp [ho])
        · intro _; trivial
      · have hex : ¬ ∃ o ∈ rest, ¬ segAligned o ∨ p = o := by
          rw [← innerLoop_none_iff p rest
            (acc, acc.any fun it => decide (it.coordinates = p.1),
              acc.any fun it => decide (it.coordinates = p.2)), hi]
          simp
        push_neg at hex
        rw [phase1_none_iff rest _]
        simp only [List.mem_cons, List.nodup_cons]
        constructor
        · rintro (⟨s, hs, hbad⟩ | hnd)
          · exact Or.inl ⟨s, Or.inr hs, hbad⟩
          · tauto
        · rintro (⟨s, rfl | hs, hbad⟩ | hnd)
          · exact absurd h1 hbad
          · exact Or.inl ⟨s, hs, hbad⟩
          · rcases not_and_or.mp hnd with hmem | hnd2
            · rw [not_not] at hmem
              exact absurd (hex p hmem).2 (not_not_intro rfl)
            · exact Or.inr hnd2
    · rw [if_pos h1]
      simp only [eq_self_iff_true, true_iff]
      exact Or.inl ⟨p, List.mem_cons_self p rest, h1⟩

/-- C5: `Maze::new` fails (panics) if and only if some input segment is
diagonal or two input segments are literally identical (same endpoints in
the same order); on every other input, construction completes and returns a
maze. -/
theorem c5_failure_iff (segs : List Seg) :
    mazeNew segs = none ↔ (∃ s ∈ segs, ¬ segAligned s) ∨ ¬ segs.Nodup := by
  unfold mazeNew
  rcases h : phase1 segs [] with _ | l
  · rw [← phase1_none_iff segs [], h]
    simp
  · rw [← phase1_none_iff segs [], h]
    simp

/-! ## Sorting lemmas -/

theorem mem_insertByKey {y x : ℚ × ℕ} :
    ∀ {l : List (ℚ × ℕ)}, y ∈ insertByKey x l → y = x ∨ y ∈ l
  | [] => by simp [insertByKey]
  | z :: zs => by
    unfold insertByKey
    split
    · intro h
      simpa using List.mem_cons.mp h
    · intro h
      rcases List.mem_cons.mp h with rfl | h2
      · simp
      · rcases mem_insertByKey h2 with rfl | h3
        · simp
        · simp [h3]

theorem mem_of_mem_sortByKey {y : ℚ × ℕ} :
    ∀ {l : List (ℚ × ℕ)}, y ∈ sortByKey l → y ∈ l
  | [] => by simp [sortByKey]
  | x :: xs => by
    unfold sortByKey
    intro h
    rcases mem_insertByKey h with rfl | h2
    · simp
    · simp [mem_of_mem_sortByKey h2]

/-- Every index in the sorted phase-2 match list is a valid position of the
node list. -/
theorem sortedMatches_index_lt (p : Seg) (l : List Intersection) :
    ∀ q ∈ sortedMatches p l, q.2 < l.length := by
  intro q hq
  have hq2 := mem_of_mem_sortByKey hq
  simp only [List.mem_map, List.mem_filter] at hq2
  obtain ⟨⟨i, it⟩, ⟨hmem, _⟩, rfl⟩ := hq2
  rw [List.mk_mem_enum_iff_getElem?] at hmem
  exact (List.getElem?_eq_some.mp hmem).1

/-! ## Bounds through phase 2 (C9) -/

theorem setAt_length (l : List Intersection) (i : ℕ)
    (f : Intersection → Intersection) : (setAt l i f).length = l.length := by
  unfold setAt
  split <;> simp

theorem mem_setAt {it : Intersection} (l : List Intersection) (i : ℕ)
    (f : Intersection → Intersection) (h : it ∈ setAt l i f) :
    it ∈ l ∨ ∃ it0 ∈ l, it = f it0 := by
  unfold setAt at h
  split at h
  · exact Or.inl h
  · next it0 hget =>
    rcases List.mem_or_eq_of_mem_set h with h2 | rfl
    · exact Or.inl h2
    · exact Or.inr ⟨it0, List.get?_mem hget, rfl⟩

/-- A slot of the record written by `writeRec` is the supplied previous
path, the supplied next path, or a slot of the original record. -/
theorem slot_of_update (p : Seg) (pPrev pNext : Option Path)
    (it0 : Intersection) (pa2 : Path)
    (hs : slotMem pa2 (writeRec p pPrev pNext it0)) :
    pPrev = some pa2 ∨ pNext = some pa2 ∨ slotMem pa2 it0 := by
  unfold writeRec at hs
  unfold slotMem at hs ⊢
  by_cases hgf : goingForward p <;> by_cases hh : isHoriz p
  · rw [if_pos hgf, if_pos hh] at hs
    dsimp only at hs
    tauto
  · rw [if_pos hgf, if_neg hh] at hs
    dsimp only at hs
    tauto
  · rw [if_neg hgf, if_pos hh] at hs
    dsimp only at hs
    tauto
  · rw [if_neg hgf, if_neg hh] at hs
    dsimp only at hs
    tauto

theorem chainWrites_length (p : Seg) :
    ∀ (prev : Option (ℚ × ℕ)) (rest : List (ℚ × ℕ)) (l : List Intersection),
      (chainWrites p prev rest l).length = l.length
  | _, [], l => rfl
  | prev, (d, i) :: rest, l => by
    unfold chainWrites
    rw [chainWrites_length p (some (d, i)) rest _]
    unfold updateSlots
    exact setAt_length _ _ _

/-- All slots stay bounded through a chain write, provided the written
indices are bounded. -/
theorem chainWrites_bounded (p : Seg) (n : ℕ) :
    ∀ (prev : Option (ℚ × ℕ)) (rest : List (ℚ × ℕ)) (l : List Intersection),
      (∀ q ∈ rest, q.2 < n) → (∀ q, prev = some q → q.2 < n) →
      (∀ it ∈ l, ∀ pa, slotMem pa it → pa.end_index < n) →
      ∀ it ∈ chainWrites p prev rest l, ∀ pa, slotMem pa it → pa.end_index < n
  | prev, [], l, _, _, hl => hl
  | prev, (d, i) :: rest, l, hrest, hprev, hl => by
    unfold chainWrites
    refine chainWrites_bounded p n (some (d, i)) rest _ ?_ ?_ ?_
    · intro q hq
      exact hrest q (List.mem_cons_of_mem _ hq)
    · rintro q ⟨rfl⟩
      exact hrest (d, i) (List.mem_cons_self _ _)
    · intro it hit pa hs
      rcases mem_setAt l i _ hit with h2 | ⟨it0, hit0, rfl⟩
      · exact hl it h2 pa hs
      · rcases slot_of_update p _ _ it0 pa hs with h3 | h3 | hs0
        · rcases prev with _ | ⟨pd, pi⟩
          · simp at h3
          · obtain rfl : (⟨pi, d - pd⟩ : Path) = pa := by simpa using h3
            exact hprev (pd, pi) rfl
        · rcases hh : rest.head? with _ | ⟨nd, ni⟩ <;> rw [hh] at h3
          · simp at h3
          · obtain rfl : (⟨ni, nd - d⟩ : Path) = pa := by simpa using h3
            exact hrest (nd, ni) (List.mem_cons_of_mem _ (List.mem_of_mem_head? hh))
        · exact hl it0 hit0 pa hs0

theorem phase2Seg_length (l : List Intersection) (p : Seg) :
    (phase2Seg l p).length = l.length := by
  unfold phase2Seg
  exact chainWrites_length p none _ l

theorem phase2Seg_bounded (l : List Intersection) (p : Seg)
    (h : ∀ it ∈ l, ∀ pa, slotMem pa it → pa.end_index < l.length) :
    ∀ it ∈ phase2Seg l p, ∀ pa, slotMem pa it → pa.end_index < l.length := by
  unfold phase2Seg
  refine chainWrites_bounded p l.length none _ l ?_ (by simp) h
  intro q hq
  exact sortedMatches_index_lt p l q hq

/-! ## Phase 1 produces blank nodes -/

theorem innerLoop_blank (p : Seg) :
    ∀ (others : List Seg) (acc : List Intersection) (sF eF : Bool)
      (acc2 : List Intersection) (sF2 eF2 : Bool),
      innerLoop p others (acc, sF, eF) = some (acc2, sF2, eF2) →
      (∀ it ∈ acc, isBlank it) → ∀ it ∈ acc2, isBlank it
  | [], acc, sF, eF, acc2, sF2, eF2 => by
    intro h hacc
    obtain ⟨rfl, rfl, rfl⟩ : acc = acc2 ∧ sF = sF2 ∧ eF = eF2 := by
      simpa [innerLoop] using h
    exact hacc
  | other :: rest, acc, sF, eF, acc2, sF2, eF2 => by
    unfold innerLoop
    split
    · intro h; exact absurd h (by simp)
    · split
      · intro h; exact absurd h (by simp)
      · split
        · intro h hacc
          refine innerLoop_blank p rest _ _ _ _ _ _ h ?_
          intro it hit
          rcases List.mem_append.mp hit with h2 | h2
          · exact hacc it h2
          · obtain rfl : it = Intersection.mk' (crossingOf p other) := by
              simpa using h2
            exact ⟨rfl, rfl, rfl, rfl⟩
        · intro h hacc
          exact innerLoop_blank p rest _ _ _ _ _ _ h hacc

theorem phase1_blank :
    ∀ (segs : List Seg) (acc l : List Intersection),
      phase1 segs acc = some l → (∀ it ∈ acc, isBlank it) → ∀ it ∈ l, isBlank it
  | [], acc, l => by
    intro h hacc
    obtain rfl : acc = l := by simpa [phase1] using h
    exact hacc
  | p :: rest, acc, l => by
    unfold phase1
    split
    · intro h; exact absurd h (by simp)
    · dsimp only
      rcases hi : innerLoop p rest
          (acc, acc.any fun it => decide (it.coordinates = p.1),
            acc.any fun it => decide (it.coordinates = p.2)) with _ | ⟨acc2, sF2, eF2⟩
      · intro h; exact absurd h (by simp)
      · intro h hacc
        have hacc2 : ∀ it ∈ acc2, isBlank it :=
          innerLoop_blank p rest acc _ _ acc2 _ _ hi hacc
        refine phase1_blank rest _ l h ?_
        have hblank : ∀ (a : List Intersection) (c : Point),
            (∀ it ∈ a, isBlank it) → ∀ it ∈ a ++ [Intersection.mk' c], isBlank it := by
          intro a c ha it hit
          rcases List.mem_append.mp hit with h2 | h2
          · exact ha it h2
          · obtain rfl : it = Intersection.mk' c := by simpa using h2
            exact ⟨rfl, rfl, rfl, rfl⟩
        split <;> split <;> split <;>
          first
            | exact hacc2
            | exact hblank _ _ hacc2
            | exact hblank _ _ (hblank _ _ hacc2)

/-- C9: in every maze returned by `Maze::new`, every stored path's
`end_index` is strictly below the intersection count, so the lookups
`maze.intersections()[path.end_index]` performed during planning are in
bounds. -/
theorem c9_end_index_in_bounds (segs : List Seg) (m : Maze)
    (h : mazeNew segs = some m) : MazeWF m := by
  unfold mazeNew at h
  rcases hp : phase1 segs [] with _ | l
  · rw [hp] at h; exact absurd h (by simp)
  · rw [hp] at h
    obtain rfl : Maze.mk (segs.foldl phase2Seg l) = m := by simpa using h
    have hblank := phase1_blank segs [] l hp (by simp)
    have hstart : ∀ it ∈ l, ∀ pa, slotMem pa it → pa.end_index < l.length := by
      intro it hit pa hs
      rcases hblank it hit with ⟨h1, h2, h3, h4⟩
      rcases hs with h5 | h5 | h5 | h5 <;> simp_all
    unfold MazeWF
    have main : ∀ (ss : List Seg) (cur : List Intersection),
        (∀ it ∈ cur, ∀ pa, slotMem pa it → pa.end_index < cur.length) →
        ((ss.foldl phase2Seg cur).length = cur.length ∧
          ∀ it ∈ ss.foldl phase2Seg cur, ∀ pa, slotMem pa it →
            pa.end_index < cur.length) := by
      intro ss
      induction ss with
      | nil => intro cur hcur; exact ⟨rfl, hcur⟩
      | cons q qs ih =>
        intro cur hcur
        have h1 := phase2Seg_length cur q
        have h2 := phase2Seg_bounded cur q hcur
        have h3 := ih (phase2Seg cur q) (by rw [h1]; exact h2)
        simp only [List.foldl_cons]
        exact ⟨h3.1.trans h1, by rw [← h1]; exact h3.2⟩
    intro it hit pa hs
    have := (main segs l hstart).2 it hit pa hs
    rwa [(main segs l hstart).1]

/-- Witness for C9: a concrete bounded lookup on the cross maze. -/
theorem c9_witness :
    (nodeAt crossMaze 0).left = some ⟨1, 1⟩ ∧
    (1 : ℕ) < crossMaze.intersections.length :=
  ⟨by decide,
    c9_end_index_in_bounds crossSegs crossMaze (by decide)
      (nodeAt crossMaze 0) (by decide) ⟨1, 1⟩ (Or.inl (by decide))⟩

/-! ## C2 amended: coordinate uniqueness under distinct lines -/

theorem distinctLines_symm :
    Symmetric fun s t : Seg =>
      (isHoriz s → isHoriz t → s.1.2 ≠ t.1.2) ∧
      (¬ isHoriz s → ¬ isHoriz t → s.1.1 ≠ t.1.1) := by
  intro s t h
  exact ⟨fun h1 h2 => (h.1 h2 h1).symm ∘ Eq.symm ∘ Eq.symm,
    fun h1 h2 => (h.2 h2 h1).symm ∘ Eq.symm ∘ Eq.symm⟩

/-- Two vertical segments of the list on the same vertical line are equal. -/
theorem vert_eq_of_same_x {all : List Seg} (hdl : distinctLines all)
    {u v : Seg} (hu : u ∈ all) (hv : v ∈ all)
    (hhu : ¬ isHoriz u) (hhv : ¬ isHoriz v) (hx : u.1.1 = v.1.1) : u = v := by
  by_contra hne
  exact (hdl.forall distinctLines_symm hu hv hne).2 hhu hhv hx

/-- Two horizontal segments of the list on the same horizontal line are
equal. -/
theorem horiz_eq_of_same_y {all : List Seg} (hdl : distinctLines all)
    {u v : Seg} (hu : u ∈ all) (hv : v ∈ all)
    (hhu : isHoriz u) (hhv : isHoriz v) (hy : u.1.2 = v.1.2) : u = v := by
  by_contra hne
  exact (hdl.forall distinctLines_symm hu hv hne).1 hhu hhv hy

theorem crossingOf_horiz {p q : Seg} (hp : isHoriz p) :
    crossingOf p q = (q.1.1, p.1.2) := by
  unfold crossingOf
  rw [if_pos hp]

theorem crossingOf_vert {p q : Seg} (hp : ¬ isHoriz p) :
    crossingOf p q = (p.1.1, q.1.2) := by
  unfold crossingOf
  rw [if_neg hp]

/-- Both endpoints of a horizontal segment share its y; both endpoints of a
vertical proper segment share its x. -/
theorem endpoint_y_of_horiz {s : Seg} (hs : isHoriz s) {e : Point}
    (he : e = s.1 ∨ e = s.2) : e.2 = s.1.2 := by
  rcases he with rfl | rfl
  · rfl
  · exact hs.symm

theorem endpoint_x_of_vert {s : Seg} (hs : properSeg s) (hsv : ¬ isHoriz s)
    {e : Point} (he : e = s.1 ∨ e = s.2) : e.1 = s.1.1 := by
  rcases he with rfl | rfl
  · rfl
  · rcases hs with ⟨h1, _⟩ | ⟨h1, _⟩
    · exact absurd h1 hsv
    · exact h1.symm

/-- Characterization of a successful inner pairing loop: the pushed nodes
are exactly the crossings with the opposite-orientation later segments, and
the flags accumulate the comparisons of those crossings with the segment's
endpoints. -/
theorem innerLoop_some_char (p : Seg) :
    ∀ (others : List Seg) (acc : List Intersection) (sF eF : Bool)
      (acc2 : List Intersection) (sF2 eF2 : Bool),
      innerLoop p others (acc, sF, eF) = some (acc2, sF2, eF2) →
      acc2 = acc ++ (crossList p others).map Intersection.mk' ∧
        sF2 = (sF || (crossList p others).any fun c => decide (c = p.1)) ∧
        eF2 = (eF || (crossList p others).any fun c => decide (c = p.2))
  | [], acc, sF, eF, acc2, sF2, eF2 => by
    intro h
    obtain ⟨rfl, rfl, rfl⟩ : acc = acc2 ∧ sF = sF2 ∧ eF = eF2 := by
      simpa [innerLoop] using h
    simp [crossList]
  | other :: rest, acc, sF, eF, acc2, sF2, eF2 => by
    unfold innerLoop
    split
    · intro h; exact absurd h (by simp)
    · split
      · intro h; exact absurd h (by simp)
      · split
        · next hor =>
          intro h
          obtain ⟨h1, h2, h3⟩ := innerLoop_some_char p rest _ _ _ _ _ _ h
          have hcl : crossList p (other :: rest) =
              crossingOf p other :: crossList p rest := by
            unfold crossList
            rw [List.filter_cons_of_pos (by simpa using hor)]
            rfl
          refine ⟨?_, ?_, ?_⟩
          · rw [h1, hcl]
            simp
          · rw [h2, hcl]
            simp [Bool.or_assoc]
          · rw [h3, hcl]
            simp [Bool.or_assoc]
        · next hor =>
          intro h
          obtain ⟨h1, h2, h3⟩ := innerLoop_some_char p rest _ _ _ _ _ _ h
          have hcl : crossList p (other :: rest) = crossList p rest := by
            unfold crossList
            rw [List.filter_cons_of_neg (by simpa using hor)]
          rw [hcl]
          exact ⟨h1, h2, h3⟩

theorem coordsOf_append (a b : List Intersection) :
    coordsOf (a ++ b) = coordsOf a ++ coordsOf b := by
  simp [coordsOf]

theorem coordsOf_map_mk' :
    ∀ pts : List Point, coordsOf (pts.map Intersection.mk') = pts
  | [] => rfl
  | c :: rest => congrArg (List.cons c) (coordsOf_map_mk' rest)

theorem mem_coordsOf {pt : Point} {a : List Intersection} :
    pt ∈ coordsOf a ↔ ∃ it ∈ a, it.coordinates = pt := by
  simp [coordsOf, eq_comm]

theorem any_coords_iff (a : List Intersection) (c : Point) :
    ((a.any fun it => decide (it.coordinates = c)) = true) ↔ c ∈ coordsOf a := by
  rw [List.any_eq_true]
  unfold coordsOf
  rw [List.mem_map]
  simp only [decide_eq_true_eq]

/-- A proper segment is axis-aligned. -/
theorem properSeg_aligned {s : Seg} (h : properSeg s) : segAligned s := by
  rcases h with ⟨h1, _⟩ | ⟨h1, _⟩
  · exact Or.inr h1
  · exact Or.inl h1

/-- A proper segment has distinct endpoints. -/
theorem properSeg_ne {s : Seg} (h : properSeg s) : s.1 ≠ s.2 := by
  intro hc
  rcases h with ⟨_, h2⟩ | ⟨_, h2⟩
  · exact h2 (congrArg Prod.fst hc)
  · exact h2 (congrArg Prod.snd hc :)

/-- The crossings pushed while processing `p` are fresh: none of them equals
a coordinate already justified by the provenance invariant. -/
theorem crossing_fresh {all done rest : List Seg} {p q : Seg} {pt : Point}
    (hall : all = done ++ p :: rest)
    (hnda : all.Nodup) (hdl : distinctLines all) (hps : ∀ s ∈ all, properSeg s)
    (hq : q ∈ rest) (hor : decide (isHoriz p) ≠ decide (isHoriz q))
    (horig : originOf done (p :: rest) pt) : crossingOf p q ≠ pt := by
  have hpmem : p ∈ all := by rw [hall]; simp
  have hqmem : q ∈ all := by rw [hall]; simp [hq]
  have hdisj : List.Disjoint done (p :: rest) :=
    (List.nodup_append.mp (hall ▸ hnda)).2.2
  have hpnotdone : p ∉ done := fun hc => hdisj hc (List.mem_cons_self p rest)
  have hqnotdone : q ∉ done := fun hc => hdisj hc (List.mem_cons_of_mem p hq)
  have hdone_mem : ∀ s ∈ done, s ∈ all := by
    intro s hs; rw [hall]; exact List.mem_append_left _ hs
  intro hc
  rcases horig with ⟨s, hs, he⟩ | ⟨u, hu, v, hv, horuv, hpt⟩
  · have hsall := hdone_mem s hs
    by_cases hp : isHoriz p
    · have hqv : ¬ isHoriz q := by
        intro hcq; simp [hp, hcq] at hor
      rw [crossingOf_horiz hp] at hc
      by_cases hsh : isHoriz s
      · have : p.1.2 = s.1.2 := by
          rw [← endpoint_y_of_horiz hsh he, ← hc]
        exact hpnotdone (horiz_eq_of_same_y hdl hpmem hsall hp hsh this ▸ hs)
      · have : q.1.1 = s.1.1 := by
          rw [← endpoint_x_of_vert (hps s hsall) hsh he, ← hc]
        exact hqnotdone (vert_eq_of_same_x hdl hqmem hsall hqv hsh this ▸ hs)
    · have hqh : isHoriz q := by
        by_contra hcq; simp [hp, hcq] at hor
      rw [crossingOf_vert hp] at hc
      by_cases hsh : isHoriz s
      · have : q.1.2 = s.1.2 := by
          rw [← endpoint_y_of_horiz hsh he, ← hc]
        exact hqnotdone (horiz_eq_of_same_y hdl hqmem hsall hqh hsh this ▸ hs)
      · have : p.1.1 = s.1.1 := by
          rw [← endpoint_x_of_vert (hps s hsall) hsh he, ← hc]
        exact hpnotdone (vert_eq_of_same_x hdl hpmem hsall hp hsh this ▸ hs)
  · have huall := hdone_mem u hu
    by_cases hp : isHoriz p
    · have hqv : ¬ isHoriz q := by
        intro hcq; simp [hp, hcq] at hor
      rw [crossingOf_horiz hp] at hc
      by_cases huh : isHoriz u
      · have hpt2 : pt.2 = u.1.2 := by
          rw [hpt, crossingOf_horiz huh]
        have : p.1.2 = u.1.2 := by rw [← hpt2, ← hc]
        exact hpnotdone (horiz_eq_of_same_y hdl hpmem huall hp huh this ▸ hu)
      · have hpt1 : pt.1 = u.1.1 := by
          rw [hpt, crossingOf_vert huh]
        have : q.1.1 = u.1.1 := by rw [← hpt1, ← hc]
        exact hqnotdone (vert_eq_of_same_x hdl hqmem huall hqv huh this ▸ hu)
    · have hqh : isHoriz q := by
        by_contra hcq; simp [hp, hcq] at hor
      rw [crossingOf_vert hp] at hc
      by_cases huh : isHoriz u
      · have hpt2 : pt.2 = u.1.2 := by
          rw [hpt, crossingOf_horiz huh]
        have : q.1.2 = u.1.2 := by rw [← hpt2, ← hc]
        exact hqnotdone (horiz_eq_of_same_y hdl hqmem huall hqh huh this ▸ hu)
      · have hpt1 : pt.1 = u.1.1 := by
          rw [hpt, crossingOf_vert huh]
        have : p.1.1 = u.1.1 := by rw [← hpt1, ← hc]
        exact hpnotdone (vert_eq_of_same_x hdl hpmem huall hp huh this ▸ hu)

theorem mem_crossList {c : Point} {p : Seg} {others : List Seg} :
    c ∈ crossList p others ↔
      ∃ q ∈ others, decide (isHoriz p) ≠ decide (isHoriz q) ∧
        c = crossingOf p q := by
  unfold crossList
  constructor
  · intro h
    obtain ⟨q, hq, rfl⟩ := List.mem_map.mp h
    exact ⟨q, List.mem_of_mem_filter hq,
      by simpa using (List.mem_filter.mp hq).2, rfl⟩
  · rintro ⟨q, hq, hor, rfl⟩
    exact List.mem_map.mpr ⟨q, List.mem_filter.mpr ⟨hq, by simpa using hor⟩, rfl⟩

theorem nodup_append_one {l : List Point} {x : Point} (h : l.Nodup)
    (hx : x ∉ l) : (l ++ [x]).Nodup := by
  rw [List.nodup_append]
  refine ⟨h, List.nodup_singleton x, ?_⟩
  intro a ha hb
  rw [List.mem_singleton] at hb
  subst hb
  exact hx ha

/-- Weakening of the provenance invariant when a segment moves from pending
to processed. -/
theorem originOf_step {done rest : List Seg} {p : Seg} {pt : Point}
    (h : originOf done (p :: rest) pt) : originOf (done ++ [p]) rest pt := by
  rcases h with ⟨s, hs, he⟩ | ⟨u, hu, v, hv, hor, hc⟩
  · exact Or.inl ⟨s, by simp [hs], he⟩
  · refine Or.inr ⟨u, by simp [hu], v, ?_, hor, hc⟩
    simp only [List.append_assoc, List.singleton_append]
    exact hv

/-- The crossings that one proper segment forms with later segments on
pairwise distinct lines are pairwise distinct points. -/
theorem crossList_nodup {all : List Seg} (hdl : distinctLines all)
    {p : Seg} {others : List Seg}
    (hsub : ∀ o ∈ others, o ∈ all) (hnd : others.Nodup) :
    (crossList p others).Nodup := by
  unfold crossList
  refine List.Nodup.map_on ?_ (hnd.filter _)
  intro x hx y hy hxy
  have hxo := (List.mem_filter.mp hx).2
  have hyo := (List.mem_filter.mp hy).2
  have hxm := hsub x (List.mem_of_mem_filter hx)
  have hym := hsub y (List.mem_of_mem_filter hy)
  by_cases hp : isHoriz p
  · have hxv : ¬ isHoriz x := by
      intro hc
      simp [hp, hc] at hxo
    have hyv : ¬ isHoriz y := by
      intro hc
      simp [hp, hc] at hyo
    rw [crossingOf_horiz hp, crossingOf_horiz hp] at hxy
    exact vert_eq_of_same_x hdl hxm hym hxv hyv (congrArg Prod.fst hxy :)
  · have hxh : isHoriz x := by
      by_contra hc
      simp [hp, hc] at hxo
    have hyh : isHoriz y := by
      by_contra hc
      simp [hp, hc] at hyo
    rw [crossingOf_vert hp, crossingOf_vert hp] at hxy
    exact horiz_eq_of_same_y hdl hxm hym hxh hyh (congrArg Prod.snd hxy :)

theorem push_one_nodup {a : List Intersection} {c : Point}
    (hnd : (coordsOf a).Nodup) (hc : c ∉ coordsOf a) :
    (coordsOf (a ++ [Intersection.mk' c])).Nodup := by
  rw [coordsOf_append]
  exact nodup_append_one hnd hc

theorem mem_coords_push {a : List Intersection} {c pt : Point} :
    pt ∈ coordsOf (a ++ [Intersection.mk' c]) ↔ pt ∈ coordsOf a ∨ pt = c := by
  rw [coordsOf_append]
  show pt ∈ coordsOf a ++ [c] ↔ _
  simp

theorem push_one_origin {done rest : List Seg} {a : List Intersection}
    {c : Point} (horig : ∀ pt ∈ coordsOf a, originOf done rest pt)
    (hc : originOf done rest c) :
    ∀ pt ∈ coordsOf (a ++ [Intersection.mk' c]), originOf done rest pt := by
  intro pt hpt
  rcases mem_coords_push.mp hpt with h2 | rfl
  · exact horig pt h2
  · exact hc

theorem push_one_not_mem {a : List Intersection} {c x : Point}
    (hx : x ∉ coordsOf a) (hxc : x ≠ c) :
    x ∉ coordsOf (a ++ [Intersection.mk' c]) := by
  intro hmem
  rcases mem_coords_push.mp hmem with h2 | rfl
  · exact hx h2
  · exact hxc rfl

/-- Main phase-1 induction: with proper segments on pairwise distinct lines,
the accumulated coordinates stay pairwise distinct. -/
theorem phase1_nodup_aux (all : List Seg) (hnda : all.Nodup)
    (hdl : distinctLines all) (hps : ∀ s ∈ all, properSeg s) :
    ∀ (rest done : List Seg) (acc l : List Intersection),
      all = done ++ rest →
      (coordsOf acc).Nodup →
      (∀ pt ∈ coordsOf acc, originOf done rest pt) →
      phase1 rest acc = some l →
      (coordsOf l).Nodup
  | [], done, acc, l => by
    intro hall hnd horig h
    obtain rfl : acc = l := by simpa [phase1] using h
    exact hnd
  | p :: rest, done, acc, l => by
    intro hall hnd horig h
    have hpall : p ∈ all := by rw [hall]; simp
    have hrest_sub : ∀ o ∈ rest, o ∈ all := by
      intro o ho; rw [hall]; simp [ho]
    have hcons_nd : (p :: rest).Nodup := (List.nodup_append.mp (hall ▸ hnda)).2.1
    have hrest_nd : rest.Nodup := hcons_nd.of_cons
    unfold phase1 at h
    rw [if_neg (not_not_intro (properSeg_aligned (hps p hpall)))] at h
    dsimp only at h
    rcases hi : innerLoop p rest
        (acc, acc.any fun it => decide (it.coordinates = p.1),
          acc.any fun it => decide (it.coordinates = p.2)) with _ | ⟨acc2, sF2, eF2⟩
    · rw [hi] at h
      exact absurd h (by simp)
    · rw [hi] at h
      dsimp only at h
      obtain ⟨hacc2, hsF2, heF2⟩ := innerLoop_some_char p rest acc _ _ acc2 sF2 eF2 hi
      have coords2 : coordsOf acc2 = coordsOf acc ++ crossList p rest := by
        rw [hacc2, coordsOf_append, coordsOf_map_mk']
      have hnd2 : (coordsOf acc2).Nodup := by
        rw [coords2, List.nodup_append]
        refine ⟨hnd, crossList_nodup hdl hrest_sub hrest_nd, ?_⟩
        intro pt hpt hptc
        obtain ⟨q, hq, hor, rfl⟩ := mem_crossList.mp hptc
        exact crossing_fresh hall hnda hdl hps hq hor (horig _ hpt) rfl
      have horig2 : ∀ pt ∈ coordsOf acc2, originOf (done ++ [p]) rest pt := by
        rw [coords2]
        intro pt hpt
        rcases List.mem_append.mp hpt with h2 | h2
        · exact originOf_step (horig pt h2)
        · obtain ⟨q, hq, hor, rfl⟩ := mem_crossList.mp h2
          exact Or.inr ⟨p, by simp, q, by simp [hq], hor, rfl⟩
      have hsF : sF2 = true ↔ p.1 ∈ coordsOf acc2 := by
        rw [hsF2, Bool.or_eq_true, any_coords_iff, coords2, List.mem_append,
          List.any_eq_true]
        simp only [decide_eq_true_eq, exists_eq_right]
      have heF : eF2 = true ↔ p.2 ∈ coordsOf acc2 := by
        rw [heF2, Bool.or_eq_true, any_coords_iff, coords2, List.mem_append,
          List.any_eq_true]
        simp only [decide_eq_true_eq, exists_eq_right]
      have hne12 : p.1 ≠ p.2 := properSeg_ne (hps p hpall)
      have hall2 : all = (done ++ [p]) ++ rest := by rw [hall]; simp
      have ho1 : originOf (done ++ [p]) rest p.1 := Or.inl ⟨p, by simp, Or.inl rfl⟩
      have ho2 : originOf (done ++ [p]) rest p.2 := Or.inl ⟨p, by simp, Or.inr rfl⟩
      by_cases hgf : goingForward p
      · rw [if_pos hgf] at h
        by_cases he2 : eF2 = true
        · rw [if_pos he2] at h
          by_cases hs2 : sF2 = true
          · rw [if_pos hs2] at h
            exact phase1_nodup_aux all hnda hdl hps rest (done ++ [p]) _ l
              hall2 hnd2 horig2 h
          · rw [if_neg hs2] at h
            have hp1 : p.1 ∉ coordsOf acc2 := fun hm => hs2 (hsF.mpr hm)
            exact phase1_nodup_aux all hnda hdl hps rest (done ++ [p]) _ l
              hall2 (push_one_nodup hnd2 hp1) (push_one_origin horig2 ho1) h
        · rw [if_neg he2] at h
          have hp2 : p.2 ∉ coordsOf acc2 := fun hm => he2 (heF.mpr hm)
          by_cases hs2 : sF2 = true
          · rw [if_pos hs2] at h
            exact phase1_nodup_aux all hnda hdl hps rest (done ++ [p]) _ l
              hall2 (push_one_nodup hnd2 hp2) (push_one_origin horig2 ho2) h
          · rw [if_neg hs2] at h
            have hp1 : p.1 ∉ coordsOf acc2 := fun hm => hs2 (hsF.mpr hm)
            exact phase1_nodup_aux all hnda hdl hps rest (done ++ [p]) _ l
              hall2
              (push_one_nodup (push_one_nodup hnd2 hp1)
                (push_one_not_mem hp2 (Ne.symm hne12)))
              (push_one_origin (push_one_origin horig2 ho1) ho2) h
      · rw [if_neg hgf] at h
        by_cases hs2 : sF2 = true
        · rw [if_pos hs2] at h
          by_cases he2 : eF2 = true
          · rw [if_pos he2] at h
            exact phase1_nodup_aux all hnda hdl hps rest (done ++ [p]) _ l
              hall2 hnd2 horig2 h
          · rw [if_neg he2] at h
            have hp2 : p.2 ∉ coordsOf acc2 := fun hm => he2 (heF.mpr hm)
            exact phase1_nodup_aux all hnda hdl hps rest (done ++ [p]) _ l
              hall2 (push_one_nodup hnd2 hp2) (push_one_origin horig2 ho2) h
        · rw [if_neg hs2] at h
          have hp1 : p.1 ∉ coordsOf acc2 := fun hm => hs2 (hsF.mpr hm)
          by_cases he2 : eF2 = true
          · rw [if_pos he2] at h
            exact phase1_nodup_aux all hnda hdl hps rest (done ++ [p]) _ l
              hall2 (push_one_nodup hnd2 hp1) (push_one_origin horig2 ho1) h
          · rw [if_neg he2] at h
            have hp2 : p.2 ∉ coordsOf acc2 := fun hm => he2 (heF.mpr hm)
            exact phase1_nodup_aux all hnda hdl hps rest (done ++ [p]) _ l
              hall2
              (push_one_nodup (push_one_nodup hnd2 hp2)
                (push_one_not_mem hp1 hne12))
              (push_one_origin (push_one_origin horig2 ho2) ho1) h

/-! ## Phase 2 leaves the coordinates untouched -/

theorem set_same :
    ∀ (l : List Point) (i : ℕ) (a : Point), l.get? i = some a → l.set i a = l
  | [], _, _ => by simp
  | x :: xs, 0, a => by
    intro h
    obtain rfl : x = a := by simpa using h
    rfl
  | x :: xs, i + 1, a => by
    intro h
    show x :: xs.set i a = x :: xs
    rw [set_same xs i a (by simpa using h)]

theorem coordsOf_setAt (l : List Intersection) (i : ℕ)
    (f : Intersection → Intersection)
    (hf : ∀ it, (f it).coordinates = it.coordinates) :
    coordsOf (setAt l i f) = coordsOf l := by
  unfold setAt
  split
  · rfl
  · next it0 hget =>
    unfold coordsOf
    rw [List.map_set, hf it0]
    refine set_same _ i _ ?_
    rw [List.get?_map, hget]
    rfl

theorem writeRec_coordinates (p : Seg) (pPrev pNext : Option Path)
    (it : Intersection) :
    (writeRec p pPrev pNext it).coordinates = it.coordinates := by
  unfold writeRec
  by_cases hgf : goingForward p <;> by_cases hh : isHoriz p <;>
    simp only [hgf, hh, if_true, if_false, ite_true, ite_false]

theorem coordsOf_updateSlots (p : Seg) (i : ℕ) (pPrev pNext : Option Path)
    (l : List Intersection) :
    coordsOf (updateSlots p i pPrev pNext l) = coordsOf l := by
  unfold updateSlots
  exact coordsOf_setAt l i _ (writeRec_coordinates p pPrev pNext)

theorem coordsOf_chainWrites (p : Seg) :
    ∀ (prev : Option (ℚ × ℕ)) (rest : List (ℚ × ℕ)) (l : List Intersection),
      coordsOf (chainWrites p prev rest l) = coordsOf l
  | _, [], l => rfl
  | prev, (d, i) :: rest, l => by
    unfold chainWrites
    rw [coordsOf_chainWrites p (some (d, i)) rest _, coordsOf_updateSlots]

theorem coordsOf_phase2 (segs : List Seg) (l : List Intersection) :
    coordsOf (segs.foldl phase2Seg l) = coordsOf l := by
  induction segs generalizing l with
  | nil => rfl
  | cons p rest ih =>
    simp only [List.foldl_cons]
    rw [ih (phase2Seg l p)]
    unfold phase2Seg
    exact coordsOf_chainWrites p none _ l

theorem coordsOf_get? (L : List Intersection) (i : ℕ) (hi : i < L.length) :
    (coordsOf L).get? i = some ((L.getD i dummyIntersection).coordinates) := by
  rcases hg : L.get? i with _ | it
  · rw [List.get?_eq_none] at hg
    omega
  · have hgD : L.getD i dummyIntersection = it := by
      simp [List.getD, List.get?_eq_getElem?] at hg ⊢
      simp [hg]
    unfold coordsOf
    rw [List.get?_map, hg, hgD]
    rfl

/-- C2 (amended): for every valid input segment list in which every segment
differs in exactly one axis, no two horizontal segments share a horizontal
line and no two vertical segments share a vertical line, the maze returned
by `Maze::new` holds each coordinate at most once: coordinate equality of
two in-bounds indices forces index equality. -/
theorem c2_amended_unique_coordinates (segs : List Seg) (m : Maze)
    (hps : ∀ s ∈ segs, properSeg s) (hdl : distinctLines segs)
    (h : mazeNew segs = some m) :
    ∀ i j, i < m.intersections.length → j < m.intersections.length →
      (nodeAt m i).coordinates = (nodeAt m j).coordinates → i = j := by
  unfold mazeNew at h
  rcases hp : phase1 segs [] with _ | l
  · rw [hp] at h
    exact absurd h (by simp)
  · rw [hp] at h
    have hnda : segs.Nodup := by
      by_contra hc
      rw [(phase1_none_iff segs []).mpr (Or.inr hc)] at hp
      exact absurd hp (by simp)
    obtain rfl : Maze.mk (segs.foldl phase2Seg l) = m := by simpa using h
    have hnd : (coordsOf (segs.foldl phase2Seg l)).Nodup := by
      rw [coordsOf_phase2]
      exact phase1_nodup_aux segs hnda hdl hps segs [] [] l rfl
        (by simp [coordsOf]) (by simp [coordsOf]) hp
    intro i j hi hj hco
    have hi2 : i < (segs.foldl phase2Seg l).length := hi
    have hj2 : j < (segs.foldl phase2Seg l).length := hj
    refine List.get?_inj
      (?_ : i < (coordsOf (segs.foldl phase2Seg l)).length) hnd ?_
    · simpa [coordsOf] using hi2
    · rw [coordsOf_get? _ i hi2, coordsOf_get? _ j hj2]
      exact congrArg some hco

/-- Instantiation of the amended coordinate-uniqueness theorem on the
plus-shaped two-segment maze. -/
theorem c2_amended_witness : (0 : ℕ) = 0 :=
  c2_amended_unique_coordinates crossSegs crossMaze (by decide) (by decide)
    (by decide) 0 0 (by decide) (by decide) rfl

theorem insertByKey_perm (x : ℚ × ℕ) :
    ∀ l : List (ℚ × ℕ), List.Perm (insertByKey x l) (x :: l)
  | [] => List.Perm.refl _
  | y :: ys => by
    unfold insertByKey
    split
    · exact List.Perm.refl _
    · exact ((insertByKey_perm x ys).cons y).trans (List.Perm.swap x y ys)

theorem sortByKey_perm : ∀ l : List (ℚ × ℕ), List.Perm (sortByKey l) l
  | [] => List.Perm.refl _
  | x :: xs =>
    (insertByKey_perm x (sortByKey xs)).trans ((sortByKey_perm xs).cons x)

/-- The sorted matched list is a permutation of the filtered enumeration. -/
theorem sortedMatches_perm (p : Seg) (l : List Intersection) :
    List.Perm (sortedMatches p l)
      ((l.enum.filter fun q => decide (matchPred p q.2.coordinates)).map
        fun q => (distAlong p q.2.coordinates, q.1)) :=
  sortByKey_perm _

/-- Membership in the sorted matched list, phrased through the node list. -/
theorem mem_sortedMatches {p : Seg} {l : List Intersection} {d : ℚ} {k : ℕ} :
    (d, k) ∈ sortedMatches p l ↔
      ∃ it, l.get? k = some it ∧ matchPred p it.coordinates ∧
        d = distAlong p it.coordinates := by
  rw [(sortedMatches_perm p l).mem_iff]
  constructor
  · intro h
    simp only [List.mem_map, List.mem_filter] at h
    obtain ⟨⟨i, it⟩, ⟨hmem, hm⟩, heq⟩ := h
    obtain ⟨h1, h2⟩ := Prod.ext_iff.mp heq
    dsimp only at h1 h2
    subst h2
    rw [List.mk_mem_enum_iff_getElem?] at hmem
    refine ⟨it, ?_, by simpa using hm, h1.symm⟩
    rw [List.get?_eq_getElem?]
    exact hmem
  · rintro ⟨it, hget, hm, rfl⟩
    refine List.mem_map.mpr
      ⟨(k, it), List.mem_filter.mpr ⟨?_, by simpa using hm⟩, rfl⟩
    rw [List.mk_mem_enum_iff_getElem?, ← List.get?_eq_getElem?]
    exact hget

/-- The indices of the sorted matched list repeat no index. -/
theorem sortedMatches_indices_nodup (p : Seg) (l : List Intersection) :
    ((sortedMatches p l).map Prod.snd).Nodup := by
  have hperm := (sortedMatches_perm p l).map Prod.snd
  refine hperm.nodup_iff.mpr ?_
  rw [List.map_map]
  have hsub :
      ((l.enum.filter fun q => decide (matchPred p q.2.coordinates)).map
          (Prod.snd ∘ fun q => (distAlong p q.2.coordinates, q.1))) =
        ((l.enum.filter fun q => decide (matchPred p q.2.coordinates)).map
          Prod.fst) :=
    List.map_congr_left fun q _ => rfl
  rw [hsub]
  have hsl : List.Sublist
      ((l.enum.filter fun q => decide (matchPred p q.2.coordinates)).map
        Prod.fst) (l.enum.map Prod.fst) :=
    (List.filter_sublist _).map Prod.fst
  exact hsl.nodup (by rw [List.enum_map_fst]; exact List.nodup_range _)

/-- The written indices of a chain are exactly the matched indices. -/
theorem chainPairs_fst_eq :
    ∀ (prev : Option (ℚ × ℕ)) (S : List (ℚ × ℕ)),
      (chainPairs prev S).map Prod.fst = S.map Prod.snd
  | _, [] => rfl
  | prev, (d, i) :: rest => by
    unfold chainPairs
    simp only [List.map_cons]
    rw [chainPairs_fst_eq (some (d, i)) rest]

/-- Every matched index receives a chain write. -/
theorem chainPairs_exists :
    ∀ (prev : Option (ℚ × ℕ)) (S : List (ℚ × ℕ)) (d : ℚ) (k : ℕ),
      (d, k) ∈ S → ∃ pp pn, (k, pp, pn) ∈ chainPairs prev S
  | _, [], _, _ => by simp
  | prev, (d0, i0) :: rest, d, k => by
    intro h
    rcases List.mem_cons.mp h with heq | h2
    · obtain ⟨h1, h2⟩ := Prod.ext_iff.mp heq
      dsimp only at h1 h2
      subst h2
      subst h1
      refine ⟨prev.map fun q => Path.mk q.2 (d - q.1),
        rest.head?.map fun q => Path.mk q.2 (q.1 - d), ?_⟩
      unfold chainPairs
      exact List.mem_cons_self _ _
    · obtain ⟨pp, pn, hm⟩ := chainPairs_exists (some (d0, i0)) rest d k h2
      exact ⟨pp, pn, by unfold chainPairs; exact List.mem_cons_of_mem _ hm⟩

/-- A chain write's `path_to_next` to node `j` is matched by `j`'s
`path_to_previous` back to the writer, with the same length. -/
theorem chainPairs_next :
    ∀ (prev : Option (ℚ × ℕ)) (S : List (ℚ × ℕ)) (k : ℕ)
      (pp pn : Option Path) (j : ℕ) (len : ℚ),
      (k, pp, pn) ∈ chainPairs prev S → pn = some ⟨j, len⟩ →
      ∃ pn2, (j, some ⟨k, len⟩, pn2) ∈ chainPairs prev S
  | _, [], k, pp, pn, j, len => by simp [chainPairs]
  | prev, (d, i) :: rest, k, pp, pn, j, len => by
    intro hm hpn
    unfold chainPairs at hm
    rcases List.mem_cons.mp hm with heq | htl
    · obtain ⟨h1, h23⟩ := Prod.ext_iff.mp heq
      obtain ⟨h2, h3⟩ := Prod.ext_iff.mp h23
      dsimp only at h1 h2 h3
      subst h1
      rw [hpn] at h3
      cases rest with
      | nil => exact absurd h3 (by simp)
      | cons q0 rest' =>
        obtain ⟨e0, j0⟩ := q0
        rw [List.head?_cons, Option.map_some'] at h3
        have h6 := Option.some_injective _ h3
        injection h6 with h4 h5
        refine ⟨rest'.head?.map fun q => Path.mk q.2 (q.1 - e0), ?_⟩
        unfold chainPairs
        refine List.mem_cons_of_mem _ ?_
        unfold chainPairs
        rw [h4, h5]
        exact List.mem_cons_self _ _
    · obtain ⟨pn2, h2⟩ :=
        chainPairs_next (some (d, i)) rest k pp pn j len htl hpn
      refine ⟨pn2, ?_⟩
      unfold chainPairs
      exact List.mem_cons_of_mem _ h2

/-- A chain write's `path_to_previous` to node `j` is matched by `j`'s
`path_to_next` back to the writer, unless it points at the seed. -/
theorem chainPairs_prev :
    ∀ (prev : Option (ℚ × ℕ)) (S : List (ℚ × ℕ)) (k : ℕ)
      (pp pn : Option Path) (j : ℕ) (len : ℚ),
      (k, pp, pn) ∈ chainPairs prev S → pp = some ⟨j, len⟩ →
      (∃ pp2, (j, pp2, some ⟨k, len⟩) ∈ chainPairs prev S) ∨
        ∃ d0, prev = some (d0, j) ∧ S.head? = some (d0 + len, k)
  | _, [], k, pp, pn, j, len => by simp [chainPairs]
  | prev, (d, i) :: rest, k, pp, pn, j, len => by
    intro hm hpp
    unfold chainPairs at hm
    rcases List.mem_cons.mp hm with heq | htl
    · obtain ⟨h1, h23⟩ := Prod.ext_iff.mp heq
      obtain ⟨h2, h3⟩ := Prod.ext_iff.mp h23
      dsimp only at h1 h2 h3
      subst h1
      rw [hpp] at h2
      cases prev with
      | none => exact absurd h2 (by simp)
      | some q1 =>
        obtain ⟨e1, j1⟩ := q1
        rw [Option.map_some'] at h2
        have h6 := Option.some_injective _ h2
        injection h6 with h4 h5
        refine Or.inr ⟨e1, ?_, ?_⟩
        · rw [h4]
        · rw [List.head?_cons, Option.some.injEq]
          refine Prod.ext_iff.mpr ⟨?_, rfl⟩
          dsimp only
          rw [h5]
          ring
    · rcases chainPairs_prev (some (d, i)) rest k pp pn j len htl hpp with
        ⟨pp2, h2⟩ | ⟨d0, hd0, hhd⟩
      · refine Or.inl ⟨pp2, ?_⟩
        unfold chainPairs
        exact List.mem_cons_of_mem _ h2
      · have h6 := Option.some_injective _ hd0
        injection h6 with h7 h8
        refine Or.inl ⟨prev.map fun q => Path.mk q.2 (d - q.1), ?_⟩
        unfold chainPairs
        have hh : rest.head?.map (fun q => Path.mk q.2 (q.1 - d)) =
            some ⟨k, len⟩ := by
          rw [hhd, Option.map_some']
          refine congrArg some ?_
          rw [Path.mk.injEq]
          exact ⟨rfl, by rw [h7]; ring⟩
        rw [← hh, h8]
        exact List.mem_cons_self _ _

/-- Reading back the written position of `setAt`. -/
theorem setAt_get?_self (l : List Intersection) (i : ℕ)
    (f : Intersection → Intersection) :
    (setAt l i f).get? i = (l.get? i).map f := by
  unfold setAt
  split
  · next hg => rw [hg]; rfl
  · next it hg =>
    have hi : i < l.length := by
      rw [List.get?_eq_getElem?] at hg
      exact (List.getElem?_eq_some.mp hg).1
    rw [List.get?_set_eq_of_lt _ hi, hg]
    rfl

/-- Reading back an unwritten position of `setAt`. -/
theorem setAt_get?_ne (l : List Intersection) {i k : ℕ} (hik : i ≠ k)
    (f : Intersection → Intersection) : (setAt l i f).get? k = l.get? k := by
  unfold setAt
  split
  · rfl
  · exact List.get?_set_ne _ _ hik

theorem updateSlots_get?_self (p : Seg) (i : ℕ) (pp pn : Option Path)
    (l : List Intersection) :
    (updateSlots p i pp pn l).get? i = (l.get? i).map (writeRec p pp pn) :=
  setAt_get?_self l i _

theorem updateSlots_get?_ne (p : Seg) {i k : ℕ} (hik : i ≠ k)
    (pp pn : Option Path) (l : List Intersection) :
    (updateSlots p i pp pn l).get? k = l.get? k :=
  setAt_get?_ne l hik _

/-- A position outside the written index set is unchanged by the write
fold. -/
theorem updatesFold_get?_ne (p : Seg) :
    ∀ (entries : List (ℕ × Option Path × Option Path))
      (l : List Intersection) (k : ℕ),
      (∀ e ∈ entries, e.1 ≠ k) →
      ((entries.foldl (fun acc e => updateSlots p e.1 e.2.1 e.2.2 acc)
        l).get? k) = l.get? k
  | [], _, _ => fun _ => rfl
  | e :: es, l, k => by
    intro h
    rw [List.foldl_cons]
    rw [updatesFold_get?_ne p es _ k
      fun e2 he2 => h e2 (List.mem_cons_of_mem _ he2)]
    exact updateSlots_get?_ne p (h e (List.mem_cons_self _ _)) e.2.1 e.2.2 l

/-- With pairwise-distinct indices, a written position holds exactly its own
write applied to the original record. -/
theorem updatesFold_get?_self (p : Seg) :
    ∀ (entries : List (ℕ × Option Path × Option Path))
      (l : List Intersection) (k : ℕ) (pp pn : Option Path),
      (entries.map Prod.fst).Nodup → (k, pp, pn) ∈ entries →
      ((entries.foldl (fun acc e => updateSlots p e.1 e.2.1 e.2.2 acc)
        l).get? k) = (l.get? k).map (writeRec p pp pn)
  | [], _, _, _, _ => by simp
  | e :: es, l, k, pp, pn => by
    intro hnd hm
    have hnd2 : (e.1 :: es.map Prod.fst).Nodup := by simpa using hnd
    rw [List.foldl_cons]
    rcases List.mem_cons.mp hm with heq | htl
    · subst heq
      have hknotin : ∀ e2 ∈ es, e2.1 ≠ k := by
        intro e2 he2 hc
        have h3 : e2.1 ∈ es.map Prod.fst := List.mem_map_of_mem Prod.fst he2
        rw [hc] at h3
        exact (List.nodup_cons.mp hnd2).1 h3
      rw [updatesFold_get?_ne p es _ k hknotin]
      exact updateSlots_get?_self p k pp pn l
    · have hk_in : k ∈ es.map Prod.fst := by
        have := List.mem_map_of_mem Prod.fst htl
        simpa using this
      have hne : e.1 ≠ k := by
        intro hc
        have h3 := (List.nodup_cons.mp hnd2).1
        rw [hc] at h3
        exact h3 hk_in
      rw [updatesFold_get?_self p es _ k pp pn (List.nodup_cons.mp hnd2).2 htl]
      rw [updateSlots_get?_ne p hne e.2.1 e.2.2 l]

/-- The chain walk is the fold of its write list. -/
theorem chainWrites_eq_fold (p : Seg) :
    ∀ (prev : Option (ℚ × ℕ)) (S : List (ℚ × ℕ)) (l : List Intersection),
      chainWrites p prev S l =
        (chainPairs prev S).foldl
          (fun acc e => updateSlots p e.1 e.2.1 e.2.2 acc) l
  | _, [], _ => rfl
  | prev, (d, i) :: rest, l => by
    unfold chainWrites chainPairs
    rw [List.foldl_cons]
    exact chainWrites_eq_fold p (some (d, i)) rest _

/-- Value of a written node after one phase-2 segment. -/
theorem phase2Seg_get?_entry (l : List Intersection) (q : Seg)
    {k : ℕ} {pp pn : Option Path}
    (h : (k, pp, pn) ∈ chainPairs none (sortedMatches q l)) :
    (phase2Seg l q).get? k = (l.get? k).map (writeRec q pp pn) := by
  unfold phase2Seg
  rw [chainWrites_eq_fold]
  refine updatesFold_get?_self q _ l k pp pn ?_ h
  rw [chainPairs_fst_eq]
  exact sortedMatches_indices_nodup q l

/-- Value of an unwritten node after one phase-2 segment. -/
theorem phase2Seg_get?_untouched (l : List Intersection) (q : Seg) {k : ℕ}
    (h : ∀ e ∈ chainPairs none (sortedMatches q l), e.1 ≠ k) :
    (phase2Seg l q).get? k = l.get? k := by
  unfold phase2Seg
  rw [chainWrites_eq_fold]
  exact updatesFold_get?_ne q _ l k h

theorem getD_congr {l l2 : List Intersection} {k : ℕ}
    (h : l.get? k = l2.get? k) :
    l.getD k dummyIntersection = l2.getD k dummyIntersection := by
  rw [List.getD_eq_get?, List.getD_eq_get?, h]

/-- A chain entry's index is in bounds and its node is matched. -/
theorem match_of_chainPairs_entry {q : Seg} {l : List Intersection} {k : ℕ}
    {pp pn : Option Path}
    (h : (k, pp, pn) ∈ chainPairs none (sortedMatches q l)) :
    matchPred q ((l.getD k dummyIntersection).coordinates) ∧ k < l.length := by
  have hmem : k ∈ (sortedMatches q l).map Prod.snd := by
    rw [← chainPairs_fst_eq none]
    exact List.mem_map_of_mem Prod.fst h
  obtain ⟨⟨d2, k2⟩, hm2, hk2⟩ := List.mem_map.mp hmem
  dsimp only at hk2
  subst hk2
  obtain ⟨it, hget, hmp, _⟩ := mem_sortedMatches.mp hm2
  have hk : k2 < l.length := by
    rw [List.get?_eq_getElem?] at hget
    exact (List.getElem?_eq_some.mp hget).1
  have hv : l.getD k2 dummyIntersection = it := by
    rw [List.getD_eq_get?, hget]
    rfl
  refine ⟨?_, hk⟩
  rw [hv]
  exact hmp

theorem phase2Seg_getD_entry (l : List Intersection) (q : Seg)
    {k : ℕ} {pp pn : Option Path}
    (h : (k, pp, pn) ∈ chainPairs none (sortedMatches q l)) :
    (phase2Seg l q).getD k dummyIntersection =
      writeRec q pp pn (l.getD k dummyIntersection) := by
  have hk : k < l.length := (match_of_chainPairs_entry h).2
  have hg := phase2Seg_get?_entry l q h
  have hsome : l.get? k = some (l.getD k dummyIntersection) := by
    rcases hx : l.get? k with _ | it
    · rw [List.get?_eq_none] at hx
      omega
    · rw [List.getD_eq_get?, hx]
      rfl
  rw [List.getD_eq_get?, hg, hsome]
  rfl

theorem phase2Seg_getD_untouched (l : List Intersection) (q : Seg) {k : ℕ}
    (h : ∀ pp pn, (k, pp, pn) ∉ chainPairs none (sortedMatches q l)) :
    (phase2Seg l q).getD k dummyIntersection =
      l.getD k dummyIntersection := by
  refine getD_congr (phase2Seg_get?_untouched l q ?_)
  rintro ⟨a, bc⟩ he hc
  obtain ⟨b, c⟩ := bc
  dsimp only at hc
  subst hc
  exact h b c he

/-- Pointwise coordinate preservation through one phase-2 segment. -/
theorem phase2Seg_coords (l : List Intersection) (q : Seg) (k : ℕ) :
    ((phase2Seg l q).getD k dummyIntersection).coordinates =
      (l.getD k dummyIntersection).coordinates := by
  by_cases hm : ∃ pp pn, (k, pp, pn) ∈ chainPairs none (sortedMatches q l)
  · obtain ⟨pp, pn, hme⟩ := hm
    rw [phase2Seg_getD_entry l q hme]
    exact writeRec_coordinates q pp pn _
  · push_neg at hm
    rw [phase2Seg_getD_untouched l q hm]

theorem writeRec_horiz_fwd (q : Seg) (hh : isHoriz q) (hgf : goingForward q)
    (pp pn : Option Path) (it : Intersection) :
    writeRec q pp pn it = { it with left := pp, right := pn } := by
  unfold writeRec
  rw [if_pos hgf, if_pos hh]

theorem writeRec_horiz_bwd (q : Seg) (hh : isHoriz q)
    (hgf : ¬ goingForward q) (pp pn : Option Path) (it : Intersection) :
    writeRec q pp pn it = { it with right := pp, left := pn } := by
  unfold writeRec
  rw [if_neg hgf, if_pos hh]

theorem writeRec_vert_fwd (q : Seg) (hh : ¬ isHoriz q) (hgf : goingForward q)
    (pp pn : Option Path) (it : Intersection) :
    writeRec q pp pn it = { it with backward := pp, forward := pn } := by
  unfold writeRec
  rw [if_pos hgf, if_neg hh]

theorem writeRec_vert_bwd (q : Seg) (hh : ¬ isHoriz q)
    (hgf : ¬ goingForward q) (pp pn : Option Path) (it : Intersection) :
    writeRec q pp pn it = { it with forward := pp, backward := pn } := by
  unfold writeRec
  rw [if_neg hgf, if_neg hh]

/-- A node matched by a horizontal segment lies on its line. -/
theorem matchPred_y {q : Seg} (hh : isHoriz q) {c : Point}
    (h : matchPred q c) : c.2 = q.1.2 := by
  unfold matchPred at h
  by_cases hgf : goingForward q
  · rw [if_pos hgf, if_pos hh] at h
    exact h.1
  · rw [if_neg hgf, if_pos hh] at h
    exact h.1

/-- A node matched by a vertical segment lies on its line. -/
theorem matchPred_x {q : Seg} (hh : ¬ isHoriz q) {c : Point}
    (h : matchPred q c) : c.1 = q.1.1 := by
  unfold matchPred at h
  by_cases hgf : goingForward q
  · rw [if_pos hgf, if_neg hh] at h
    exact h.1
  · rw [if_neg hgf, if_neg hh] at h
    exact h.1

/-- One phase-2 segment preserves symmetry and provenance of the slot pair it
never writes. -/
theorem step_slot_keep (q : Seg) (cur : List Intersection)
    (getA getB : Intersection → Option Path)
    (hk : ∀ pp pn it, getA (writeRec q pp pn it) = getA it ∧
      getB (writeRec q pp pn it) = getB it)
    (P : Seg → Prop) (done : List Seg)
    (hsym : SlotSym getA getB cur)
    (hprov : SlotProv P getA getB done cur) :
    SlotSym getA getB (phase2Seg cur q) ∧
      SlotProv P getA getB (done ++ [q]) (phase2Seg cur q) := by
  have hAB : ∀ m : ℕ,
      getA ((phase2Seg cur q).getD m dummyIntersection) =
        getA (cur.getD m dummyIntersection) ∧
      getB ((phase2Seg cur q).getD m dummyIntersection) =
        getB (cur.getD m dummyIntersection) := by
    intro m
    by_cases hm : ∃ pp pn, (m, pp, pn) ∈ chainPairs none (sortedMatches q cur)
    · obtain ⟨pp, pn, hme⟩ := hm
      rw [phase2Seg_getD_entry cur q hme]
      exact hk pp pn _
    · push_neg at hm
      rw [phase2Seg_getD_untouched cur q hm]
      exact ⟨rfl, rfl⟩
  constructor
  · intro k j len
    constructor
    · intro h
      rw [(hAB j).1]
      exact (hsym k j len).1 (by rw [← (hAB k).2]; exact h)
    · intro h
      rw [(hAB j).2]
      exact (hsym k j len).2 (by rw [← (hAB k).1]; exact h)
  · intro k j len h
    have h2 : getA (cur.getD k dummyIntersection) = some ⟨j, len⟩ ∨
        getB (cur.getD k dummyIntersection) = some ⟨j, len⟩ := by
      rcases h with h | h
      · exact Or.inl (by rw [← (hAB k).1]; exact h)
      · exact Or.inr (by rw [← (hAB k).2]; exact h)
    obtain ⟨s, hs, hP, hc1, hc2⟩ := hprov k j len h2
    refine ⟨s, List.mem_append_left _ hs, hP, ?_, ?_⟩
    · rw [phase2Seg_coords]
      exact hc1
    · rw [phase2Seg_coords]
      exact hc2

/-- One phase-2 segment installs symmetric edges in the slot pair it writes
and preserves the old ones, provided no processed segment of the same
orientation can match a node this segment matches. -/
theorem step_slot_sym (q : Seg) (cur : List Intersection)
    (getA getB : Intersection → Option Path)
    (hw : ∀ pp pn it, getA (writeRec q pp pn it) =
        (if goingForward q then pp else pn) ∧
      getB (writeRec q pp pn it) = (if goingForward q then pn else pp))
    (P : Seg → Prop) (hPq : P q) (done : List Seg)
    (huniq : ∀ s ∈ done, P s → ∀ c : Point, matchPred s c → matchPred q c →
      False)
    (hsym : SlotSym getA getB cur)
    (hprov : SlotProv P getA getB done cur) :
    SlotSym getA getB (phase2Seg cur q) ∧
      SlotProv P getA getB (done ++ [q]) (phase2Seg cur q) := by
  have hsym2 : SlotSym getA getB (phase2Seg cur q) := by
    intro k j len
    by_cases hk : ∃ pp pn, (k, pp, pn) ∈ chainPairs none (sortedMatches q cur)
    · obtain ⟨pp, pn, hke⟩ := hk
      have hkv := phase2Seg_getD_entry cur q hke
      by_cases hgf : goingForward q
      · constructor
        · intro h
          rw [hkv, (hw pp pn (cur.getD k dummyIntersection)).2,
            if_pos hgf] at h
          obtain ⟨pn2, hje⟩ := chainPairs_next none _ k pp pn j len hke h
          rw [phase2Seg_getD_entry cur q hje,
            (hw (some ⟨k, len⟩) pn2 (cur.getD j dummyIntersection)).1,
            if_pos hgf]
        · intro h
          rw [hkv, (hw pp pn (cur.getD k dummyIntersection)).1,
            if_pos hgf] at h
          rcases chainPairs_prev none _ k pp pn j len hke h with
            ⟨pp2, hje⟩ | ⟨d0, hd0, _⟩
          · rw [phase2Seg_getD_entry cur q hje,
              (hw pp2 (some ⟨k, len⟩) (cur.getD j dummyIntersection)).2,
              if_pos hgf]
          · exact absurd hd0 (by simp)
      · constructor
        · intro h
          rw [hkv, (hw pp pn (cur.getD k dummyIntersection)).2,
            if_neg hgf] at h
          rcases chainPairs_prev none _ k pp pn j len hke h with
            ⟨pp2, hje⟩ | ⟨d0, hd0, _⟩
          · rw [phase2Seg_getD_entry cur q hje,
              (hw pp2 (some ⟨k, len⟩) (cur.getD j dummyIntersection)).1,
              if_neg hgf]
          · exact absurd hd0 (by simp)
        · intro h
          rw [hkv, (hw pp pn (cur.getD k dummyIntersection)).1,
            if_neg hgf] at h
          obtain ⟨pn2, hje⟩ := chainPairs_next none _ k pp pn j len hke h
          rw [phase2Seg_getD_entry cur q hje,
            (hw (some ⟨k, len⟩) pn2 (cur.getD j dummyIntersection)).2,
            if_neg hgf]
    · push_neg at hk
      have hkval := phase2Seg_getD_untouched cur q hk
      constructor
      · intro h
        rw [hkval] at h
        have hold := (hsym k j len).1 h
        have hj : ∀ pp pn,
            (j, pp, pn) ∉ chainPairs none (sortedMatches q cur) := by
          intro pp pn hje
          obtain ⟨hmj, _⟩ := match_of_chainPairs_entry hje
          obtain ⟨s, hs, hP, _, hc2⟩ := hprov k j len (Or.inr h)
          exact huniq s hs hP _ hc2 hmj
        rw [phase2Seg_getD_untouched cur q hj]
        exact hold
      · intro h
        rw [hkval] at h
        have hold := (hsym k j len).2 h
        have hj : ∀ pp pn,
            (j, pp, pn) ∉ chainPairs none (sortedMatches q cur) := by
          intro pp pn hje
          obtain ⟨hmj, _⟩ := match_of_chainPairs_entry hje
          obtain ⟨s, hs, hP, _, hc2⟩ := hprov k j len (Or.inl h)
          exact huniq s hs hP _ hc2 hmj
        rw [phase2Seg_getD_untouched cur q hj]
        exact hold
  refine ⟨hsym2, ?_⟩
  intro k j len h
  by_cases hk : ∃ pp pn, (k, pp, pn) ∈ chainPairs none (sortedMatches q cur)
  · obtain ⟨pp, pn, hke⟩ := hk
    have hkv := phase2Seg_getD_entry cur q hke
    have hedge : pp = some ⟨j, len⟩ ∨ pn = some ⟨j, len⟩ := by
      rcases h with h | h
      · rw [hkv, (hw pp pn (cur.getD k dummyIntersection)).1] at h
        by_cases hgf : goingForward q
        · rw [if_pos hgf] at h
          exact Or.inl h
        · rw [if_neg hgf] at h
          exact Or.inr h
      · rw [hkv, (hw pp pn (cur.getD k dummyIntersection)).2] at h
        by_cases hgf : goingForward q
        · rw [if_pos hgf] at h
          exact Or.inr h
        · rw [if_neg hgf] at h
          exact Or.inl h
    have hje : ∃ pp2 pn2,
        (j, pp2, pn2) ∈ chainPairs none (sortedMatches q cur) := by
      rcases hedge with h2 | h2
      · rcases chainPairs_prev none _ k pp pn j len hke h2 with
          ⟨pp2, hje⟩ | ⟨d0, hd0, _⟩
        · exact ⟨pp2, _, hje⟩
        · exact absurd hd0 (by simp)
      · obtain ⟨pn2, hje⟩ := chainPairs_next none _ k pp pn j len hke h2
        exact ⟨_, pn2, hje⟩
    obtain ⟨pp2, pn2, hje⟩ := hje
    obtain ⟨hmk, _⟩ := match_of_chainPairs_entry hke
    obtain ⟨hmj, _⟩ := match_of_chainPairs_entry hje
    refine ⟨q, List.mem_append_right _ (List.mem_singleton.mpr rfl), hPq,
      ?_, ?_⟩
    · rw [phase2Seg_coords]
      exact hmk
    · rw [phase2Seg_coords]
      exact hmj
  · push_neg at hk
    rw [phase2Seg_getD_untouched cur q hk] at h
    obtain ⟨s, hs, hP, hc1, hc2⟩ := hprov k j len h
    refine ⟨s, List.mem_append_left _ hs, hP, ?_, ?_⟩
    · rw [phase2Seg_coords]
      exact hc1
    · rw [phase2Seg_coords]
      exact hc2

/-- Folding phase 2 over the remaining segments keeps both slot pairs
symmetric, given distinct lines and no repeated segments. -/
theorem phase2_fold_sym (all : List Seg) (hnd : all.Nodup)
    (hdl : distinctLines all) :
    ∀ (pend done : List Seg) (cur : List Intersection),
      all = done ++ pend →
      SlotSym Intersection.left Intersection.right cur →
      SlotSym Intersection.backward Intersection.forward cur →
      SlotProv isHoriz Intersection.left Intersection.right done cur →
      SlotProv (fun s => ¬ isHoriz s) Intersection.backward
        Intersection.forward done cur →
      SlotSym Intersection.left Intersection.right
          (pend.foldl phase2Seg cur) ∧
        SlotSym Intersection.backward Intersection.forward
          (pend.foldl phase2Seg cur)
  | [], done, cur => by
    intro _ h1 h2 _ _
    exact ⟨h1, h2⟩
  | q :: rest, done, cur => by
    intro hall h1 h2 h3 h4
    rw [List.foldl_cons]
    have hq_all : q ∈ all := by
      rw [hall]
      exact List.mem_append_right _ (List.mem_cons_self _ _)
    have hq_not_done : ∀ s ∈ done, s ≠ q := by
      intro s hs hc
      subst hc
      have hnd2 := hnd
      rw [hall] at hnd2
      exact (List.nodup_append.mp hnd2).2.2 hs (List.mem_cons_self s rest)
    have hall2 : all = (done ++ [q]) ++ rest := by
      rw [hall, List.append_assoc]
      rfl
    by_cases hq : isHoriz q
    · have hw : ∀ (pp pn : Option Path) (it : Intersection),
          Intersection.left (writeRec q pp pn it) =
            (if goingForward q then pp else pn) ∧
          Intersection.right (writeRec q pp pn it) =
            (if goingForward q then pn else pp) := by
        intro pp pn it
        by_cases hgf : goingForward q
        · rw [writeRec_horiz_fwd q hq hgf, if_pos hgf, if_pos hgf]
          exact ⟨rfl, rfl⟩
        · rw [writeRec_horiz_bwd q hq hgf, if_neg hgf, if_neg hgf]
          exact ⟨rfl, rfl⟩
      have hkeep : ∀ (pp pn : Option Path) (it : Intersection),
          Intersection.backward (writeRec q pp pn it) =
            Intersection.backward it ∧
          Intersection.forward (writeRec q pp pn it) =
            Intersection.forward it := by
        intro pp pn it
        by_cases hgf : goingForward q
        · rw [writeRec_horiz_fwd q hq hgf]
          exact ⟨rfl, rfl⟩
        · rw [writeRec_horiz_bwd q hq hgf]
          exact ⟨rfl, rfl⟩
      have huniq : ∀ s ∈ done, isHoriz s → ∀ c : Point, matchPred s c →
          matchPred q c → False := by
        intro s hs hhs c hcs hcq
        have hy : s.1.2 = q.1.2 :=
          (matchPred_y hhs hcs).symm.trans (matchPred_y hq hcq)
        exact hq_not_done s hs
          (horiz_eq_of_same_y hdl
            (by rw [hall]; exact List.mem_append_left _ hs) hq_all hhs hq hy)
      obtain ⟨h1b, h3b⟩ := step_slot_sym q cur _ _ hw isHoriz hq done huniq
        h1 h3
      obtain ⟨h2b, h4b⟩ := step_slot_keep q cur _ _ hkeep
        (fun s => ¬ isHoriz s) done h2 h4
      exact phase2_fold_sym all hnd hdl rest (done ++ [q]) (phase2Seg cur q)
        hall2 h1b h2b h3b h4b
    · have hw : ∀ (pp pn : Option Path) (it : Intersection),
          Intersection.backward (writeRec q pp pn it) =
            (if goingForward q then pp else pn) ∧
          Intersection.forward (writeRec q pp pn it) =
            (if goingForward q then pn else pp) := by
        intro pp pn it
        by_cases hgf : goingForward q
        · rw [writeRec_vert_fwd q hq hgf, if_pos hgf, if_pos hgf]
          exact ⟨rfl, rfl⟩
        · rw [writeRec_vert_bwd q hq hgf, if_neg hgf, if_neg hgf]
          exact ⟨rfl, rfl⟩
      have hkeep : ∀ (pp pn : Option Path) (it : Intersection),
          Intersection.left (writeRec q pp pn it) = Intersection.left it ∧
          Intersection.right (writeRec q pp pn it) =
            Intersection.right it := by
        intro pp pn it
        by_cases hgf : goingForward q
        · rw [writeRec_vert_fwd q hq hgf]
          exact ⟨rfl, rfl⟩
        · rw [writeRec_vert_bwd q hq hgf]
          exact ⟨rfl, rfl⟩
      have huniq : ∀ s ∈ done, ¬ isHoriz s → ∀ c : Point, matchPred s c →
          matchPred q c → False := by
        intro s hs hhs c hcs hcq
        have hx : s.1.1 = q.1.1 :=
          (matchPred_x hhs hcs).symm.trans (matchPred_x hq hcq)
        exact hq_not_done s hs
          (vert_eq_of_same_x hdl
            (by rw [hall]; exact List.mem_append_left _ hs) hq_all hhs hq hx)
      obtain ⟨h2b, h4b⟩ := step_slot_sym q cur _ _ hw
        (fun s => ¬ isHoriz s) hq done huniq h2 h4
      obtain ⟨h1b, h3b⟩ := step_slot_keep q cur _ _ hkeep isHoriz done h1 h3
      exact phase2_fold_sym all hnd hdl rest (done ++ [q]) (phase2Seg cur q)
        hall2 h1b h2b h3b h4b

/-- C3 (amended): in every maze built by `Maze::new` from a valid segment
list in which every segment differs in exactly one axis, no two horizontal
segments share a horizontal line and no two vertical segments share a
vertical line, edges occur in reciprocal pairs: an edge from node `i` to
node `j` in one direction is mirrored by an edge from `j` back to `i` in the
opposite direction with the same length. -/
theorem c3_amended_symmetry (segs : List Seg) (m : Maze)
    (hps : ∀ s ∈ segs, properSeg s) (hdl : distinctLines segs)
    (h : mazeNew segs = some m) :
    ∀ i j : ℕ, ∀ len : ℚ,
      ((nodeAt m i).right = some ⟨j, len⟩ →
        (nodeAt m j).left = some ⟨i, len⟩) ∧
      ((nodeAt m i).left = some ⟨j, len⟩ →
        (nodeAt m j).right = some ⟨i, len⟩) ∧
      ((nodeAt m i).forward = some ⟨j, len⟩ →
        (nodeAt m j).backward = some ⟨i, len⟩) ∧
      ((nodeAt m i).backward = some ⟨j, len⟩ →
        (nodeAt m j).forward = some ⟨i, len⟩) := by
  unfold mazeNew at h
  rcases hp : phase1 segs [] with _ | l
  · rw [hp] at h
    exact absurd h (by simp)
  rw [hp] at h
  have hnd : segs.Nodup := by
    by_contra hc
    rw [(phase1_none_iff segs []).mpr (Or.inr hc)] at hp
    exact absurd hp (by simp)
  obtain rfl : Maze.mk (segs.foldl phase2Seg l) = m := by simpa using h
  have hblank : ∀ it ∈ l, isBlank it := phase1_blank segs [] l hp (by simp)
  have hblankD : ∀ k : ℕ, isBlank (l.getD k dummyIntersection) := by
    intro k
    rcases hg : l.get? k with _ | it
    · rw [List.getD_eq_get?, hg]
      exact ⟨rfl, rfl, rfl, rfl⟩
    · rw [List.getD_eq_get?, hg]
      exact hblank it (List.get?_mem hg)
  have hS1 : SlotSym Intersection.left Intersection.right l := by
    intro k j len
    constructor
    · intro hx
      rw [(hblankD k).2.1] at hx
      exact absurd hx (by simp)
    · intro hx
      rw [(hblankD k).1] at hx
      exact absurd hx (by simp)
  have hS2 : SlotSym Intersection.backward Intersection.forward l := by
    intro k j len
    constructor
    · intro hx
      rw [(hblankD k).2.2.1] at hx
      exact absurd hx (by simp)
    · intro hx
      rw [(hblankD k).2.2.2] at hx
      exact absurd hx (by simp)
  have hP1 : SlotProv isHoriz Intersection.left Intersection.right [] l := by
    intro k j len hx
    rcases hx with hx | hx
    · rw [(hblankD k).1] at hx
      exact absurd hx (by simp)
    · rw [(hblankD k).2.1] at hx
      exact absurd hx (by simp)
  have hP2 : SlotProv (fun s => ¬ isHoriz s) Intersection.backward
      Intersection.forward [] l := by
    intro k j len hx
    rcases hx with hx | hx
    · rw [(hblankD k).2.2.2] at hx
      exact absurd hx (by simp)
    · rw [(hblankD k).2.2.1] at hx
      exact absurd hx (by simp)
  obtain ⟨hA, hB⟩ := phase2_fold_sym segs hnd hdl segs [] l rfl hS1 hS2
    hP1 hP2
  intro i j len
  exact ⟨(hA i j len).1, (hA i j len).2, (hB i j len).1, (hB i j len).2⟩

/-- Instantiation of the amended symmetry theorem on the plus-shaped
two-segment maze: the crossing's rightward edge is reciprocated. -/
theorem c3_amended_witness : (nodeAt crossMaze 2).left = some ⟨0, 1⟩ :=
  (c3_amended_symmetry crossSegs crossMaze (by decide) (by decide) rfl
    0 2 1).1 (by decide)

theorem ratAbs_of_nonneg {q : ℚ} (h : 0 ≤ q) : ratAbs q = q := by
  unfold ratAbs
  rw [if_neg (not_lt.mpr h)]

theorem ratAbs_of_nonpos {q : ℚ} (h : q ≤ 0) : ratAbs q = -q := by
  unfold ratAbs
  rcases lt_or_eq_of_le h with h2 | h2
  · rw [if_pos h2]
  · rw [h2]
    simp [ratAbs]

/-- Swapping endpoints preserves orientation. -/
theorem isHoriz_swap (s : Seg) : isHoriz (swapSeg s) ↔ isHoriz s := by
  unfold isHoriz swapSeg
  exact eq_comm

/-- Swapping endpoints preserves validity. -/
theorem properSeg_swap {s : Seg} (h : properSeg s) : properSeg (swapSeg s) := by
  rcases h with ⟨h1, h2⟩ | ⟨h1, h2⟩
  · exact Or.inl ⟨(isHoriz_swap s).mpr h1, fun hc => h2 hc.symm⟩
  · exact Or.inr ⟨h1.symm, fun hc => h2 ((isHoriz_swap s).mp hc)⟩

/-- Swapping the endpoints of a valid segment flips its direction of
travel. -/
theorem goingForward_swap {s : Seg} (h : properSeg s) :
    goingForward (swapSeg s) ↔ ¬ goingForward s := by
  unfold goingForward swapSeg
  rcases h with ⟨h1, h2⟩ | ⟨h1, h2⟩
  · have hy : s.1.2 = s.2.2 := h1
    constructor
    · intro h3 h4
      rcases h3 with h3 | h3
      · rcases h4 with h4 | h4
        · exact absurd (h3.trans h4) (lt_irrefl _)
        · exact absurd h4 (by rw [hy]; exact lt_irrefl _)
      · exact absurd h3 (by rw [hy]; exact lt_irrefl _)
    · intro h3
      refine Or.inl ?_
      rcases lt_trichotomy s.2.1 s.1.1 with h4 | h4 | h4
      · exact h4
      · exact absurd h4.symm h2
      · exact absurd (Or.inl h4) h3
  · have hx : s.1.1 = s.2.1 := h1
    constructor
    · intro h3 h4
      rcases h3 with h3 | h3
      · exact absurd h3 (by rw [hx]; exact lt_irrefl _)
      · rcases h4 with h4 | h4
        · exact absurd h4 (by rw [hx]; exact lt_irrefl _)
        · exact absurd (h3.trans h4) (lt_irrefl _)
    · intro h3
      refine Or.inr ?_
      have hyne : s.1.2 ≠ s.2.2 := h2
      rcases lt_trichotomy s.2.2 s.1.2 with h4 | h4 | h4
      · exact h4
      · exact absurd h4.symm hyne
      · exact absurd (Or.inr h4) h3

/-- Swapping the endpoints of a valid segment does not change which
coordinates lie on it. -/
theorem matchPred_swap_iff {p : Seg} (hp : properSeg p) (c : Point) :
    matchPred (swapSeg p) c ↔ matchPred p c := by
  unfold matchPred
  by_cases hh : isHoriz p
  · have hy : p.1.2 = p.2.2 := hh
    by_cases hgf : goingForward p
    · rw [if_neg ((goingForward_swap hp).not.mpr (not_not_intro hgf)),
        if_pos ((isHoriz_swap p).mpr hh), if_pos hgf, if_pos hh]
      unfold swapSeg
      dsimp only
      rw [← hy]
    · rw [if_pos ((goingForward_swap hp).mpr hgf),
        if_pos ((isHoriz_swap p).mpr hh), if_neg hgf, if_pos hh]
      unfold swapSeg
      dsimp only
      rw [← hy]
  · have hx : p.1.1 = p.2.1 := by
      rcases hp with ⟨h1, _⟩ | ⟨h1, _⟩
      · exact absurd h1 hh
      · exact h1
    by_cases hgf : goingForward p
    · rw [if_neg ((goingForward_swap hp).not.mpr (not_not_intro hgf)),
        if_neg fun hc => hh ((isHoriz_swap p).mp hc), if_pos hgf, if_neg hh]
      unfold swapSeg
      dsimp only
      rw [← hx]
    · rw [if_pos ((goingForward_swap hp).mpr hgf),
        if_neg fun hc => hh ((isHoriz_swap p).mp hc), if_neg hgf, if_neg hh]
      unfold swapSeg
      dsimp only
      rw [← hx]

theorem horiz_lt_of_gf {p : Seg} (hh : isHoriz p) (hgf : goingForward p) :
    p.1.1 < p.2.1 := by
  have hy : p.1.2 = p.2.2 := hh
  rcases hgf with h3 | h3
  · exact h3
  · rw [hy] at h3
    exact absurd h3 (lt_irrefl _)

theorem horiz_lt_of_not_gf {p : Seg} (hp : properSeg p) (hh : isHoriz p)
    (hgf : ¬ goingForward p) : p.2.1 < p.1.1 := by
  rcases hp with ⟨_, hne⟩ | ⟨_, hnh⟩
  · rcases lt_trichotomy p.2.1 p.1.1 with h3 | h3 | h3
    · exact h3
    · exact absurd h3.symm hne
    · exact absurd (Or.inl h3) hgf
  · exact absurd hh hnh

theorem vert_xeq {p : Seg} (hp : properSeg p) (hh : ¬ isHoriz p) :
    p.1.1 = p.2.1 := by
  rcases hp with ⟨h1, _⟩ | ⟨h1, _⟩
  · exact absurd h1 hh
  · exact h1

theorem vert_lt_of_gf {p : Seg} (hp : properSeg p) (hh : ¬ isHoriz p)
    (hgf : goingForward p) : p.1.2 < p.2.2 := by
  have hx := vert_xeq hp hh
  rcases hgf with h3 | h3
  · rw [hx] at h3
    exact absurd h3 (lt_irrefl _)
  · exact h3

theorem vert_lt_of_not_gf {p : Seg} (hp : properSeg p) (hh : ¬ isHoriz p)
    (hgf : ¬ goingForward p) : p.2.2 < p.1.2 := by
  have hyne : p.1.2 ≠ p.2.2 := hh
  rcases lt_trichotomy p.2.2 p.1.2 with h3 | h3 | h3
  · exact h3
  · exact absurd h3.symm hyne
  · exact absurd (Or.inr h3) hgf

/-- On a segment, distance-from-start determines the coordinate. -/
theorem distAlong_inj {p : Seg} {c c2 : Point} (h : matchPred p c)
    (h2 : matchPred p c2) (he : distAlong p c = distAlong p c2) : c = c2 := by
  unfold matchPred at h h2
  unfold distAlong at he
  by_cases hh : isHoriz p
  · by_cases hgf : goingForward p
    · rw [if_pos hgf, if_pos hh] at h h2
      obtain ⟨hcy, hlo, hhi⟩ := h
      obtain ⟨hcy2, hlo2, hhi2⟩ := h2
      rw [ratAbs_of_nonneg (by linarith), ratAbs_of_nonneg (by linarith),
        ratAbs_of_nonneg (by linarith), ratAbs_of_nonneg (by linarith)] at he
      exact Prod.ext_iff.mpr ⟨by linarith, hcy.trans hcy2.symm⟩
    · rw [if_neg hgf, if_pos hh] at h h2
      obtain ⟨hcy, hlo, hhi⟩ := h
      obtain ⟨hcy2, hlo2, hhi2⟩ := h2
      rw [ratAbs_of_nonpos (by linarith), ratAbs_of_nonneg (by linarith),
        ratAbs_of_nonpos (by linarith), ratAbs_of_nonneg (by linarith)] at he
      exact Prod.ext_iff.mpr ⟨by linarith, hcy.trans hcy2.symm⟩
  · by_cases hgf : goingForward p
    · rw [if_pos hgf, if_neg hh] at h h2
      obtain ⟨hcx, hlo, hhi⟩ := h
      obtain ⟨hcx2, hlo2, hhi2⟩ := h2
      rw [ratAbs_of_nonneg (by linarith), ratAbs_of_nonneg (by linarith),
        ratAbs_of_nonneg (by linarith), ratAbs_of_nonneg (by linarith)] at he
      exact Prod.ext_iff.mpr ⟨hcx.trans hcx2.symm, by linarith⟩
    · rw [if_neg hgf, if_neg hh] at h h2
      obtain ⟨hcx, hlo, hhi⟩ := h
      obtain ⟨hcx2, hlo2, hhi2⟩ := h2
      rw [ratAbs_of_nonneg (by linarith), ratAbs_of_nonpos (by linarith),
        ratAbs_of_nonneg (by linarith), ratAbs_of_nonpos (by linarith)] at he
      exact Prod.ext_iff.mpr ⟨hcx.trans hcx2.symm, by linarith⟩

/-- The distance along the reversed segment is the complement of the
distance along the segment. -/
theorem distAlong_swap {p : Seg} (hp : properSeg p) {c : Point}
    (h : matchPred p c) :
    distAlong (swapSeg p) c = distAlong p p.2 - distAlong p c := by
  unfold matchPred at h
  unfold distAlong swapSeg
  dsimp only
  by_cases hh : isHoriz p
  · have hy : p.1.2 = p.2.2 := hh
    by_cases hgf : goingForward p
    · rw [if_pos hgf, if_pos hh] at h
      obtain ⟨hcy, hlo, hhi⟩ := h
      have hxlt := horiz_lt_of_gf hh hgf
      rw [ratAbs_of_nonpos (by linarith), ratAbs_of_nonneg (by linarith),
        ratAbs_of_nonneg (by linarith), ratAbs_of_nonneg (by linarith),
        ratAbs_of_nonneg (by linarith), ratAbs_of_nonneg (by linarith)]
      linarith
    · rw [if_neg hgf, if_pos hh] at h
      obtain ⟨hcy, hlo, hhi⟩ := h
      have hxlt := horiz_lt_of_not_gf hp hh hgf
      rw [ratAbs_of_nonneg (by linarith), ratAbs_of_nonneg (by linarith),
        ratAbs_of_nonpos (by linarith), ratAbs_of_nonneg (by linarith),
        ratAbs_of_nonpos (by linarith), ratAbs_of_nonneg (by linarith)]
      linarith
  · have hx := vert_xeq hp hh
    by_cases hgf : goingForward p
    · rw [if_pos hgf, if_neg hh] at h
      obtain ⟨hcx, hlo, hhi⟩ := h
      have hylt := vert_lt_of_gf hp hh hgf
      rw [ratAbs_of_nonneg (by linarith), ratAbs_of_nonpos (by linarith),
        ratAbs_of_nonneg (by linarith), ratAbs_of_nonneg (by linarith),
        ratAbs_of_nonneg (by linarith), ratAbs_of_nonneg (by linarith)]
      linarith
    · rw [if_neg hgf, if_neg hh] at h
      obtain ⟨hcx, hlo, hhi⟩ := h
      have hylt := vert_lt_of_not_gf hp hh hgf
      rw [ratAbs_of_nonneg (by linarith), ratAbs_of_nonneg (by linarith),
        ratAbs_of_nonneg (by linarith), ratAbs_of_nonpos (by linarith),
        ratAbs_of_nonneg (by linarith), ratAbs_of_nonpos (by linarith)]
      linarith

theorem insertByKey_sorted (x : ℚ × ℕ) :
    ∀ l : List (ℚ × ℕ), l.Pairwise (fun a b => a.1 ≤ b.1) →
      (insertByKey x l).Pairwise (fun a b => a.1 ≤ b.1)
  | [] => fun _ => List.pairwise_singleton _ _
  | y :: ys => by
    intro h
    unfold insertByKey
    obtain ⟨hy, hys⟩ := List.pairwise_cons.mp h
    split
    · next hle =>
      refine List.pairwise_cons.mpr ⟨?_, h⟩
      intro z hz
      rcases List.mem_cons.mp hz with rfl | hz2
      · exact hle
      · exact le_trans hle (hy z hz2)
    · next hgt =>
      refine List.pairwise_cons.mpr ⟨?_, insertByKey_sorted x ys hys⟩
      intro z hz
      rcases mem_insertByKey hz with rfl | hz2
      · exact le_of_lt (lt_of_not_le hgt)
      · exact hy z hz2

theorem sortByKey_sorted :
    ∀ l : List (ℚ × ℕ), (sortByKey l).Pairwise (fun a b => a.1 ≤ b.1)
  | [] => List.Pairwise.nil
  | x :: xs => insertByKey_sorted x (sortByKey xs) (sortByKey_sorted xs)

/-- Distinct node coordinates give pairwise-distinct sort keys. -/
theorem sortedMatches_keys_nodup (p : Seg) (l : List Intersection)
    (hnd : (coordsOf l).Nodup) :
    ((sortedMatches p l).map Prod.fst).Nodup := by
  have hidx : (sortedMatches p l).Pairwise (fun a b => a.2 ≠ b.2) :=
    List.pairwise_map.mp (sortedMatches_indices_nodup p l)
  refine List.pairwise_map.mpr ?_
  refine List.Pairwise.imp_of_mem ?_ hidx
  intro a b ha hb hne heq
  obtain ⟨da, ka⟩ := a
  obtain ⟨db, kb⟩ := b
  obtain ⟨ita, hgeta, hma, hda⟩ := mem_sortedMatches.mp ha
  obtain ⟨itb, hgetb, hmb, hdb⟩ := mem_sortedMatches.mp hb
  dsimp only at hne heq
  have hco : ita.coordinates = itb.coordinates := by
    refine distAlong_inj hma hmb ?_
    rw [← hda, ← hdb]
    exact heq
  have hka : (coordsOf l).get? ka = some ita.coordinates := by
    unfold coordsOf
    rw [List.get?_map, hgeta]
    rfl
  have hkb : (coordsOf l).get? kb = some itb.coordinates := by
    unfold coordsOf
    rw [List.get?_map, hgetb]
    rfl
  have hkalt : ka < (coordsOf l).length := by
    rw [List.get?_eq_getElem?] at hka
    exact (List.getElem?_eq_some.mp hka).1
  refine hne (List.get?_inj hkalt hnd ?_)
  rw [hka, hkb, hco]

/-- The sorted matched list is strictly sorted when node coordinates are
distinct. -/
theorem sortedMatches_sorted_lt (p : Seg) (l : List Intersection)
    (hnd : (coordsOf l).Nodup) :
    (sortedMatches p l).Pairwise (fun a b => a.1 < b.1) := by
  have h1 : (sortedMatches p l).Pairwise (fun a b => a.1 ≤ b.1) :=
    sortByKey_sorted _
  have h2 : (sortedMatches p l).Pairwise (fun a b => a.1 ≠ b.1) :=
    List.pairwise_map.mp (sortedMatches_keys_nodup p l hnd)
  exact (h1.and h2).imp fun h => lt_of_le_of_ne h.1 h.2

/-- Phase 2 on the reversed segment sorts the same matched nodes with
complemented keys, producing exactly the reversed list. -/
theorem sortedMatches_swap (p : Seg) (hp : properSeg p)
    (l : List Intersection) (hnd : (coordsOf l).Nodup) :
    sortedMatches (swapSeg p) l =
      ((sortedMatches p l).map
        (fun e => (distAlong p p.2 - e.1, e.2))).reverse := by
  have hfilter :
      l.enum.filter (fun q => decide (matchPred (swapSeg p) q.2.coordinates))
        = l.enum.filter (fun q => decide (matchPred p q.2.coordinates)) :=
    List.filter_congr fun q _ =>
      decide_eq_decide.mpr (matchPred_swap_iff hp _)
  have hML :
      ((l.enum.filter fun q =>
          decide (matchPred (swapSeg p) q.2.coordinates)).map
        fun q => (distAlong (swapSeg p) q.2.coordinates, q.1)) =
      ((l.enum.filter fun q => decide (matchPred p q.2.coordinates)).map
        fun q => (distAlong p q.2.coordinates, q.1)).map
          (fun e => (distAlong p p.2 - e.1, e.2)) := by
    rw [hfilter, List.map_map]
    refine List.map_congr_left ?_
    intro q hq
    have hm : matchPred p q.2.coordinates :=
      of_decide_eq_true (List.mem_filter.mp hq).2
    show (distAlong (swapSeg p) q.2.coordinates, q.1) =
      (distAlong p p.2 - distAlong p q.2.coordinates, q.1)
    rw [distAlong_swap hp hm]
  have hperm : List.Perm (sortedMatches (swapSeg p) l)
      (((sortedMatches p l).map
        (fun e => (distAlong p p.2 - e.1, e.2))).reverse) := by
    refine (sortedMatches_perm (swapSeg p) l).trans ?_
    rw [hML]
    refine List.Perm.trans ?_ (List.reverse_perm _).symm
    exact ((sortedMatches_perm p l).map _).symm
  have hs1 : (sortedMatches (swapSeg p) l).Pairwise
      (fun a b : ℚ × ℕ => a.1 < b.1) := sortedMatches_sorted_lt _ l hnd
  have hs2 : (((sortedMatches p l).map
      (fun e => (distAlong p p.2 - e.1, e.2))).reverse).Pairwise
      (fun a b : ℚ × ℕ => a.1 < b.1) := by
    rw [List.pairwise_reverse, List.pairwise_map]
    exact (sortedMatches_sorted_lt p l hnd).imp fun h => by
      dsimp only
      linarith
  haveI : IsAntisymm (ℚ × ℕ) (fun a b : ℚ × ℕ => a.1 < b.1) :=
    ⟨fun a b h1 h2 => absurd h2 (lt_asymm h1)⟩
  exact List.eq_of_perm_of_sorted hperm hs1 hs2

/-- Positional description of the chain write list. -/
theorem chainPairs_get? :
    ∀ (prev : Option (ℚ × ℕ)) (S : List (ℚ × ℕ)) (t : ℕ),
      (chainPairs prev S).get? t =
        (S.get? t).map fun e =>
          (e.2,
            ((if t = 0 then prev else S.get? (t - 1)).map
              fun q => Path.mk q.2 (e.1 - q.1)),
            ((S.get? (t + 1)).map fun q => Path.mk q.2 (q.1 - e.1)))
  | _, [], t => by simp [chainPairs]
  | prev, (d, i) :: rest, 0 => by
    unfold chainPairs
    rw [List.get?_cons_zero, List.get?_cons_zero, if_pos rfl,
      List.get?_cons_succ, List.get?_zero]
    rfl
  | prev, (d, i) :: rest, (t + 1) => by
    unfold chainPairs
    rw [List.get?_cons_succ, chainPairs_get? (some (d, i)) rest t,
      List.get?_cons_succ, List.get?_cons_succ]
    rcases hr : rest.get? t with _ | e
    · rfl
    · rw [Option.map_some', Option.map_some', Option.some.injEq]
      refine Prod.ext_iff.mpr ⟨rfl, Prod.ext_iff.mpr ⟨?_, rfl⟩⟩
      dsimp only
      rw [if_neg (Nat.succ_ne_zero t)]
      cases t with
      | zero =>
        rw [if_pos rfl, Nat.add_sub_cancel, List.get?_cons_zero]
      | succ s =>
        rw [if_neg (Nat.succ_ne_zero s), Nat.add_sub_cancel,
          Nat.add_sub_cancel, List.get?_cons_succ]

/-- The slot write of the reversed segment swaps the previous/next roles. -/
theorem writeRec_swap {p : Seg} (hp : properSeg p) (a b : Option Path)
    (it : Intersection) :
    writeRec (swapSeg p) a b it = writeRec p b a it := by
  by_cases hh : isHoriz p
  · by_cases hgf : goingForward p
    · rw [writeRec_horiz_bwd (swapSeg p) ((isHoriz_swap p).mpr hh)
        ((goingForward_swap hp).not.mpr (not_not_intro hgf)) a b it,
        writeRec_horiz_fwd p hh hgf b a it]
    · rw [writeRec_horiz_fwd (swapSeg p) ((isHoriz_swap p).mpr hh)
        ((goingForward_swap hp).mpr hgf) a b it,
        writeRec_horiz_bwd p hh hgf b a it]
  · by_cases hgf : goingForward p
    · rw [writeRec_vert_bwd (swapSeg p)
        (fun hc => hh ((isHoriz_swap p).mp hc))
        ((goingForward_swap hp).not.mpr (not_not_intro hgf)) a b it,
        writeRec_vert_fwd p hh hgf b a it]
    · rw [writeRec_vert_fwd (swapSeg p)
        (fun hc => hh ((isHoriz_swap p).mp hc))
        ((goingForward_swap hp).mpr hgf) a b it,
        writeRec_vert_bwd p hh hgf b a it]

/-- Processing a segment with swapped endpoints writes exactly the same
slots: phase 2 is endpoint-order invariant per segment. -/
theorem phase2Seg_swap (l : List Intersection) (p : Seg) (hp : properSeg p)
    (hnd : (coordsOf l).Nodup) :
    phase2Seg l (swapSeg p) = phase2Seg l p := by
  have hsm := sortedMatches_swap p hp l hnd
  refine List.ext_getElem? ?_
  intro k
  rw [← List.get?_eq_getElem?, ← List.get?_eq_getElem?]
  by_cases hk : k ∈ (sortedMatches p l).map Prod.snd
  · obtain ⟨⟨d2, k2⟩, hmem, hk2⟩ := List.mem_map.mp hk
    dsimp only at hk2
    subst hk2
    obtain ⟨t, hgt⟩ := List.mem_iff_get?.mp hmem
    have htlt : t < (sortedMatches p l).length := by
      rw [List.get?_eq_getElem?] at hgt
      exact (List.getElem?_eq_some.mp hgt).1
    have hentry1 : (chainPairs none (sortedMatches p l)).get? t = some
        (k2,
          ((if t = 0 then none
            else (sortedMatches p l).get? (t - 1)).map
            fun q => Path.mk q.2 (d2 - q.1)),
          (((sortedMatches p l).get? (t + 1)).map
            fun q => Path.mk q.2 (q.1 - d2))) := by
      rw [chainPairs_get?, hgt]
      rfl
    have hmem1 := List.get?_mem hentry1
    have ht2lt : (sortedMatches p l).length - 1 - t <
        ((sortedMatches p l).map
          (fun e => (distAlong p p.2 - e.1, e.2))).length := by
      rw [List.length_map]
      omega
    have hTget : (((sortedMatches p l).map
        (fun e => (distAlong p p.2 - e.1, e.2))).reverse).get?
          ((sortedMatches p l).length - 1 - t) =
        some (distAlong p p.2 - d2, k2) := by
      rw [List.get?_eq_getElem?,
        List.getElem?_reverse ht2lt]
      have he : ((sortedMatches p l).map
          (fun e => (distAlong p p.2 - e.1, e.2))).length - 1 -
          ((sortedMatches p l).length - 1 - t) = t := by
        rw [List.length_map]
        omega
      rw [he, ← List.get?_eq_getElem?, List.get?_map, hgt]
      rfl
    have hentry2 : (chainPairs none
        (((sortedMatches p l).map
          (fun e => (distAlong p p.2 - e.1, e.2))).reverse)).get?
          ((sortedMatches p l).length - 1 - t) = some
        (k2,
          ((if (sortedMatches p l).length - 1 - t = 0 then none
            else (((sortedMatches p l).map
              (fun e => (distAlong p p.2 - e.1, e.2))).reverse).get?
                ((sortedMatches p l).length - 1 - t - 1)).map
            fun q => Path.mk q.2 (distAlong p p.2 - d2 - q.1)),
          (((((sortedMatches p l).map
              (fun e => (distAlong p p.2 - e.1, e.2))).reverse).get?
                ((sortedMatches p l).length - 1 - t + 1)).map
            fun q => Path.mk q.2 (q.1 - (distAlong p p.2 - d2)))) := by
      rw [chainPairs_get?, hTget]
      rfl
    have hPrev : ((if (sortedMatches p l).length - 1 - t = 0 then none
          else (((sortedMatches p l).map
            (fun e => (distAlong p p.2 - e.1, e.2))).reverse).get?
              ((sortedMatches p l).length - 1 - t - 1)).map
          fun q => Path.mk q.2 (distAlong p p.2 - d2 - q.1)) =
        (((sortedMatches p l).get? (t + 1)).map
          fun q => Path.mk q.2 (q.1 - d2)) := by
      by_cases hlast : t + 1 = (sortedMatches p l).length
      · rw [if_pos (by omega)]
        rw [List.get?_eq_none.mpr (by omega)]
        rfl
      · rw [if_neg (by omega)]
        have hrevget : (((sortedMatches p l).map
            (fun e => (distAlong p p.2 - e.1, e.2))).reverse).get?
              ((sortedMatches p l).length - 1 - t - 1) =
            ((sortedMatches p l).get? (t + 1)).map
              (fun e => (distAlong p p.2 - e.1, e.2)) := by
          rw [List.get?_eq_getElem?,
            List.getElem?_reverse (by rw [List.length_map]; omega)]
          have he2 : ((sortedMatches p l).map
              (fun e => (distAlong p p.2 - e.1, e.2))).length - 1 -
              ((sortedMatches p l).length - 1 - t - 1) = t + 1 := by
            rw [List.length_map]
            omega
          rw [he2, ← List.get?_eq_getElem?, List.get?_map]
        rw [hrevget]
        rcases hg3 : (sortedMatches p l).get? (t + 1) with _ | e3
        · rfl
        · rw [Option.map_some', Option.map_some', Option.map_some',
            Option.some.injEq]
          refine congrArg (Path.mk e3.2) ?_
          ring
    have hNext : (((((sortedMatches p l).map
          (fun e => (distAlong p p.2 - e.1, e.2))).reverse).get?
            ((sortedMatches p l).length - 1 - t + 1)).map
          fun q => Path.mk q.2 (q.1 - (distAlong p p.2 - d2))) =
        ((if t = 0 then none
          else (sortedMatches p l).get? (t - 1)).map
          fun q => Path.mk q.2 (d2 - q.1)) := by
      by_cases hfirst : t = 0
      · subst hfirst
        rw [if_pos rfl]
        rw [List.get?_eq_none.mpr
          (by rw [List.length_reverse, List.length_map]; omega)]
        rfl
      · rw [if_neg hfirst]
        have hrevget : (((sortedMatches p l).map
            (fun e => (distAlong p p.2 - e.1, e.2))).reverse).get?
              ((sortedMatches p l).length - 1 - t + 1) =
            ((sortedMatches p l).get? (t - 1)).map
              (fun e => (distAlong p p.2 - e.1, e.2)) := by
          rw [List.get?_eq_getElem?,
            List.getElem?_reverse (by rw [List.length_map]; omega)]
          have he2 : ((sortedMatches p l).map
              (fun e => (distAlong p p.2 - e.1, e.2))).length - 1 -
              ((sortedMatches p l).length - 1 - t + 1) = t - 1 := by
            rw [List.length_map]
            omega
          rw [he2, ← List.get?_eq_getElem?, List.get?_map]
        rw [hrevget]
        rcases hg3 : (sortedMatches p l).get? (t - 1) with _ | e3
        · rfl
        · rw [Option.map_some', Option.map_some', Option.map_some',
            Option.some.injEq]
          refine congrArg (Path.mk e3.2) ?_
          ring
    rw [hPrev, hNext] at hentry2
    have hmem2 : (k2,
        (((sortedMatches p l).get? (t + 1)).map
          fun q => Path.mk q.2 (q.1 - d2)),
        ((if t = 0 then none
          else (sortedMatches p l).get? (t - 1)).map
          fun q => Path.mk q.2 (d2 - q.1))) ∈
        chainPairs none (sortedMatches (swapSeg p) l) := by
      rw [hsm]
      exact List.get?_mem hentry2
    rw [phase2Seg_get?_entry l (swapSeg p) hmem2,
      phase2Seg_get?_entry l p hmem1]
    rcases l.get? k2 with _ | it
    · rfl
    · rw [Option.map_some', Option.map_some']
      exact congrArg some (writeRec_swap hp _ _ it)
  · have h1 : ∀ e ∈ chainPairs none (sortedMatches p l), e.1 ≠ k := by
      intro e he hc
      refine hk ?_
      rw [← hc, ← chainPairs_fst_eq none]
      exact List.mem_map_of_mem Prod.fst he
    have h2 : ∀ e ∈ chainPairs none (sortedMatches (swapSeg p) l),
        e.1 ≠ k := by
      intro e he hc
      refine hk ?_
      have h3 : e.1 ∈ (sortedMatches (swapSeg p) l).map Prod.snd := by
        rw [← chainPairs_fst_eq none]
        exact List.mem_map_of_mem Prod.fst he
      rw [hsm] at h3
      rw [← hc]
      obtain ⟨x, hx, hxe⟩ := List.mem_map.mp h3
      obtain ⟨y, hy, hye⟩ := List.mem_map.mp (List.mem_reverse.mp hx)
      refine List.mem_map.mpr ⟨y, hy, ?_⟩
      rw [← hxe, ← hye]
    rw [phase2Seg_get?_untouched l p h1,
      phase2Seg_get?_untouched l (swapSeg p) h2]

/-- Reversing the later segment does not move the crossing point. -/
theorem crossingOf_swap_right (p o : Seg)
    (hpo : decide (isHoriz p) ≠ decide (isHoriz o)) (ho : properSeg o) :
    crossingOf p (swapSeg o) = crossingOf p o := by
  unfold crossingOf swapSeg
  by_cases hh : isHoriz p
  · rw [if_pos hh, if_pos hh]
    dsimp only
    have hvo : ¬ isHoriz o := by
      intro hc
      exact hpo (by rw [decide_eq_true hh, decide_eq_true hc])
    rw [← vert_xeq ho hvo]
  · rw [if_neg hh, if_neg hh]
    dsimp only
    have hho : isHoriz o := by
      by_contra hc
      exact hpo (by rw [decide_eq_false hh, decide_eq_false hc])
    rw [← show o.1.2 = o.2.2 from hho]

/-- Reversing the earlier segment does not move the crossing point. -/
theorem crossingOf_swap_left (p o : Seg) (hp : properSeg p) :
    crossingOf (swapSeg p) o = crossingOf p o := by
  unfold crossingOf swapSeg
  by_cases hh : isHoriz p
  · rw [if_pos (show isHoriz ((p.2, p.1) : Seg) from
      (isHoriz_swap p).mpr hh), if_pos hh]
    dsimp only
    rw [← show p.1.2 = p.2.2 from hh]
  · rw [if_neg (show ¬ isHoriz ((p.2, p.1) : Seg) from
      fun hc => hh ((isHoriz_swap p).mp hc)), if_neg hh]
    dsimp only
    rw [← vert_xeq hp hh]

/-- Segments on distinct lines stay distinct under endpoint swaps. -/
theorem swap_ne_of_sep {q o : Seg} (hq : properSeg q) (ho : properSeg o)
    (hsep : (isHoriz q → isHoriz o → q.1.2 ≠ o.1.2) ∧
      (¬ isHoriz q → ¬ isHoriz o → q.1.1 ≠ o.1.1))
    {a b : Seg} (ha : a = q ∨ a = swapSeg q) (hb : b = o ∨ b = swapSeg o) :
    a ≠ b := by
  intro hc
  by_cases hh : isHoriz q
  · have hhb : isHoriz o := by
      have h1 : isHoriz a := by
        rcases ha with rfl | rfl
        · exact hh
        · exact (isHoriz_swap q).mpr hh
      rw [hc] at h1
      rcases hb with rfl | rfl
      · exact h1
      · exact (isHoriz_swap o).mp h1
    refine hsep.1 hh hhb ?_
    have h2 : a.1.2 = q.1.2 := by
      rcases ha with rfl | rfl
      · rfl
      · exact (show q.1.2 = q.2.2 from hh).symm
    have h3 : b.1.2 = o.1.2 := by
      rcases hb with rfl | rfl
      · rfl
      · exact (show o.1.2 = o.2.2 from hhb).symm
    rw [← h2, hc, h3]
  · have hvb : ¬ isHoriz o := by
      have h1 : ¬ isHoriz a := by
        rcases ha with rfl | rfl
        · exact hh
        · exact fun hc2 => hh ((isHoriz_swap q).mp hc2)
      rw [hc] at h1
      rcases hb with rfl | rfl
      · exact h1
      · exact fun hc2 => h1 ((isHoriz_swap o).mpr hc2)
    refine hsep.2 hh hvb ?_
    have h2 : a.1.1 = q.1.1 := by
      rcases ha with rfl | rfl
      · rfl
      · exact (vert_xeq hq hh).symm
    have h3 : b.1.1 = o.1.1 := by
      rcases hb with rfl | rfl
      · rfl
      · exact (vert_xeq ho hvb).symm
    rw [← h2, hc, h3]

/-- The inner pairing loop is unchanged when later segments are reversed. -/
theorem innerLoop_others_swap (p : Seg) :
    ∀ (others2 others : List Seg) (st : List Intersection × Bool × Bool),
      List.Forall₂ (fun t s => t = s ∨ t = swapSeg s) others2 others →
      (∀ o ∈ others, properSeg o) →
      (∀ o ∈ others, p ≠ o ∧ p ≠ swapSeg o) →
      innerLoop p others2 st = innerLoop p others st
  | [], others, st => fun hf _ _ => by
    rw [List.forall₂_nil_left_iff.mp hf]
  | o2 :: rest2, others, st => fun hf hprop hne => by
    rcases List.forall₂_cons_left_iff.mp hf with ⟨o, rest, hrel, hrest, rfl⟩
    obtain ⟨acc, sF, eF⟩ := st
    have hpo : properSeg o := hprop o (List.mem_cons_self _ _)
    have hproprest : ∀ o3 ∈ rest, properSeg o3 :=
      fun o3 h3 => hprop o3 (List.mem_cons_of_mem _ h3)
    have hnerest : ∀ o3 ∈ rest, p ≠ o3 ∧ p ≠ swapSeg o3 :=
      fun o3 h3 => hne o3 (List.mem_cons_of_mem _ h3)
    unfold innerLoop
    have hao2 : segAligned o2 := by
      rcases hrel with h | h
      · rw [h]
        exact properSeg_aligned hpo
      · rw [h]
        exact properSeg_aligned (properSeg_swap hpo)
    rw [if_neg (not_not_intro hao2),
      if_neg (not_not_intro (properSeg_aligned hpo))]
    have hne1 : p ≠ o2 := by
      rcases hrel with h | h
      · rw [h]
        exact (hne o (List.mem_cons_self _ _)).1
      · rw [h]
        exact (hne o (List.mem_cons_self _ _)).2
    rw [if_neg hne1, if_neg (hne o (List.mem_cons_self _ _)).1]
    have hdec : decide (isHoriz o2) = decide (isHoriz o) := by
      rcases hrel with h | h
      · rw [h]
      · rw [h]
        exact decide_eq_decide.mpr (isHoriz_swap o)
    rw [hdec]
    by_cases hcross : decide (isHoriz p) ≠ decide (isHoriz o)
    · rw [if_pos hcross, if_pos hcross]
      have hc : crossingOf p o2 = crossingOf p o := by
        rcases hrel with h | h
        · rw [h]
        · rw [h]
          exact crossingOf_swap_right p o hcross hpo
      rw [hc]
      exact innerLoop_others_swap p rest2 rest _ hrest hproprest hnerest
    · rw [if_neg hcross, if_neg hcross]
      exact innerLoop_others_swap p rest2 rest _ hrest hproprest hnerest

/-- Running the inner loop for the reversed segment swaps the two
endpoint-found flags and nothing else. -/
theorem innerLoop_self_swap (p : Seg) (hp : properSeg p) :
    ∀ (others : List Seg) (acc : List Intersection) (sF eF : Bool),
      (∀ o ∈ others, properSeg o) →
      (∀ o ∈ others, p ≠ o ∧ swapSeg p ≠ o) →
      innerLoop (swapSeg p) others (acc, sF, eF) =
        (innerLoop p others (acc, eF, sF)).map fun r => (r.1, r.2.2, r.2.1)
  | [], acc, sF, eF => fun _ _ => rfl
  | o :: rest, acc, sF, eF => fun hprop hne => by
    have hpo := hprop o (List.mem_cons_self _ _)
    have hproprest : ∀ o3 ∈ rest, properSeg o3 :=
      fun o3 h3 => hprop o3 (List.mem_cons_of_mem _ h3)
    have hnerest : ∀ o3 ∈ rest, p ≠ o3 ∧ swapSeg p ≠ o3 :=
      fun o3 h3 => hne o3 (List.mem_cons_of_mem _ h3)
    unfold innerLoop
    rw [if_neg (not_not_intro (properSeg_aligned hpo)),
      if_neg (not_not_intro (properSeg_aligned hpo))]
    rw [if_neg (hne o (List.mem_cons_self _ _)).2,
      if_neg (hne o (List.mem_cons_self _ _)).1]
    rw [decide_eq_decide.mpr (isHoriz_swap p)]
    by_cases hcross : decide (isHoriz p) ≠ decide (isHoriz o)
    · rw [if_pos hcross, if_pos hcross]
      rw [crossingOf_swap_left p o hp]
      dsimp only [swapSeg]
      exact innerLoop_self_swap p hp rest _ _ _ hproprest hnerest
    · rw [if_neg hcross, if_neg hcross]
      exact innerLoop_self_swap p hp rest acc sF eF hproprest hnerest

/-- Phase 1 is invariant under reversing any subset of the segments. -/
theorem phase1_swap :
    ∀ (segs2 segs : List Seg) (acc : List Intersection),
      List.Forall₂ (fun t s => t = s ∨ t = swapSeg s) segs2 segs →
      (∀ s ∈ segs, properSeg s) →
      distinctLines segs →
      phase1 segs2 acc = phase1 segs acc
  | [], segs, acc => fun hf _ _ => by
    rw [List.forall₂_nil_left_iff.mp hf]
  | q2 :: rest2, segs, acc => fun hf hprop hdl => by
    rcases List.forall₂_cons_left_iff.mp hf with ⟨q, rest, hrel, hrest, rfl⟩
    have hpq : properSeg q := hprop q (List.mem_cons_self _ _)
    obtain ⟨hsep, hdlrest⟩ := List.pairwise_cons.mp hdl
    have hproprest : ∀ s ∈ rest, properSeg s :=
      fun s hs => hprop s (List.mem_cons_of_mem _ hs)
    have hneqq : ∀ o ∈ rest, q ≠ o ∧ q ≠ swapSeg o := fun o ho =>
      ⟨swap_ne_of_sep hpq (hproprest o ho) (hsep o ho) (Or.inl rfl)
        (Or.inl rfl),
        swap_ne_of_sep hpq (hproprest o ho) (hsep o ho) (Or.inl rfl)
          (Or.inr rfl)⟩
    have hneqs : ∀ o ∈ rest, swapSeg q ≠ o ∧ swapSeg q ≠ swapSeg o :=
      fun o ho =>
      ⟨swap_ne_of_sep hpq (hproprest o ho) (hsep o ho) (Or.inr rfl)
        (Or.inl rfl),
        swap_ne_of_sep hpq (hproprest o ho) (hsep o ho) (Or.inr rfl)
          (Or.inr rfl)⟩
    have hneqb : ∀ o ∈ rest, q ≠ o ∧ swapSeg q ≠ o := fun o ho =>
      ⟨(hneqq o ho).1, (hneqs o ho).1⟩
    rcases hrel with h | h
    · rw [h]
      unfold phase1
      rw [if_neg (not_not_intro (properSeg_aligned hpq)),
        if_neg (not_not_intro (properSeg_aligned hpq))]
      dsimp only
      rw [innerLoop_others_swap q rest2 rest _ hrest hproprest hneqq]
      rcases hil : innerLoop q rest
          (acc, acc.any fun it => decide (it.coordinates = q.1),
            acc.any fun it => decide (it.coordinates = q.2)) with
        _ | ⟨acc2, sF2, eF2⟩
      · rfl
      · dsimp only
        exact phase1_swap rest2 rest _ hrest hproprest hdlrest
    · rw [h]
      unfold phase1
      rw [if_neg (not_not_intro (properSeg_aligned (properSeg_swap hpq))),
        if_neg (not_not_intro (properSeg_aligned hpq))]
      dsimp only
      rw [show (swapSeg q).1 = q.2 from rfl, show (swapSeg q).2 = q.1 from rfl]
      rw [innerLoop_others_swap (swapSeg q) rest2 rest _ hrest hproprest
        hneqs]
      rw [innerLoop_self_swap q hpq rest acc
        (acc.any fun it => decide (it.coordinates = q.2))
        (acc.any fun it => decide (it.coordinates = q.1)) hproprest hneqb]
      rcases hil : innerLoop q rest
          (acc, acc.any fun it => decide (it.coordinates = q.1),
            acc.any fun it => decide (it.coordinates = q.2)) with
        _ | ⟨acc2, sF2, eF2⟩
      · rfl
      · rw [Option.map_some']
        dsimp only
        by_cases hgf : goingForward q
        · rw [if_neg ((goingForward_swap hpq).not.mpr (not_not_intro hgf)),
            if_pos hgf]
          exact phase1_swap rest2 rest _ hrest hproprest hdlrest
        · rw [if_pos ((goingForward_swap hpq).mpr hgf), if_neg hgf]
          exact phase1_swap rest2 rest _ hrest hproprest hdlrest

/-- Phase 2 is invariant under reversing any subset of the segments. -/
theorem phase2_fold_swap :
    ∀ (segs2 segs : List Seg) (l : List Intersection),
      List.Forall₂ (fun t s => t = s ∨ t = swapSeg s) segs2 segs →
      (∀ s ∈ segs, properSeg s) →
      (coordsOf l).Nodup →
      segs2.foldl phase2Seg l = segs.foldl phase2Seg l
  | [], segs, l => fun hf _ _ => by
    rw [List.forall₂_nil_left_iff.mp hf]
  | q2 :: rest2, segs, l => fun hf hprop hnd => by
    rcases List.forall₂_cons_left_iff.mp hf with ⟨q, rest, hrel, hrest, rfl⟩
    rw [List.foldl_cons, List.foldl_cons]
    have hstep : phase2Seg l q2 = phase2Seg l q := by
      rcases hrel with rfl | rfl
      · rfl
      · exact phase2Seg_swap l q (hprop q (List.mem_cons_self _ _)) hnd
    rw [hstep]
    refine phase2_fold_swap rest2 rest _ hrest
      (fun s hs => hprop s (List.mem_cons_of_mem _ hs)) ?_
    have hco : coordsOf (phase2Seg l q) = coordsOf l := by
      unfold phase2Seg
      exact coordsOf_chainWrites q none _ l
    rw [hco]
    exact hnd

/-- C4 (amended): for every segment list in which every segment differs in
exactly one axis, no two horizontal segments share a horizontal line and no
two vertical segments share a vertical line, rebuilding the maze after
swapping the start/end endpoints of any subset of the segments yields an
identical `Maze`. -/
theorem c4_amended_reversal_invariance (segs segs2 : List Seg)
    (hps : ∀ s ∈ segs, properSeg s) (hdl : distinctLines segs)
    (hrel : List.Forall₂ (fun t s => t = s ∨ t = swapSeg s) segs2 segs) :
    mazeNew segs2 = mazeNew segs := by
  unfold mazeNew
  rw [phase1_swap segs2 segs [] hrel hps hdl]
  rcases hp : phase1 segs [] with _ | l
  · rfl
  · dsimp only
    have hnd : segs.Nodup := by
      by_contra hc
      rw [(phase1_none_iff segs []).mpr (Or.inr hc)] at hp
      exact absurd hp (by simp)
    have hcoords : (coordsOf l).Nodup :=
      phase1_nodup_aux segs hnd hdl hps segs [] [] l rfl
        (by simp [coordsOf]) (by simp [coordsOf]) hp
    rw [phase2_fold_swap segs2 segs l hrel hps hcoords]

/-- Instantiation of the amended reversal-invariance theorem: reversing the
horizontal bar of the plus-shaped maze leaves the maze unchanged. -/
theorem c4_amended_witness :
    mazeNew ([((-1, 0), (1, 0)), ((0, 1), (0, -1))] : List Seg) =
      mazeNew crossSegs :=
  c4_amended_reversal_invariance crossSegs _ (by decide) (by decide)
    (List.Forall₂.cons (Or.inr rfl)
      (List.Forall₂.cons (Or.inl rfl) List.Forall₂.nil))

/-! ## Equations of the frontier loop -/

theorem searchLoop_nilF (dist : Point → Point → ℚ) (m : Maze) (pp : ℕ × ℕ)
    (ppos : Point) (fuel : ℕ) (tried : List (ℕ × ℚ))
    (completed : List (ℚ × List ℕ)) :
    searchLoop dist m pp ppos fuel tried [] completed = some completed := by
  cases fuel <;> rfl

theorem searchLoop_succ (dist : Point → Point → ℚ) (m : Maze) (pp : ℕ × ℕ)
    (ppos : Point) (fuel : ℕ) (tried : List (ℕ × ℚ)) (x : ℚ × List ℕ)
    (xs : List (ℚ × List ℕ)) (completed : List (ℚ × List ℕ)) :
    searchLoop dist m pp ppos (fuel + 1) tried (x :: xs) completed =
      searchLoop dist m pp ppos fuel
        (runRound dist m pp ppos tried (x :: xs) completed).tried
        (runRound dist m pp ppos tried (x :: xs) completed).newPot
        (runRound dist m pp ppos tried (x :: xs) completed).completed := rfl

theorem expandStep_drop (dist : Point → Point → ℚ) (m : Maze) (pp : ℕ × ℕ)
    (ppos : Point) (acc : ℚ) (path : List ℕ) (st : SState) (jp : Path)
    (od : ℚ) (h : st.tried.lookup jp.end_index = some od)
    (hle : od ≤ acc + jp.length) :
    expandStep dist m pp ppos acc path st jp = st := by
  unfold expandStep
  rw [h]
  dsimp only
  rw [if_pos hle]

theorem expandStep_old_keep (dist : Point → Point → ℚ) (m : Maze)
    (pp : ℕ × ℕ) (ppos : Point) (acc : ℚ) (path : List ℕ) (st : SState)
    (jp : Path) (od : ℚ) (h : st.tried.lookup jp.end_index = some od)
    (hgt : ¬ od ≤ acc + jp.length) :
    expandStep dist m pp ppos acc path st jp =
      expandStep.expandKeep dist m pp ppos path st jp (acc + jp.length) := by
  unfold expandStep
  rw [h]
  dsimp only
  rw [if_neg hgt]

theorem expandStep_fresh (dist : Point → Point → ℚ) (m : Maze) (pp : ℕ × ℕ)
    (ppos : Point) (acc : ℚ) (path : List ℕ) (st : SState) (jp : Path)
    (h : st.tried.lookup jp.end_index = none) :
    expandStep dist m pp ppos acc path st jp =
      expandStep.expandKeep dist m pp ppos path st jp (acc + jp.length) := by
  unfold expandStep
  rw [h]

theorem expandKeep_pot (dist : Point → Point → ℚ) (m : Maze) (pp : ℕ × ℕ)
    (ppos : Point) (path : List ℕ) (st : SState) (jp : Path) (nd : ℚ)
    (hne : ¬ (jp.end_index = pp.1 ∨ jp.end_index = pp.2)) :
    expandStep.expandKeep dist m pp ppos path st jp nd =
      { st with newPot := st.newPot ++ [(nd, path ++ [jp.end_index])] } := by
  unfold expandStep.expandKeep
  rw [if_neg hne]

theorem expandKeep_done (dist : Point → Point → ℚ) (m : Maze) (pp : ℕ × ℕ)
    (ppos : Point) (path : List ℕ) (st : SState) (jp : Path) (nd : ℚ)
    (he : jp.end_index = pp.1 ∨ jp.end_index = pp.2) :
    expandStep.expandKeep dist m pp ppos path st jp nd =
      { st with completed := st.completed ++
          [(nd + hop dist m ppos jp.end_index, path ++ [jp.end_index])] } := by
  unfold expandStep.expandKeep
  rw [if_pos he]

theorem processItem_skip (dist : Point → Point → ℚ) (m : Maze) (pp : ℕ × ℕ)
    (ppos : Point) (st : SState) (item : ℚ × List ℕ) (d : ℚ)
    (h : st.tried.lookup (item.2.getLastD 0) = some d) (hlt : d < item.1) :
    processItem dist m pp ppos st item = st := by
  unfold processItem
  dsimp only
  rw [h]
  dsimp only
  rw [if_pos hlt]

theorem processItem_old (dist : Point → Point → ℚ) (m : Maze) (pp : ℕ × ℕ)
    (ppos : Point) (st : SState) (item : ℚ × List ℕ) (d : ℚ)
    (h : st.tried.lookup (item.2.getLastD 0) = some d) (hnlt : ¬ d < item.1) :
    processItem dist m pp ppos st item =
      (joining m (item.2.getLastD 0)).foldl
        (expandStep dist m pp ppos item.1 item.2) st := by
  unfold processItem
  dsimp only
  rw [h]
  dsimp only
  rw [if_neg hnlt]

theorem processItem_fresh (dist : Point → Point → ℚ) (m : Maze) (pp : ℕ × ℕ)
    (ppos : Point) (st : SState) (item : ℚ × List ℕ)
    (h : st.tried.lookup (item.2.getLastD 0) = none) :
    processItem dist m pp ppos st item =
      (joining m (item.2.getLastD 0)).foldl
        (expandStep dist m pp ppos item.1 item.2)
        { st with tried := (item.2.getLastD 0, item.1) :: st.tried } := by
  unfold processItem
  dsimp only
  rw [h]

/-- The divergent bounce: once the map holds the listed distances and the
frontier carries a single candidate strictly cheaper than the recorded
values at both ends of the zero-length edge, the loop never empties the
frontier, whatever the fuel. -/
theorem c8_bounce (dist : Point → Point → ℚ) (ppos : Point)
    (T : List (ℕ × ℚ)) (v0 v1 v2 v4 : ℚ)
    (h0 : T.lookup 0 = some v0) (h1 : T.lookup 1 = some v1)
    (h2 : T.lookup 2 = some v2) (h4 : T.lookup 4 = some v4) :
    ∀ fuel : ℕ,
      (∀ (b : ℚ) (path : List ℕ), b < v1 → b < v2 → v4 ≤ b + 1 →
        v0 ≤ b + 10 →
        searchLoop dist c8Maze (5, 6) ppos fuel T [(b, path ++ [1])] [] =
          none) ∧
      (∀ (b : ℚ) (path : List ℕ), b < v1 → b < v2 → v4 ≤ b + 1 →
        v0 ≤ b + 10 →
        searchLoop dist c8Maze (5, 6) ppos fuel T [(b, path ++ [2])] [] =
          none)
  | 0 => ⟨fun _ _ _ _ _ _ => rfl, fun _ _ _ _ _ _ => rfl⟩
  | fuel + 1 => by
    obtain ⟨IH1, IH2⟩ := c8_bounce dist ppos T v0 v1 v2 v4 h0 h1 h2 h4 fuel
    constructor
    · intro b path hb1 hb2 hb4 hb0
      rw [searchLoop_succ]
      have hr : runRound dist c8Maze (5, 6) ppos T [(b, path ++ [1])] [] =
          ⟨T, [(b + 0, (path ++ [1]) ++ [2])], []⟩ := by
        unfold runRound
        rw [List.foldl_cons, List.foldl_nil]
        rw [processItem_old dist c8Maze (5, 6) ppos ⟨T, [], []⟩
          (b, path ++ [1]) v1
          (by simp only [List.getLastD_concat]; exact h1)
          (by intro hc; exact absurd hc (by dsimp only; intro hc2; linarith))]
        simp only [List.getLastD_concat]
        rw [show joining c8Maze 1 =
          [⟨4, 1⟩, ⟨0, 10⟩, ⟨2, 0⟩] from rfl]
        rw [List.foldl_cons, List.foldl_cons, List.foldl_cons,
          List.foldl_nil]
        rw [expandStep_drop dist c8Maze (5, 6) ppos (b, path ++ [1]).1
          (b, path ++ [1]).2 ⟨T, [], []⟩ ⟨4, 1⟩ v4 h4
          (by have hc : v4 ≤ b + 1 := hb4; exact hc)]
        rw [expandStep_drop dist c8Maze (5, 6) ppos (b, path ++ [1]).1
          (b, path ++ [1]).2 ⟨T, [], []⟩ ⟨0, 10⟩ v0 h0
          (by have hc : v0 ≤ b + 10 := hb0; exact hc)]
        rw [expandStep_old_keep dist c8Maze (5, 6) ppos (b, path ++ [1]).1
          (b, path ++ [1]).2 ⟨T, [], []⟩ ⟨2, 0⟩ v2 h2
          (by intro hc; have hc2 : v2 ≤ b + 0 := hc; linarith)]
        rw [expandKeep_pot dist c8Maze (5, 6) ppos (b, path ++ [1]).2
          ⟨T, [], []⟩ ⟨2, 0⟩ _ (by decide)]
        rfl
      rw [hr]
      exact IH2 (b + 0) (path ++ [1]) (by linarith) (by linarith)
        (by linarith) (by linarith)
    · intro b path hb1 hb2 hb4 hb0
      rw [searchLoop_succ]
      have hr : runRound dist c8Maze (5, 6) ppos T [(b, path ++ [2])] [] =
          ⟨T, [(b + 0, (path ++ [2]) ++ [1])], []⟩ := by
        unfold runRound
        rw [List.foldl_cons, List.foldl_nil]
        rw [processItem_old dist c8Maze (5, 6) ppos ⟨T, [], []⟩
          (b, path ++ [2]) v2
          (by simp only [List.getLastD_concat]; exact h2)
          (by intro hc; exact absurd hc (by dsimp only; intro hc2; linarith))]
        simp only [List.getLastD_concat]
        rw [show joining c8Maze 2 = [⟨1, 0⟩] from rfl]
        rw [List.foldl_cons, List.foldl_nil]
        rw [expandStep_old_keep dist c8Maze (5, 6) ppos (b, path ++ [2]).1
          (b, path ++ [2]).2 ⟨T, [], []⟩ ⟨1, 0⟩ v1 h1
          (by intro hc; have hc2 : v1 ≤ b + 0 := hc; linarith)]
        rw [expandKeep_pot dist c8Maze (5, 6) ppos (b, path ++ [2]).2
          ⟨T, [], []⟩ ⟨1, 0⟩ _ (by decide)]
        rfl
      rw [hr]
      exact IH1 (b + 0) (path ++ [2]) (by linarith) (by linarith)
        (by linarith) (by linarith)

theorem c8_round1 (dist : Point → Point → ℚ) (ppos : Point) (a : ℚ) :
    runRound dist c8Maze (5, 6) ppos [] [(a, [] ++ [0])] [] =
      ⟨[(0, a)], [(a + 1, ([] ++ [0]) ++ [3]), (a + 10, ([] ++ [0]) ++ [1])],
        []⟩ := by
  unfold runRound
  rw [List.foldl_cons, List.foldl_nil]
  rw [processItem_fresh dist c8Maze (5, 6) ppos ⟨[], [], []⟩ (a, [] ++ [0])
    (by simp only [List.getLastD_concat]; rfl)]
  simp only [List.getLastD_concat]
  rw [show joining c8Maze 0 = [⟨3, 1⟩, ⟨1, 10⟩] from rfl]
  rw [List.foldl_cons, List.foldl_cons, List.foldl_nil]
  rw [expandStep_fresh dist c8Maze (5, 6) ppos _ _ _ ⟨3, 1⟩ (by rfl)]
  rw [expandKeep_pot dist c8Maze (5, 6) ppos _ _ ⟨3, 1⟩ _ (by decide)]
  rw [expandStep_fresh dist c8Maze (5, 6) ppos _ _ _ ⟨1, 10⟩ (by rfl)]
  rw [expandKeep_pot dist c8Maze (5, 6) ppos _ _ ⟨1, 10⟩ _ (by decide)]
  rfl

theorem c8_round2 (dist : Point → Point → ℚ) (ppos : Point) (a : ℚ) :
    runRound dist c8Maze (5, 6) ppos [(0, a)]
      [(a + 1, ([] ++ [0]) ++ [3]), (a + 10, ([] ++ [0]) ++ [1])] [] =
      ⟨[(1, a + 10), (3, a + 1), (0, a)],
        [(a + 1 + 1, (([] ++ [0]) ++ [3]) ++ [4]),
          (a + 10 + 1, (([] ++ [0]) ++ [1]) ++ [4]),
          (a + 10 + 0, (([] ++ [0]) ++ [1]) ++ [2])], []⟩ := by
  unfold runRound
  rw [List.foldl_cons, List.foldl_cons, List.foldl_nil]
  rw [processItem_fresh dist c8Maze (5, 6) ppos ⟨[(0, a)], [], []⟩
    (a + 1, ([] ++ [0]) ++ [3]) (by simp only [List.getLastD_concat]; rfl)]
  simp only [List.getLastD_concat]
  rw [show joining c8Maze 3 = [⟨0, 1⟩, ⟨4, 1⟩] from rfl]
  rw [List.foldl_cons, List.foldl_cons, List.foldl_nil]
  rw [expandStep_drop dist c8Maze (5, 6) ppos _ _ _ ⟨0, 1⟩ a (by rfl)
    (by have hc : a ≤ a + 1 + 1 := by linarith
        exact hc)]
  rw [expandStep_fresh dist c8Maze (5, 6) ppos _ _ _ ⟨4, 1⟩ (by rfl)]
  rw [expandKeep_pot dist c8Maze (5, 6) ppos _ _ ⟨4, 1⟩ _ (by decide)]
  rw [processItem_fresh dist c8Maze (5, 6) ppos _
    (a + 10, ([] ++ [0]) ++ [1]) (by simp only [List.getLastD_concat]; rfl)]
  simp only [List.getLastD_concat]
  rw [show joining c8Maze 1 = [⟨4, 1⟩, ⟨0, 10⟩, ⟨2, 0⟩] from rfl]
  rw [List.foldl_cons, List.foldl_cons, List.foldl_cons, List.foldl_nil]
  rw [expandStep_fresh dist c8Maze (5, 6) ppos _ _ _ ⟨4, 1⟩ (by rfl)]
  rw [expandKeep_pot dist c8Maze (5, 6) ppos _ _ ⟨4, 1⟩ _ (by decide)]
  rw [expandStep_drop dist c8Maze (5, 6) ppos _ _ _ ⟨0, 10⟩ a (by rfl)
    (by have hc : a ≤ a + 10 + 10 := by linarith
        exact hc)]
  rw [expandStep_fresh dist c8Maze (5, 6) ppos _ _ _ ⟨2, 0⟩ (by rfl)]
  rw [expandKeep_pot dist c8Maze (5, 6) ppos _ _ ⟨2, 0⟩ _ (by decide)]
  rfl

theorem c8_round3 (dist : Point → Point → ℚ) (ppos : Point) (a : ℚ) :
    runRound dist c8Maze (5, 6) ppos [(1, a + 10), (3, a + 1), (0, a)]
      [(a + 1 + 1, (([] ++ [0]) ++ [3]) ++ [4]),
        (a + 10 + 1, (([] ++ [0]) ++ [1]) ++ [4]),
        (a + 10 + 0, (([] ++ [0]) ++ [1]) ++ [2])] [] =
      ⟨[(2, a + 10 + 0), (4, a + 1 + 1), (1, a + 10), (3, a + 1), (0, a)],
        [(a + 1 + 1 + 1, ((([] ++ [0]) ++ [3]) ++ [4]) ++ [1])], []⟩ := by
  unfold runRound
  rw [List.foldl_cons, List.foldl_cons, List.foldl_cons, List.foldl_nil]
  rw [processItem_fresh dist c8Maze (5, 6) ppos
    ⟨[(1, a + 10), (3, a + 1), (0, a)], [], []⟩
    (a + 1 + 1, (([] ++ [0]) ++ [3]) ++ [4])
    (by simp only [List.getLastD_concat]; rfl)]
  simp only [List.getLastD_concat]
  rw [show joining c8Maze 4 = [⟨1, 1⟩, ⟨3, 1⟩] from rfl]
  rw [List.foldl_cons, List.foldl_cons, List.foldl_nil]
  rw [expandStep_old_keep dist c8Maze (5, 6) ppos _ _ _ ⟨1, 1⟩ (a + 10)
    (by rfl)
    (by intro hc
        have hc2 : a + 10 ≤ a + 1 + 1 + 1 := hc
        linarith)]
  rw [expandKeep_pot dist c8Maze (5, 6) ppos _ _ ⟨1, 1⟩ _ (by decide)]
  rw [expandStep_drop dist c8Maze (5, 6) ppos _ _ _ ⟨3, 1⟩ (a + 1) (by rfl)
    (by have hc : a + 1 ≤ a + 1 + 1 + 1 := by linarith
        exact hc)]
  rw [processItem_skip dist c8Maze (5, 6) ppos _
    (a + 10 + 1, (([] ++ [0]) ++ [1]) ++ [4]) (a + 1 + 1)
    (by simp only [List.getLastD_concat]; rfl)
    (by have hc : a + 1 + 1 < a + 10 + 1 := by linarith
        exact hc)]
  rw [processItem_fresh dist c8Maze (5, 6) ppos _
    (a + 10 + 0, (([] ++ [0]) ++ [1]) ++ [2])
    (by simp only [List.getLastD_concat]; rfl)]
  simp only [List.getLastD_concat]
  rw [show joining c8Maze 2 = [⟨1, 0⟩] from rfl]
  rw [List.foldl_cons, List.foldl_nil]
  rw [expandStep_drop dist c8Maze (5, 6) ppos _ _ _ ⟨1, 0⟩ (a + 10)
    (by rfl)
    (by have hc : a + 10 ≤ a + 10 + 0 + 0 := by linarith
        exact hc)]
  rfl

/-- From the single seed on node `0`, the frontier loop of the divergence
maze never ends, whatever the fuel. -/
theorem c8_master (dist : Point → Point → ℚ) (ppos : Point) (a : ℚ) :
    ∀ fuel : ℕ,
      searchLoop dist c8Maze (5, 6) ppos fuel [] [(a, [] ++ [0])] [] =
        none := by
  intro fuel
  cases fuel with
  | zero => rfl
  | succ f1 =>
    rw [searchLoop_succ, c8_round1 dist ppos a]
    cases f1 with
    | zero => rfl
    | succ f2 =>
      rw [searchLoop_succ, c8_round2 dist ppos a]
      cases f2 with
      | zero => rfl
      | succ f3 =>
        rw [searchLoop_succ, c8_round3 dist ppos a]
        exact (c8_bounce dist ppos
          [(2, a + 10 + 0), (4, a + 1 + 1), (1, a + 10), (3, a + 1), (0, a)]
          a (a + 10) (a + 10 + 0) (a + 1 + 1) rfl rfl rfl rfl f3).1
          (a + 1 + 1 + 1) ((([] ++ [0]) ++ [3]) ++ [4]) (by linarith)
          (by linarith) (by linarith) (by linarith)

/-- C8 (counterexample): a finite maze graph and a pair of positions that
both localize successfully on which `find_shortest_path` never terminates:
for every amount of fuel the frontier loop is still running, for every
distance function. -/
theorem c8_counterexample :
    findPath HALF_PATH_WIDTH c8player c8Maze = some (5, 6) ∧
    findPath HALF_PATH_WIDTH c8ghost c8Maze = some (0, 0) ∧
    ∀ (dist : Point → Point → ℚ) (fuel : ℕ),
      findShortestPath dist HALF_PATH_WIDTH fuel c8player c8ghost c8Maze =
        none := by
  refine ⟨by decide, by decide, ?_⟩
  intro dist fuel
  unfold findShortestPath
  rw [show findPath HALF_PATH_WIDTH c8player c8Maze = some (5, 6) from
    by decide]
  rw [show findPath HALF_PATH_WIDTH c8ghost c8Maze = some (0, 0) from
    by decide]
  dsimp only
  unfold planRoute
  rw [if_neg (by decide : ¬ ((0, 0) : ℕ × ℕ) = (5, 6))]
  rw [if_neg (by decide :
    ¬ (((0, 0) : ℕ × ℕ).1 = ((5, 6) : ℕ × ℕ).1 ∨
      ((0, 0) : ℕ × ℕ).1 = ((5, 6) : ℕ × ℕ).2))]
  rw [if_neg (by decide :
    ¬ (((0, 0) : ℕ × ℕ).2 = ((5, 6) : ℕ × ℕ).1 ∨
      ((0, 0) : ℕ × ℕ).2 = ((5, 6) : ℕ × ℕ).2))]
  dsimp only
  rw [if_neg (by decide : ¬ ((0, 0) : ℕ × ℕ).1 ≠ ((0, 0) : ℕ × ℕ).2)]
  have hm := c8_master dist c8player
    (dist (nodeAt c8Maze ((0, 0) : ℕ × ℕ).1).coordinates c8ghost) fuel
  rw [List.nil_append] at hm
  rw [hm]

theorem joining_eq_slotPaths (m : Maze) (c : ℕ) :
    joining m c = slotPaths (nodeAt m c) := rfl

theorem expandStep_tried_eq (dist : Point → Point → ℚ) (m : Maze)
    (pp : ℕ × ℕ) (ppos : Point) (acc : ℚ) (path : List ℕ) (st : SState)
    (jp : Path) :
    (expandStep dist m pp ppos acc path st jp).tried = st.tried := by
  unfold expandStep expandStep.expandKeep
  rcases h : st.tried.lookup jp.end_index with _ | od <;> dsimp only
  · split <;> rfl
  · split
    · rfl
    · split <;> rfl

theorem expandFold_tried_eq (dist : Point → Point → ℚ) (m : Maze)
    (pp : ℕ × ℕ) (ppos : Point) (acc : ℚ) (path : List ℕ) :
    ∀ (jps : List Path) (st : SState),
      ((jps.foldl (expandStep dist m pp ppos acc path) st).tried) = st.tried
  | [], st => rfl
  | jp :: jps, st => by
    rw [List.foldl_cons,
      expandFold_tried_eq dist m pp ppos acc path jps _,
      expandStep_tried_eq]

theorem processItem_tried_spec (dist : Point → Point → ℚ) (m : Maze)
    (pp : ℕ × ℕ) (ppos : Point) (st : SState) (item : ℚ × List ℕ) :
    (processItem dist m pp ppos st item).tried = st.tried ∨
      (st.tried.lookup (item.2.getLastD 0) = none ∧
        (processItem dist m pp ppos st item).tried =
          (item.2.getLastD 0, item.1) :: st.tried) := by
  rcases h : st.tried.lookup (item.2.getLastD 0) with _ | d
  · refine Or.inr ⟨rfl, ?_⟩
    rw [processItem_fresh dist m pp ppos st item h, expandFold_tried_eq]
  · by_cases hlt : d < item.1
    · rw [processItem_skip dist m pp ppos st item d h hlt]
      exact Or.inl rfl
    · rw [processItem_old dist m pp ppos st item d h hlt]
      rw [expandFold_tried_eq]
      exact Or.inl rfl

theorem lookup_cons_of_ne {T : List (ℕ × ℚ)} {k k2 : ℕ} (v2 : ℚ)
    (hne : k ≠ k2) : ((k2, v2) :: T).lookup k = T.lookup k := by
  have hb : (k == k2) = false := beq_eq_false_iff_ne.mpr hne
  rw [List.lookup_cons, hb]

theorem processItem_lookup_mono (dist : Point → Point → ℚ) (m : Maze)
    (pp : ℕ × ℕ) (ppos : Point) (st : SState) (item : ℚ × List ℕ)
    {k : ℕ} {v : ℚ} (h : st.tried.lookup k = some v) :
    (processItem dist m pp ppos st item).tried.lookup k = some v := by
  rcases processItem_tried_spec dist m pp ppos st item with h2 | ⟨h2, h3⟩
  · rw [h2]
    exact h
  · rw [h3]
    have hne : k ≠ item.2.getLastD 0 := by
      intro hc
      rw [← hc] at h2
      rw [h2] at h
      exact Option.noConfusion h
    rw [lookup_cons_of_ne _ hne]
    exact h

theorem runRoundFold_lookup_mono (dist : Point → Point → ℚ) (m : Maze)
    (pp : ℕ × ℕ) (ppos : Point) :
    ∀ (frontier : List (ℚ × List ℕ)) (st : SState) {k : ℕ} {v : ℚ},
      st.tried.lookup k = some v →
      ((frontier.foldl (processItem dist m pp ppos) st).tried.lookup k) =
        some v
  | [], st, k, v => fun h => h
  | item :: rest, st, k, v => fun h => by
    rw [List.foldl_cons]
    exact runRoundFold_lookup_mono dist m pp ppos rest _
      (processItem_lookup_mono dist m pp ppos st item h)

theorem runRound_lookup_mono (dist : Point → Point → ℚ) (m : Maze)
    (pp : ℕ × ℕ) (ppos : Point) (tried : List (ℕ × ℚ))
    (frontier : List (ℚ × List ℕ)) (completed : List (ℚ × List ℕ))
    {k : ℕ} {v : ℚ} (h : tried.lookup k = some v) :
    (runRound dist m pp ppos tried frontier completed).tried.lookup k =
      some v := by
  unfold runRound
  exact runRoundFold_lookup_mono dist m pp ppos frontier _ h

/-- Either a round leaves the map unchanged, or it records some previously
unrecorded terminal of a frontier item. -/
theorem runRoundFold_tried_cases (dist : Point → Point → ℚ) (m : Maze)
    (pp : ℕ × ℕ) (ppos : Point) :
    ∀ (frontier : List (ℚ × List ℕ)) (st : SState),
      ((frontier.foldl (processItem dist m pp ppos) st).tried = st.tried) ∨
        ∃ k, (∃ item ∈ frontier, k = item.2.getLastD 0) ∧
          st.tried.lookup k = none ∧
          ((frontier.foldl (processItem dist m pp ppos) st).tried.lookup k
            ≠ none)
  | [], st => Or.inl rfl
  | item :: rest, st => by
    rw [List.foldl_cons]
    rcases processItem_tried_spec dist m pp ppos st item with h2 | ⟨h2, h3⟩
    · rcases runRoundFold_tried_cases dist m pp ppos rest
          (processItem dist m pp ppos st item) with h4 | ⟨k, hk1, hk2, hk3⟩
      · exact Or.inl (h4.trans h2)
      · refine Or.inr ⟨k, ?_, ?_, hk3⟩
        · obtain ⟨it2, hit2, hk⟩ := hk1
          exact ⟨it2, List.mem_cons_of_mem _ hit2, hk⟩
        · rw [h2] at hk2
          exact hk2
    · refine Or.inr ⟨item.2.getLastD 0,
        ⟨item, List.mem_cons_self _ _, rfl⟩, h2, ?_⟩
      have h5 : (processItem dist m pp ppos st item).tried.lookup
          (item.2.getLastD 0) = some item.1 := by
        rw [h3, List.lookup_cons, beq_self_eq_true]
      rw [runRoundFold_lookup_mono dist m pp ppos rest _ h5]
      exact Option.noConfusion

theorem runRound_tried_cases (dist : Point → Point → ℚ) (m : Maze)
    (pp : ℕ × ℕ) (ppos : Point) (tried : List (ℕ × ℚ))
    (frontier : List (ℚ × List ℕ)) (completed : List (ℚ × List ℕ)) :
    ((runRound dist m pp ppos tried frontier completed).tried = tried) ∨
      ∃ k, (∃ item ∈ frontier, k = item.2.getLastD 0) ∧
        tried.lookup k = none ∧
        ((runRound dist m pp ppos tried frontier completed).tried.lookup k
          ≠ none) :=
  runRoundFold_tried_cases dist m pp ppos frontier ⟨tried, [], completed⟩

/-- If the head of a round's frontier ends at an unrecorded node, the round
records it. -/
theorem runRound_head_insert (dist : Point → Point → ℚ) (m : Maze)
    (pp : ℕ × ℕ) (ppos : Point) (tried : List (ℕ × ℚ)) (x : ℚ × List ℕ)
    (xs : List (ℚ × List ℕ)) (completed : List (ℚ × List ℕ))
    (h : tried.lookup (x.2.getLastD 0) = none) :
    (runRound dist m pp ppos tried (x :: xs) completed).tried.lookup
      (x.2.getLastD 0) ≠ none := by
  unfold runRound
  rw [List.foldl_cons]
  have h5 : (processItem dist m pp ppos ⟨tried, [], completed⟩ x).tried.lookup
      (x.2.getLastD 0) = some x.1 := by
    rw [processItem_fresh dist m pp ppos _ x h, expandFold_tried_eq]
    show (((x.2.getLastD 0, x.1) :: tried).lookup (x.2.getLastD 0)) = _
    rw [List.lookup_cons, beq_self_eq_true]
  rw [runRoundFold_lookup_mono dist m pp ppos xs _ h5]
  exact Option.noConfusion

/-- Where a new frontier item can come from: one expansion step. -/
theorem expandStep_newPot (dist : Point → Point → ℚ) (m : Maze)
    (pp : ℕ × ℕ) (ppos : Point) (acc : ℚ) (path : List ℕ) (st : SState)
    (jp : Path) {x : ℚ × List ℕ}
    (hx : x ∈ (expandStep dist m pp ppos acc path st jp).newPot) :
    x ∈ st.newPot ∨
      (x = (acc + jp.length, path ++ [jp.end_index]) ∧
        ∀ v, st.tried.lookup jp.end_index = some v →
          acc + jp.length < v) := by
  unfold expandStep expandStep.expandKeep at hx
  dsimp only at hx
  rcases h : st.tried.lookup jp.end_index with _ | od <;> rw [h] at hx <;>
    dsimp only at hx
  · split at hx
    · exact Or.inl hx
    · rcases List.mem_append.mp hx with h2 | h2
      · exact Or.inl h2
      · refine Or.inr ⟨List.mem_singleton.mp h2, ?_⟩
        intro v hv
        exact Option.noConfusion hv
  · split at hx
    · exact Or.inl hx
    · next hgt =>
      split at hx
      · exact Or.inl hx
      · rcases List.mem_append.mp hx with h2 | h2
        · exact Or.inl h2
        · refine Or.inr ⟨List.mem_singleton.mp h2, ?_⟩
          intro v hv
          obtain rfl : od = v := Option.some_injective _ hv
          exact lt_of_not_le hgt

/-- Where a new frontier item can come from: the whole expansion of one
frontier item. -/
theorem expandFold_newPot (dist : Point → Point → ℚ) (m : Maze)
    (pp : ℕ × ℕ) (ppos : Point) (acc : ℚ) (path : List ℕ) :
    ∀ (jps : List Path) (st : SState) (x : ℚ × List ℕ),
      x ∈ ((jps.foldl (expandStep dist m pp ppos acc path) st).newPot) →
      x ∈ st.newPot ∨
        ∃ jp ∈ jps, x = (acc + jp.length, path ++ [jp.end_index]) ∧
          ∀ v, st.tried.lookup jp.end_index = some v →
            acc + jp.length < v
  | [], st, x => fun hx => Or.inl hx
  | jp :: jps, st, x => fun hx => by
    rw [List.foldl_cons] at hx
    rcases expandFold_newPot dist m pp ppos acc path jps _ x hx with
      h2 | ⟨jp2, hjp2, h3, h4⟩
    · rcases expandStep_newPot dist m pp ppos acc path st jp h2 with
        h5 | ⟨h5, h6⟩
      · exact Or.inl h5
      · exact Or.inr ⟨jp, List.mem_cons_self _ _, h5, h6⟩
    · refine Or.inr ⟨jp2, List.mem_cons_of_mem _ hjp2, h3, ?_⟩
      intro v hv
      refine h4 v ?_
      rw [expandStep_tried_eq]
      exact hv

/-- Where a new frontier item can come from: one processed item. -/
theorem processItem_newPot (dist : Point → Point → ℚ) (m : Maze)
    (pp : ℕ × ℕ) (ppos : Point) (st : SState) (item : ℚ × List ℕ)
    {x : ℚ × List ℕ}
    (hx : x ∈ (processItem dist m pp ppos st item).newPot) :
    x ∈ st.newPot ∨
      ∃ jp ∈ joining m (item.2.getLastD 0),
        x = (item.1 + jp.length, item.2 ++ [jp.end_index]) ∧
        ∀ v, st.tried.lookup jp.end_index = some v →
          item.1 + jp.length < v := by
  rcases h : st.tried.lookup (item.2.getLastD 0) with _ | d
  · rw [processItem_fresh dist m pp ppos st item h] at hx
    rcases expandFold_newPot dist m pp ppos item.1 item.2 _ _ x hx with
      h2 | ⟨jp, hjp, h3, h4⟩
    · exact Or.inl h2
    · refine Or.inr ⟨jp, hjp, h3, ?_⟩
      intro v hv
      refine h4 v ?_
      show (((item.2.getLastD 0, item.1) :: st.tried).lookup jp.end_index)
        = some v
      have hne : jp.end_index ≠ item.2.getLastD 0 := by
        intro hc
        rw [hc, h] at hv
        exact Option.noConfusion hv
      rw [lookup_cons_of_ne _ hne]
      exact hv
  · by_cases hlt : d < item.1
    · rw [processItem_skip dist m pp ppos st item d h hlt] at hx
      exact Or.inl hx
    · rw [processItem_old dist m pp ppos st item d h hlt] at hx
      rcases expandFold_newPot dist m pp ppos item.1 item.2 _ _ x hx with
        h2 | ⟨jp, hjp, h3, h4⟩
      · exact Or.inl h2
      · exact Or.inr ⟨jp, hjp, h3, h4⟩

/-- Every next-round frontier item extends a current item along one
adjoining path, and is strictly cheaper than any recorded distance at its
terminal. -/
theorem runRound_newPot (dist : Point → Point → ℚ) (m : Maze) (pp : ℕ × ℕ)
    (ppos : Point) (tried : List (ℕ × ℚ)) (completed : List (ℚ × List ℕ)) :
    ∀ (frontier : List (ℚ × List ℕ)) (st : SState),
      (∀ k v, tried.lookup k = some v → st.tried.lookup k = some v) →
      ∀ x ∈ ((frontier.foldl (processItem dist m pp ppos) st).newPot),
        x ∈ st.newPot ∨
          ∃ item ∈ frontier, ∃ jp ∈ joining m (item.2.getLastD 0),
            x = (item.1 + jp.length, item.2 ++ [jp.end_index]) ∧
            ∀ v, tried.lookup jp.end_index = some v →
              item.1 + jp.length < v
  | [], st => fun _ x hx => Or.inl hx
  | item :: rest, st => fun hmono x hx => by
    rw [List.foldl_cons] at hx
    rcases runRound_newPot dist m pp ppos tried completed rest _
        (fun k v hkv => processItem_lookup_mono dist m pp ppos st item
          (hmono k v hkv)) x hx with h2 | ⟨it2, hit2, jp, hjp, h3, h4⟩
    · rcases processItem_newPot dist m pp ppos st item h2 with
        h5 | ⟨jp, hjp, h5, h6⟩
      · exact Or.inl h5
      · refine Or.inr ⟨item, List.mem_cons_self _ _, jp, hjp, h5, ?_⟩
        intro v hv
        exact h6 v (hmono _ _ hv)
    · exact Or.inr ⟨it2, List.mem_cons_of_mem _ hit2, jp, hjp, h3, h4⟩

/-- A looked-up distance is bounded by the map's value bound. -/
theorem lookup_le_valBound :
    ∀ (T : List (ℕ × ℚ)) (k : ℕ) (v : ℚ),
      T.lookup k = some v → v ≤ valBound T
  | [], k, v => fun h => Option.noConfusion h
  | (k2, v2) :: T, k, v => fun h => by
    unfold valBound
    rw [List.foldr_cons]
    by_cases hk : k = k2
    · subst hk
      rw [List.lookup_cons, beq_self_eq_true] at h
      obtain rfl : v2 = v := Option.some_injective _ h
      exact le_max_left _ _
    · rw [lookup_cons_of_ne _ hk] at h
      exact le_trans (lookup_le_valBound T k v h) (le_max_right _ _)

theorem remaining_mono (T T2 : List (ℕ × ℚ))
    (hmono : ∀ k v, T.lookup k = some v → T2.lookup k = some v) :
    ∀ U : List ℕ, remaining U T2 ≤ remaining U T
  | [] => le_refl _
  | u :: U => by
    unfold remaining
    rw [List.filter_cons, List.filter_cons]
    have hIH := remaining_mono T T2 hmono U
    cases h2 : (T2.lookup u).isNone
    · rw [if_neg Bool.false_ne_true]
      cases h1 : (T.lookup u).isNone
      · rw [if_neg Bool.false_ne_true]
        exact hIH
      · rw [if_pos rfl, List.length_cons]
        exact le_trans hIH (Nat.le_succ _)
    · have h1 : (T.lookup u).isNone = true := by
        rcases h3 : T.lookup u with _ | v
        · rfl
        · have h4 := hmono u v h3
          rw [Option.isNone_iff_eq_none] at h2
          rw [h2] at h4
          exact Option.noConfusion h4
      rw [if_pos rfl, if_pos (by rw [h1]), List.length_cons,
        List.length_cons]
      exact Nat.succ_le_succ hIH

theorem remaining_lt (T T2 : List (ℕ × ℚ))
    (hmono : ∀ k v, T.lookup k = some v → T2.lookup k = some v)
    (k0 : ℕ) (hk0 : T.lookup k0 = none) (hk2 : T2.lookup k0 ≠ none) :
    ∀ U : List ℕ, k0 ∈ U → remaining U T2 < remaining U T
  | [] => by simp
  | u :: U => fun hmem => by
    unfold remaining
    rw [List.filter_cons, List.filter_cons]
    rcases List.mem_cons.mp hmem with rfl | hmem2
    · have hT2 : (T2.lookup k0).isNone = false := by
        rcases h3 : T2.lookup k0 with _ | v
        · exact absurd h3 hk2
        · rfl
      rw [if_neg (by rw [hT2]; exact Bool.false_ne_true),
        if_pos (by rw [hk0]; rfl), List.length_cons]
      exact Nat.lt_succ_of_le (remaining_mono T T2 hmono U)
    · have hIH := remaining_lt T T2 hmono k0 hk0 hk2 U hmem2
      cases h2 : (T2.lookup u).isNone
      · rw [if_neg Bool.false_ne_true]
        cases h1 : (T.lookup u).isNone
        · rw [if_neg Bool.false_ne_true]
          exact hIH
        · rw [if_pos rfl, List.length_cons]
          exact Nat.lt_succ_of_lt hIH
      · have h1 : (T.lookup u).isNone = true := by
          rcases h3 : T.lookup u with _ | v
          · rfl
          · have h4 := hmono u v h3
            rw [Option.isNone_iff_eq_none] at h2
            rw [h2] at h4
            exact Option.noConfusion h4
        rw [if_pos rfl, if_pos (by rw [h1]), List.length_cons,
          List.length_cons]
        exact Nat.succ_lt_succ hIH

/-- Every next-round frontier item extends some current item along one
adjoining path: its value is the parent's plus that path's length, its
terminal is that path's endpoint, and it undercuts any distance the round
started with at that endpoint. -/
theorem runRound_newPot_shape (dist : Point → Point → ℚ) (m : Maze)
    (pp : ℕ × ℕ) (ppos : Point) (tried : List (ℕ × ℚ))
    (frontier completed : List (ℚ × List ℕ)) {y : ℚ × List ℕ}
    (hy : y ∈ (runRound dist m pp ppos tried frontier completed).newPot) :
    ∃ item ∈ frontier, ∃ jp ∈ joining m (item.2.getLastD 0),
      y.1 = item.1 + jp.length ∧ y.2.getLastD 0 = jp.end_index ∧
      ∀ v, tried.lookup jp.end_index = some v → y.1 < v := by
  unfold runRound at hy
  rcases runRound_newPot dist m pp ppos tried completed frontier
      ⟨tried, [], completed⟩ (fun k v h => h) y hy with
    h | ⟨item, hitem, jp, hjp, h3, h4⟩
  · exact absurd h (List.not_mem_nil _)
  · refine ⟨item, hitem, jp, hjp, ?_, ?_, ?_⟩
    · rw [h3]
    · rw [h3]
      simp only [List.getLastD_concat]
    · rw [h3]
      exact h4

/-- Invariant propagation: each next-round item's terminal stays inside the
key universe and its value has grown by at least `lmin`. -/
theorem newPot_inv (dist : Point → Point → ℚ) (m : Maze) (pp : ℕ × ℕ)
    (ppos : Point) (U : List ℕ) (lmin : ℚ)
    (hjoin : ∀ c : ℕ, ∀ jp ∈ joining m c, lmin ≤ jp.length ∧ jp.end_index ∈ U)
    (tried : List (ℕ × ℚ)) (frontier completed : List (ℚ × List ℕ)) (a0 : ℚ)
    (hinv : ∀ x ∈ frontier, x.2.getLastD 0 ∈ U ∧ a0 ≤ x.1) :
    ∀ y ∈ (runRound dist m pp ppos tried frontier completed).newPot,
      y.2.getLastD 0 ∈ U ∧ a0 + lmin ≤ y.1 := by
  intro y hy
  obtain ⟨item, hitem, jp, hjp, h1, h2, h3⟩ :=
    runRound_newPot_shape dist m pp ppos tried frontier completed hy
  obtain ⟨hjl, hju⟩ := hjoin _ jp hjp
  refine ⟨by rw [h2]; exact hju, ?_⟩
  have h4 := (hinv item hitem).2
  rw [h1]
  linarith

/-- Once every frontier value exceeds the map's value bound, every
next-round item ends at a node the map has not recorded. -/
theorem newPot_unrecorded (dist : Point → Point → ℚ) (m : Maze)
    (pp : ℕ × ℕ) (ppos : Point) (U : List ℕ) (lmin : ℚ) (hl : 0 < lmin)
    (hjoin : ∀ c : ℕ, ∀ jp ∈ joining m c, lmin ≤ jp.length ∧ jp.end_index ∈ U)
    (tried : List (ℕ × ℚ)) (frontier completed : List (ℚ × List ℕ)) (a0 : ℚ)
    (hinv : ∀ x ∈ frontier, a0 ≤ x.1) (hvb : valBound tried < a0) :
    ∀ y ∈ (runRound dist m pp ppos tried frontier completed).newPot,
      tried.lookup (y.2.getLastD 0) = none := by
  intro y hy
  obtain ⟨item, hitem, jp, hjp, h1, h2, h3⟩ :=
    runRound_newPot_shape dist m pp ppos tried frontier completed hy
  obtain ⟨hjl, _⟩ := hjoin _ jp hjp
  rcases hlk : tried.lookup (y.2.getLastD 0) with _ | v
  · rfl
  · exfalso
    rw [h2] at hlk
    have h4 := h3 v hlk
    have h5 := lookup_le_valBound tried _ v hlk
    have h6 := hinv item hitem
    rw [h1] at h4
    linarith

/-- Every finite frontier admits a lower bound on its accumulated
distances. -/
theorem frontier_lb : ∀ l : List (ℚ × List ℕ), ∃ a0 : ℚ, ∀ x ∈ l, a0 ≤ x.1
  | [] => ⟨0, fun _ hx => absurd hx (List.not_mem_nil _)⟩
  | x :: xs => by
    obtain ⟨a0, ha0⟩ := frontier_lb xs
    refine ⟨min a0 x.1, fun y hy => ?_⟩
    rcases List.mem_cons.mp hy with heq | hmem
    · rw [heq]
      exact min_le_right _ _
    · exact le_trans (min_le_left _ _) (ha0 y hmem)

/-- A round budget large enough to push every frontier value past any fixed
bound, by the archimedean property of the rationals. -/
theorem exists_round_budget (lmin : ℚ) (hl : 0 < lmin) (b a0 : ℚ) :
    ∃ n : ℕ, b < a0 + n * lmin := by
  obtain ⟨n, hn⟩ := exists_nat_gt ((b - a0) / lmin)
  refine ⟨n, ?_⟩
  have h2 : b - a0 < n * lmin := (div_lt_iff hl).mp hn
  linarith

/-- Every adjoining path of any index comes from a slot of a stored
intersection (out-of-range indices have no adjoining paths), so a uniform
slot-length bound covers it. -/
theorem joining_bound (m : Maze) (lmin : ℚ)
    (hlen : ∀ it ∈ m.intersections, ∀ jp ∈ slotPaths it, lmin ≤ jp.length)
    (c : ℕ) (jp : Path) (hjp : jp ∈ joining m c) :
    lmin ≤ jp.length ∧ ∃ it ∈ m.intersections, jp ∈ slotPaths it := by
  rw [joining_eq_slotPaths] at hjp
  unfold nodeAt at hjp
  rw [List.getD_eq_get?] at hjp
  rcases hg : m.intersections.get? c with _ | it
  · rw [hg] at hjp
    exact absurd hjp (List.not_mem_nil _)
  · rw [hg] at hjp
    have hmem : it ∈ m.intersections := List.get?_mem hg
    exact ⟨hlen it hmem jp hjp, it, hmem, hjp⟩

/-- Inner induction for the termination argument: fixing the distance map,
either some round records a fresh node (handing control to the outer
hypothesis `HIH`), or the frontier values grow by at least `lmin` per round;
once they pass the map's value bound every new terminal is unrecorded, so
the frontier either dies out or forces a fresh record within two rounds. -/
theorem c8_inner (dist : Point → Point → ℚ) (m : Maze) (pp : ℕ × ℕ)
    (ppos : Point) (U : List ℕ) (lmin : ℚ) (hl : 0 < lmin)
    (hjoin : ∀ c : ℕ, ∀ jp ∈ joining m c, lmin ≤ jp.length ∧ jp.end_index ∈ U)
    (tried : List (ℕ × ℚ))
    (HIH : ∀ tried2 : List (ℕ × ℚ),
      remaining U tried2 < remaining U tried →
      ∀ f2 c2 : List (ℚ × List ℕ), (∀ x ∈ f2, x.2.getLastD 0 ∈ U) →
      ∃ fuel, (searchLoop dist m pp ppos fuel tried2 f2 c2).isSome) :
    ∀ (n2 : ℕ) (frontier completed : List (ℚ × List ℕ)) (a0 : ℚ),
      (∀ x ∈ frontier, x.2.getLastD 0 ∈ U ∧ a0 ≤ x.1) →
      valBound tried < a0 + n2 * lmin →
      ∃ fuel, (searchLoop dist m pp ppos fuel tried frontier completed).isSome
  | _, [], completed, _ => fun _ _ => ⟨0, rfl⟩
  | 0, x :: xs, completed, a0 => fun hinv hb => by
    rcases runRound_tried_cases dist m pp ppos tried (x :: xs) completed with
      hstall | ⟨k, ⟨item, hitem, hk⟩, hk0, hk1⟩
    · have hvb : valBound tried < a0 := by simpa using hb
      have hun := newPot_unrecorded dist m pp ppos U lmin hl hjoin tried
        (x :: xs) completed a0 (fun z hz => (hinv z hz).2) hvb
      have hUnp := newPot_inv dist m pp ppos U lmin hjoin tried (x :: xs)
        completed a0 hinv
      rcases hnp : (runRound dist m pp ppos tried (x :: xs) completed).newPot
        with _ | ⟨y, ys⟩
      · refine ⟨0 + 1, ?_⟩
        rw [searchLoop_succ, hstall, hnp, searchLoop_nilF]
        rfl
      · have hyn : tried.lookup (y.2.getLastD 0) = none := by
          refine hun y ?_
          rw [hnp]
          exact List.mem_cons_self _ _
        have hyU : y.2.getLastD 0 ∈ U := by
          refine (hUnp y ?_).1
          rw [hnp]
          exact List.mem_cons_self _ _
        have hinv2 : ∀ w ∈ y :: ys, w.2.getLastD 0 ∈ U ∧ a0 + lmin ≤ w.1 := by
          intro w hw
          refine hUnp w ?_
          rw [hnp]
          exact hw
        have hins := runRound_head_insert dist m pp ppos tried y ys
          (runRound dist m pp ppos tried (x :: xs) completed).completed hyn
        have hdec : remaining U (runRound dist m pp ppos tried (y :: ys)
            (runRound dist m pp ppos tried (x :: xs) completed).completed).tried
            < remaining U tried :=
          remaining_lt tried _ (fun k2 v2 h2 =>
            runRound_lookup_mono dist m pp ppos tried (y :: ys) _ h2)
            (y.2.getLastD 0) hyn hins U hyU
        obtain ⟨f, hf⟩ := HIH _ hdec
          (runRound dist m pp ppos tried (y :: ys)
            (runRound dist m pp ppos tried (x :: xs) completed).completed).newPot
          (runRound dist m pp ppos tried (y :: ys)
            (runRound dist m pp ppos tried (x :: xs) completed).completed).completed
          (fun z hz => (newPot_inv dist m pp ppos U lmin hjoin tried (y :: ys)
            (runRound dist m pp ppos tried (x :: xs) completed).completed
            (a0 + lmin) hinv2 z hz).1)
        refine ⟨f + 1 + 1, ?_⟩
        rw [searchLoop_succ, hstall, hnp, searchLoop_succ]
        exact hf
    · have hdec : remaining U
          (runRound dist m pp ppos tried (x :: xs) completed).tried
          < remaining U tried :=
        remaining_lt tried _ (fun k2 v2 h2 =>
          runRound_lookup_mono dist m pp ppos tried (x :: xs) completed h2)
          k hk0 hk1 U (by rw [hk]; exact (hinv item hitem).1)
      obtain ⟨f, hf⟩ := HIH _ hdec
        (runRound dist m pp ppos tried (x :: xs) completed).newPot
        (runRound dist m pp ppos tried (x :: xs) completed).completed
        (fun y hy => (newPot_inv dist m pp ppos U lmin hjoin tried (x :: xs)
          completed a0 hinv y hy).1)
      refine ⟨f + 1, ?_⟩
      rw [searchLoop_succ]
      exact hf
  | n2 + 1, x :: xs, completed, a0 => fun hinv hb => by
    rcases runRound_tried_cases dist m pp ppos tried (x :: xs) completed with
      hstall | ⟨k, ⟨item, hitem, hk⟩, hk0, hk1⟩
    · have hinv2 := newPot_inv dist m pp ppos U lmin hjoin tried (x :: xs)
        completed a0 hinv
      have hb2 : valBound tried < (a0 + lmin) + n2 * lmin := by
        push_cast at hb ⊢
        linarith
      obtain ⟨f, hf⟩ := c8_inner dist m pp ppos U lmin hl hjoin tried HIH n2
        (runRound dist m pp ppos tried (x :: xs) completed).newPot
        (runRound dist m pp ppos tried (x :: xs) completed).completed
        (a0 + lmin) hinv2 hb2
      refine ⟨f + 1, ?_⟩
      rw [searchLoop_succ, hstall]
      exact hf
    · have hdec : remaining U
          (runRound dist m pp ppos tried (x :: xs) completed).tried
          < remaining U tried :=
        remaining_lt tried _ (fun k2 v2 h2 =>
          runRound_lookup_mono dist m pp ppos tried (x :: xs) completed h2)
          k hk0 hk1 U (by rw [hk]; exact (hinv item hitem).1)
      obtain ⟨f, hf⟩ := HIH _ hdec
        (runRound dist m pp ppos tried (x :: xs) completed).newPot
        (runRound dist m pp ppos tried (x :: xs) completed).completed
        (fun y hy => (newPot_inv dist m pp ppos U lmin hjoin tried (x :: xs)
          completed a0 hinv y hy).1)
      refine ⟨f + 1, ?_⟩
      rw [searchLoop_succ]
      exact hf

/-- Outer induction for the termination argument: the number of keys of the
finite universe `U` that the map has not recorded never increases and
strictly decreases whenever a fresh node is recorded. -/
theorem c8_outer (dist : Point → Point → ℚ) (m : Maze) (pp : ℕ × ℕ)
    (ppos : Point) (U : List ℕ) (lmin : ℚ) (hl : 0 < lmin)
    (hjoin : ∀ c : ℕ, ∀ jp ∈ joining m c, lmin ≤ jp.length ∧ jp.end_index ∈ U) :
    ∀ (R : ℕ) (tried : List (ℕ × ℚ)), remaining U tried ≤ R →
      ∀ frontier completed : List (ℚ × List ℕ),
        (∀ x ∈ frontier, x.2.getLastD 0 ∈ U) →
        ∃ fuel, (searchLoop dist m pp ppos fuel tried frontier completed).isSome
  | 0, tried => fun hR frontier completed hf => by
    obtain ⟨a0, ha0⟩ := frontier_lb frontier
    obtain ⟨n2, hn2⟩ := exists_round_budget lmin hl (valBound tried) a0
    exact c8_inner dist m pp ppos U lmin hl hjoin tried
      (fun tried2 h2 => absurd (h2.trans_le hR) (Nat.not_lt_zero _))
      n2 frontier completed a0 (fun x hx => ⟨hf x hx, ha0 x hx⟩) hn2
  | R + 1, tried => fun hR frontier completed hf => by
    obtain ⟨a0, ha0⟩ := frontier_lb frontier
    obtain ⟨n2, hn2⟩ := exists_round_budget lmin hl (valBound tried) a0
    exact c8_inner dist m pp ppos U lmin hl hjoin tried
      (fun tried2 h2 f2 c2 hf2 =>
        c8_outer dist m pp ppos U lmin hl hjoin R tried2
          (Nat.lt_succ_iff.mp (h2.trans_le hR)) f2 c2 hf2)
      n2 frontier completed a0 (fun x hx => ⟨hf x hx, ha0 x hx⟩) hn2

/-- C8 (amended): if every edge length of the maze has a positive lower
bound `lmin`, the frontier loop of `find_shortest_path` terminates from any
starting state: some finite fuel empties the frontier.  (The original
claim, for every finite maze graph, is refuted by `c8_counterexample`: a
zero-length edge lets a late cheaper arrival bounce forever.) -/
theorem c8_amended_termination (dist : Point → Point → ℚ) (m : Maze)
    (pp : ℕ × ℕ) (ppos : Point) (lmin : ℚ) (hl : 0 < lmin)
    (hlen : ∀ it ∈ m.intersections, ∀ jp ∈ slotPaths it, lmin ≤ jp.length)
    (tried : List (ℕ × ℚ)) (frontier completed : List (ℚ × List ℕ)) :
    ∃ fuel, (searchLoop dist m pp ppos fuel tried frontier completed).isSome := by
  refine c8_outer dist m pp ppos
    ((frontier.map fun x => x.2.getLastD 0) ++
      (m.intersections.map fun it => (slotPaths it).map Path.end_index).join)
    lmin hl ?_ (remaining _ tried) tried (le_refl _) frontier completed ?_
  · intro c jp hjp
    obtain ⟨hle, it, hmem, hslot⟩ := joining_bound m lmin hlen c jp hjp
    refine ⟨hle, List.mem_append.mpr (Or.inr ?_)⟩
    rw [List.mem_join]
    exact ⟨(slotPaths it).map Path.end_index,
      List.mem_map.mpr ⟨it, hmem, rfl⟩, List.mem_map.mpr ⟨jp, hslot, rfl⟩⟩
  · intro x hx
    exact List.mem_append.mpr (Or.inl (List.mem_map.mpr ⟨x, hx, rfl⟩))

/-- Chain costs are non-negative, and at least `lmin` as soon as one edge is
traversed, whenever every stored edge length is at least `lmin`. -/
theorem chainCost_lb (m : Maze) (lmin : ℚ) (hl : 0 ≤ lmin)
    (hlen : ∀ it ∈ m.intersections, ∀ jp ∈ slotPaths it, lmin ≤ jp.length)
    {P : List ℕ} {c : ℚ} (h : ChainCost m P c) :
    0 ≤ c ∧ (2 ≤ P.length → lmin ≤ c) := by
  induction h with
  | single a =>
    refine ⟨le_refl 0, fun h2 => by simp at h2⟩
  | cons a b r l c he hr ih =>
    obtain ⟨jp, hjp, _, hle⟩ := he
    have h1 := (joining_bound m lmin hlen a jp hjp).1
    rw [hle] at h1
    exact ⟨by linarith [ih.1], fun _ => by linarith [ih.1]⟩

/-- The termination theorem applied to the unit-test cross maze, whose four
edges all have length `1`. -/
theorem c8_amended_witness :
    (0 : ℚ) < 1 ∧
      (∀ it ∈ crossMaze.intersections, ∀ jp ∈ slotPaths it,
        (1 : ℚ) ≤ jp.length) ∧
      ∃ fuel,
        (searchLoop distM crossMaze (1, 2) (1, 0) fuel [] [(1, [3])] []).isSome :=
  ⟨by decide, by decide,
    c8_amended_termination distM crossMaze (1, 2) (1, 0) 1 (by decide)
      (by decide) [] [(1, [3])] []⟩

/-! ### Monotonicity of the search state within one round -/

theorem expandStep_pot_mono (dist : Point → Point → ℚ) (m : Maze)
    (pp : ℕ × ℕ) (ppos : Point) (acc : ℚ) (path : List ℕ) (st : SState)
    (jp : Path) {x : ℚ × List ℕ} (hx : x ∈ st.newPot) :
    x ∈ (expandStep dist m pp ppos acc path st jp).newPot := by
  rcases h : st.tried.lookup jp.end_index with _ | od
  · rw [expandStep_fresh dist m pp ppos acc path st jp h]
    by_cases he : jp.end_index = pp.1 ∨ jp.end_index = pp.2
    · rw [expandKeep_done dist m pp ppos path st jp _ he]
      exact hx
    · rw [expandKeep_pot dist m pp ppos path st jp _ he]
      exact List.mem_append_left _ hx
  · by_cases hle : od ≤ acc + jp.length
    · rw [expandStep_drop dist m pp ppos acc path st jp od h hle]
      exact hx
    · rw [expandStep_old_keep dist m pp ppos acc path st jp od h hle]
      by_cases he : jp.end_index = pp.1 ∨ jp.end_index = pp.2
      · rw [expandKeep_done dist m pp ppos path st jp _ he]
        exact hx
      · rw [expandKeep_pot dist m pp ppos path st jp _ he]
        exact List.mem_append_left _ hx

theorem expandStep_comp_mono (dist : Point → Point → ℚ) (m : Maze)
    (pp : ℕ × ℕ) (ppos : Point) (acc : ℚ) (path : List ℕ) (st : SState)
    (jp : Path) {x : ℚ × List ℕ} (hx : x ∈ st.completed) :
    x ∈ (expandStep dist m pp ppos acc path st jp).completed := by
  rcases h : st.tried.lookup jp.end_index with _ | od
  · rw [expandStep_fresh dist m pp ppos acc path st jp h]
    by_cases he : jp.end_index = pp.1 ∨ jp.end_index = pp.2
    · rw [expandKeep_done dist m pp ppos path st jp _ he]
      exact List.mem_append_left _ hx
    · rw [expandKeep_pot dist m pp ppos path st jp _ he]
      exact hx
  · by_cases hle : od ≤ acc + jp.length
    · rw [expandStep_drop dist m pp ppos acc path st jp od h hle]
      exact hx
    · rw [expandStep_old_keep dist m pp ppos acc path st jp od h hle]
      by_cases he : jp.end_index = pp.1 ∨ jp.end_index = pp.2
      · rw [expandKeep_done dist m pp ppos path st jp _ he]
        exact List.mem_append_left _ hx
      · rw [expandKeep_pot dist m pp ppos path st jp _ he]
        exact hx

theorem expandFold_pot_mono (dist : Point → Point → ℚ) (m : Maze)
    (pp : ℕ × ℕ) (ppos : Point) (acc : ℚ) (path : List ℕ) :
    ∀ (jps : List Path) (st : SState) {x : ℚ × List ℕ}, x ∈ st.newPot →
      x ∈ ((jps.foldl (expandStep dist m pp ppos acc path) st).newPot)
  | [], _, _ => fun hx => hx
  | jp :: jps, st, x => fun hx => by
    rw [List.foldl_cons]
    exact expandFold_pot_mono dist m pp ppos acc path jps _
      (expandStep_pot_mono dist m pp ppos acc path st jp hx)

theorem expandFold_comp_mono (dist : Point → Point → ℚ) (m : Maze)
    (pp : ℕ × ℕ) (ppos : Point) (acc : ℚ) (path : List ℕ) :
    ∀ (jps : List Path) (st : SState) {x : ℚ × List ℕ}, x ∈ st.completed →
      x ∈ ((jps.foldl (expandStep dist m pp ppos acc path) st).completed)
  | [], _, _ => fun hx => hx
  | jp :: jps, st, x => fun hx => by
    rw [List.foldl_cons]
    exact expandFold_comp_mono dist m pp ppos acc path jps _
      (expandStep_comp_mono dist m pp ppos acc path st jp hx)

theorem processItem_pot_mono (dist : Point → Point → ℚ) (m : Maze)
    (pp : ℕ × ℕ) (ppos : Point) (st : SState) (item : ℚ × List ℕ)
    {x : ℚ × List ℕ} (hx : x ∈ st.newPot) :
    x ∈ (processItem dist m pp ppos st item).newPot := by
  rcases h : st.tried.lookup (item.2.getLastD 0) with _ | d
  · rw [processItem_fresh dist m pp ppos st item h]
    exact expandFold_pot_mono dist m pp ppos item.1 item.2 _ _ hx
  · by_cases hlt : d < item.1
    · rw [processItem_skip dist m pp ppos st item d h hlt]
      exact hx
    · rw [processItem_old dist m pp ppos st item d h hlt]
      exact expandFold_pot_mono dist m pp ppos item.1 item.2 _ _ hx

theorem processItem_comp_mono (dist : Point → Point → ℚ) (m : Maze)
    (pp : ℕ × ℕ) (ppos : Point) (st : SState) (item : ℚ × List ℕ)
    {x : ℚ × List ℕ} (hx : x ∈ st.completed) :
    x ∈ (processItem dist m pp ppos st item).completed := by
  rcases h : st.tried.lookup (item.2.getLastD 0) with _ | d
  · rw [processItem_fresh dist m pp ppos st item h]
    exact expandFold_comp_mono dist m pp ppos item.1 item.2 _ _ hx
  · by_cases hlt : d < item.1
    · rw [processItem_skip dist m pp ppos st item d h hlt]
      exact hx
    · rw [processItem_old dist m pp ppos st item d h hlt]
      exact expandFold_comp_mono dist m pp ppos item.1 item.2 _ _ hx

/-! ### Suffix and budget-chain utilities -/

theorem budgetChain_tail (m : Maze) (p : ℕ × ℚ) (l : List (ℕ × ℚ))
    (h : BudgetChain m (p :: l)) : BudgetChain m l := by
  rcases l with _ | ⟨q, r⟩
  · trivial
  · rcases p with ⟨a, ba⟩
    rcases q with ⟨b, bb⟩
    exact h.2

theorem budgetChain_suffix (m : Maze) :
    ∀ (pre L : List (ℕ × ℚ)), BudgetChain m (pre ++ L) → BudgetChain m L
  | [], _ => fun h => h
  | p :: pre, L => fun h =>
    budgetChain_suffix m pre L (budgetChain_tail m p _ h)

theorem suffix_getLast {α : Type} (S L : List α) (h : S <:+ L)
    (hne : S ≠ []) : S.getLast? = L.getLast? := by
  obtain ⟨pre, rfl⟩ := h
  rw [List.getLast?_append_of_ne_nil pre hne]

theorem suffix_dropLast_mem {α : Type} (S L : List α) (h : S <:+ L)
    {p : α} (hp : p ∈ S.dropLast) : p ∈ L.dropLast := by
  obtain ⟨pre, rfl⟩ := h
  rcases S with _ | ⟨a, S2⟩
  · exact absurd hp (List.not_mem_nil _)
  · rw [List.dropLast_append_of_ne_nil pre (List.cons_ne_nil a S2)]
    exact List.mem_append_right _ hp

/-! ### Dispatch: an expanded item covers the next path position -/

theorem expandStep_dispatch_last (dist : Point → Point → ℚ) (m : Maze)
    (pp : ℕ × ℕ) (ppos : Point) (acc : ℚ) (path : List ℕ) (st : SState)
    (jp : Path) (t : ℚ)
    (hppe : jp.end_index = pp.1 ∨ jp.end_index = pp.2)
    (hnone : st.tried.lookup jp.end_index = none)
    (hb : acc + jp.length + hop dist m ppos jp.end_index ≤ t) :
    Ccov (expandStep dist m pp ppos acc path st jp).completed t := by
  rw [expandStep_fresh dist m pp ppos acc path st jp hnone,
    expandKeep_done dist m pp ppos path st jp _ hppe]
  exact ⟨_, List.mem_append_right _ (List.mem_singleton_self _), hb⟩

theorem expandStep_dispatch_mid (dist : Point → Point → ℚ) (m : Maze)
    (pp : ℕ × ℕ) (ppos : Point) (acc : ℚ) (path : List ℕ) (st : SState)
    (jp : Path) (b2 : ℚ)
    (hnppe : ¬ (jp.end_index = pp.1 ∨ jp.end_index = pp.2))
    (hb : acc + jp.length ≤ b2) :
    Fcov (expandStep dist m pp ppos acc path st jp).newPot jp.end_index b2 ∨
      Tcov st.tried jp.end_index b2 := by
  rcases h : st.tried.lookup jp.end_index with _ | od
  · left
    rw [expandStep_fresh dist m pp ppos acc path st jp h,
      expandKeep_pot dist m pp ppos path st jp _ hnppe]
    refine ⟨(acc + jp.length, path ++ [jp.end_index]),
      List.mem_append_right _ (List.mem_singleton_self _), ?_, hb⟩
    simp only [List.getLastD_concat]
  · by_cases hle : od ≤ acc + jp.length
    · exact Or.inr ⟨od, h, le_trans hle hb⟩
    · left
      rw [expandStep_old_keep dist m pp ppos acc path st jp od h hle,
        expandKeep_pot dist m pp ppos path st jp _ hnppe]
      refine ⟨(acc + jp.length, path ++ [jp.end_index]),
        List.mem_append_right _ (List.mem_singleton_self _), ?_, hb⟩
      simp only [List.getLastD_concat]

theorem dispatch_last (dist : Point → Point → ℚ) (m : Maze) (pp : ℕ × ℕ)
    (ppos : Point) (acc : ℚ) (path : List ℕ) (st : SState) (n : ℕ)
    (jp : Path) (t : ℚ) (hjp : jp ∈ joining m n)
    (hppe : jp.end_index = pp.1 ∨ jp.end_index = pp.2)
    (hnone : st.tried.lookup jp.end_index = none)
    (hb : acc + jp.length + hop dist m ppos jp.end_index ≤ t) :
    Ccov ((joining m n).foldl (expandStep dist m pp ppos acc path)
      st).completed t := by
  obtain ⟨s, u, hsplit⟩ := List.append_of_mem hjp
  rw [hsplit, List.foldl_append, List.foldl_cons]
  have hmid : (s.foldl (expandStep dist m pp ppos acc path) st).tried =
      st.tried := expandFold_tried_eq dist m pp ppos acc path s st
  obtain ⟨c, hc, hct⟩ := expandStep_dispatch_last dist m pp ppos acc path
    (s.foldl (expandStep dist m pp ppos acc path) st) jp t hppe
    (by rw [hmid]; exact hnone) hb
  exact ⟨c, expandFold_comp_mono dist m pp ppos acc path u _ hc, hct⟩

theorem dispatch_mid (dist : Point → Point → ℚ) (m : Maze) (pp : ℕ × ℕ)
    (ppos : Point) (acc : ℚ) (path : List ℕ) (st : SState) (n : ℕ)
    (jp : Path) (b2 : ℚ) (hjp : jp ∈ joining m n)
    (hnppe : ¬ (jp.end_index = pp.1 ∨ jp.end_index = pp.2))
    (hb : acc + jp.length ≤ b2) :
    Fcov ((joining m n).foldl (expandStep dist m pp ppos acc path)
        st).newPot jp.end_index b2 ∨
      Tcov st.tried jp.end_index b2 := by
  obtain ⟨s, u, hsplit⟩ := List.append_of_mem hjp
  rw [hsplit, List.foldl_append, List.foldl_cons]
  have hmid : (s.foldl (expandStep dist m pp ppos acc path) st).tried =
      st.tried := expandFold_tried_eq dist m pp ppos acc path s st
  rcases expandStep_dispatch_mid dist m pp ppos acc path
      (s.foldl (expandStep dist m pp ppos acc path) st) jp b2 hnppe hb with
    h | ⟨od, hod, hle⟩
  · obtain ⟨it, hit, hterm, hle2⟩ := h
    exact Or.inl ⟨it, expandFold_pot_mono dist m pp ppos acc path u _ hit,
      hterm, hle2⟩
  · rw [hmid] at hod
    exact Or.inr ⟨od, hod, hle⟩

/-! ### New frontier items avoid the target edge's endpoints -/

theorem expandStep_pot_ppe (dist : Point → Point → ℚ) (m : Maze)
    (pp : ℕ × ℕ) (ppos : Point) (acc : ℚ) (path : List ℕ) (st : SState)
    (jp : Path) {x : ℚ × List ℕ}
    (hx : x ∈ (expandStep dist m pp ppos acc path st jp).newPot) :
    x ∈ st.newPot ∨ ¬ isPPE pp (x.2.getLastD 0) := by
  rcases h : st.tried.lookup jp.end_index with _ | od
  · rw [expandStep_fresh dist m pp ppos acc path st jp h] at hx
    by_cases he : jp.end_index = pp.1 ∨ jp.end_index = pp.2
    · rw [expandKeep_done dist m pp ppos path st jp _ he] at hx
      exact Or.inl hx
    · rw [expandKeep_pot dist m pp ppos path st jp _ he] at hx
      rcases List.mem_append.mp hx with h2 | h2
      · exact Or.inl h2
      · right
        obtain rfl := List.mem_singleton.mp h2
        dsimp only
        simp only [List.getLastD_concat]
        exact he
  · by_cases hle : od ≤ acc + jp.length
    · rw [expandStep_drop dist m pp ppos acc path st jp od h hle] at hx
      exact Or.inl hx
    · rw [expandStep_old_keep dist m pp ppos acc path st jp od h hle] at hx
      by_cases he : jp.end_index = pp.1 ∨ jp.end_index = pp.2
      · rw [expandKeep_done dist m pp ppos path st jp _ he] at hx
        exact Or.inl hx
      · rw [expandKeep_pot dist m pp ppos path st jp _ he] at hx
        rcases List.mem_append.mp hx with h2 | h2
        · exact Or.inl h2
        · right
          obtain rfl := List.mem_singleton.mp h2
          dsimp only
          simp only [List.getLastD_concat]
          exact he

theorem expandFold_pot_ppe (dist : Point → Point → ℚ) (m : Maze)
    (pp : ℕ × ℕ) (ppos : Point) (acc : ℚ) (path : List ℕ) :
    ∀ (jps : List Path) (st : SState) {x : ℚ × List ℕ},
      x ∈ ((jps.foldl (expandStep dist m pp ppos acc path) st).newPot) →
      x ∈ st.newPot ∨ ¬ isPPE pp (x.2.getLastD 0)
  | [], _, _ => fun hx => Or.inl hx
  | jp :: jps, st, x => fun hx => by
    rw [List.foldl_cons] at hx
    rcases expandFold_pot_ppe dist m pp ppos acc path jps _ hx with h2 | h2
    · exact expandStep_pot_ppe dist m pp ppos acc path st jp h2
    · exact Or.inr h2

theorem processItem_pot_ppe (dist : Point → Point → ℚ) (m : Maze)
    (pp : ℕ × ℕ) (ppos : Point) (st : SState) (item : ℚ × List ℕ)
    {x : ℚ × List ℕ}
    (hx : x ∈ (processItem dist m pp ppos st item).newPot) :
    x ∈ st.newPot ∨ ¬ isPPE pp (x.2.getLastD 0) := by
  rcases h : st.tried.lookup (item.2.getLastD 0) with _ | d
  · rw [processItem_fresh dist m pp ppos st item h] at hx
    rcases expandFold_pot_ppe dist m pp ppos item.1 item.2
        (joining m (item.2.getLastD 0))
        { st with tried := (item.2.getLastD 0, item.1) :: st.tried } hx with
      h2 | h2
    · exact Or.inl h2
    · exact Or.inr h2
  · by_cases hlt : d < item.1
    · rw [processItem_skip dist m pp ppos st item d h hlt] at hx
      exact Or.inl hx
    · rw [processItem_old dist m pp ppos st item d h hlt] at hx
      exact expandFold_pot_ppe dist m pp ppos item.1 item.2 _ _ hx

theorem suffix_last_eq {α : Type} (S L : List α) (h : S <:+ L) (a : α)
    (hlast : S.getLast? = some a) (b : α) (hL : L.getLast? = some b) :
    a = b := by
  rw [suffix_getLast S L h
    (fun h0 => by rw [h0] at hlast; exact Option.noConfusion hlast), hL]
    at hlast
  exact (Option.some_injective _ hlast).symm

/-- Expanding an item whose budgeted suffix continues with `(n2, b2)`
covers the next position (or completes within the total when `(n2, b2)`
closes the budget list). -/
theorem cov_dispatch (dist : Point → Point → ℚ) (m : Maze) (pp : ℕ × ℕ)
    (ppos : Point) (L : List (ℕ × ℚ)) (t : ℚ)
    (HCL : Closes dist m pp ppos L t) (HIF : IntFree pp L)
    (rest : List (ℚ × List ℕ)) (st2 : SState) (acc : ℚ) (path : List ℕ)
    (n n2 : ℕ) (b b2 : ℚ) (S2 : List (ℕ × ℚ))
    (hS : ((n, b) :: (n2, b2) :: S2) <:+ L)
    (jp : Path) (hjp : jp ∈ joining m n) (hjend : jp.end_index = n2)
    (hacc : acc + jp.length ≤ b2)
    (hn1 : st2.tried.lookup pp.1 = none)
    (hn2 : st2.tried.lookup pp.2 = none) :
    Ccov ((joining m n).foldl (expandStep dist m pp ppos acc path)
        st2).completed t ∨
      ∃ S3, S3 <:+ ((n2, b2) :: S2) ∧
        Cov ((joining m n).foldl (expandStep dist m pp ppos acc path)
            st2).tried
          (rest ++ ((joining m n).foldl (expandStep dist m pp ppos acc path)
            st2).newPot) S3 := by
  obtain ⟨w, bw, hwlast, hwppe, hwb⟩ := HCL
  by_cases hppe : isPPE pp n2
  · -- the next position closes the chain: it must be the final entry
    have hS2nil : S2 = [] := by
      rcases S2 with _ | ⟨q, r⟩
      · rfl
      · exfalso
        refine HIF (n2, b2) (suffix_dropLast_mem _ _ hS ?_) hppe
        exact List.mem_cons_of_mem _ (List.mem_cons_self _ _)
    subst hS2nil
    have heq : ((n2 : ℕ), (b2 : ℚ)) = (w, bw) :=
      suffix_last_eq _ L hS _ rfl _ hwlast
    obtain ⟨rfl, rfl⟩ : n2 = w ∧ b2 = bw :=
      ⟨congrArg Prod.fst heq, congrArg Prod.snd heq⟩
    have hnone : st2.tried.lookup jp.end_index = none := by
      rw [hjend]
      rcases hwppe with h | h <;> rw [h]
      · exact hn1
      · exact hn2
    refine Or.inl (dispatch_last dist m pp ppos acc path st2 n jp t hjp
      ?_ hnone ?_)
    · rw [hjend]
      exact hwppe
    · rw [hjend]
      linarith
  · -- a middle position: cover it
    have hS2ne : S2 ≠ [] := by
      intro h0
      subst h0
      have heq : ((n2 : ℕ), (b2 : ℚ)) = (w, bw) :=
        suffix_last_eq _ L hS _ rfl _ hwlast
      obtain rfl : n2 = w := congrArg Prod.fst heq
      exact hppe hwppe
    have hnppe : ¬ (jp.end_index = pp.1 ∨ jp.end_index = pp.2) := by
      rw [hjend]
      exact hppe
    rcases dispatch_mid dist m pp ppos acc path st2 n jp b2 hjp hnppe hacc
      with hF | ⟨od, hod, hob⟩
    · refine Or.inr ⟨(n2, b2) :: S2, List.suffix_refl _,
        n2, b2, S2, rfl, hS2ne, Or.inl ?_⟩
      obtain ⟨it, hit, hterm, hble⟩ := hF
      rw [hjend] at hterm
      exact ⟨it, List.mem_append_right _ hit, hterm, hble⟩
    · refine Or.inr ⟨(n2, b2) :: S2, List.suffix_refl _,
        n2, b2, S2, rfl, hS2ne, Or.inr ⟨od, ?_, hob⟩⟩
      rw [expandFold_tried_eq, ← hjend]
      exact hod

/-- Processing one frontier item preserves coverage of the budget list:
either the processed state completes within the total, or some (weak)
suffix stays covered. -/
theorem cov_step (dist : Point → Point → ℚ) (m : Maze) (pp : ℕ × ℕ)
    (ppos : Point) (L : List (ℕ × ℚ)) (t : ℚ)
    (HBC : BudgetChain m L) (HCL : Closes dist m pp ppos L t)
    (HIF : IntFree pp L) (st : SState) (item : ℚ × List ℕ)
    (rest : List (ℚ × List ℕ))
    (hside : SideInv pp st.tried ((item :: rest) ++ st.newPot))
    (S : List (ℕ × ℚ)) (hS : S <:+ L)
    (hcov : Cov st.tried ((item :: rest) ++ st.newPot) S) :
    Ccov (processItem dist m pp ppos st item).completed t ∨
      ∃ S3, S3 <:+ S ∧
        Cov (processItem dist m pp ppos st item).tried
          (rest ++ (processItem dist m pp ppos st item).newPot) S3 := by
  obtain ⟨n, b, S2, rfl, hS2, hcv⟩ := hcov
  rcases hcv with hfc | ⟨od, hod, hob⟩
  · obtain ⟨it, hit, hterm, hble⟩ := hfc
    rcases List.mem_append.mp hit with hit1 | hitP
    · rcases List.mem_cons.mp hit1 with heq | hit2
      · -- the covering item is the one being processed
        subst heq
        rcases S2 with _ | ⟨⟨n2, b2⟩, S2'⟩
        · exact absurd rfl hS2
        have hbcS : BudgetChain m ((n, b) :: (n2, b2) :: S2') := by
          obtain ⟨pre, hpre⟩ := hS
          exact budgetChain_suffix m pre _ (hpre ▸ HBC)
        obtain ⟨jp, hjp, hjend, hjb⟩ := hbcS.1
        have hacc : it.1 + jp.length ≤ b2 := by linarith
        rcases hlk : st.tried.lookup (it.2.getLastD 0) with _ | d
        · -- fresh: record and dispatch
          rw [processItem_fresh dist m pp ppos st it hlk]
          have hnterm : ¬ isPPE pp n := by
            rw [← hterm]
            exact hside.2.2 it (List.mem_append_left _
              (List.mem_cons_self _ _))
          have hc1 : (((it.2.getLastD 0, it.1) :: st.tried).lookup pp.1)
              = none := by
            rw [lookup_cons_of_ne _ (fun hc => hnterm (by
              rw [← hterm, ← hc]; exact Or.inl rfl))]
            exact hside.1
          have hc2 : (((it.2.getLastD 0, it.1) :: st.tried).lookup pp.2)
              = none := by
            rw [lookup_cons_of_ne _ (fun hc => hnterm (by
              rw [← hterm, ← hc]; exact Or.inr rfl))]
            exact hside.2.1
          rw [hterm] at hc1 hc2 ⊢
          rcases cov_dispatch dist m pp ppos L t HCL HIF rest
              ⟨(n, it.1) :: st.tried, st.newPot, st.completed⟩ it.1 it.2
              n n2 b b2 S2' hS jp hjp hjend hacc hc1 hc2 with hC | ⟨S3, h3, hc⟩
          · exact Or.inl hC
          · exact Or.inr ⟨S3, h3.trans (List.suffix_cons _ _), hc⟩
        · by_cases hdlt : d < it.1
          · -- skipped: the record itself covers more cheaply
            rw [processItem_skip dist m pp ppos st it d hlk hdlt]
            refine Or.inr ⟨(n, b) :: (n2, b2) :: S2', List.suffix_refl _,
              n, b, _, rfl, hS2, Or.inr ⟨d, ?_, by linarith⟩⟩
            rw [← hterm]
            exact hlk
          · -- expanded without recording: dispatch
            rw [processItem_old dist m pp ppos st it d hlk hdlt]
            rw [hterm]
            rcases cov_dispatch dist m pp ppos L t HCL HIF rest _ it.1 it.2
                n n2 b b2 S2' hS jp hjp hjend hacc hside.1 hside.2.1 with
              hC | ⟨S3, h3, hc⟩
            · exact Or.inl hC
            · exact Or.inr ⟨S3, h3.trans (List.suffix_cons _ _), hc⟩
      · -- the covering item is a later frontier item
        exact Or.inr ⟨(n, b) :: S2, List.suffix_refl _, n, b, S2, rfl, hS2,
          Or.inl ⟨it, List.mem_append_left _ hit2, hterm, hble⟩⟩
    · -- the covering item already sits in the next frontier
      exact Or.inr ⟨(n, b) :: S2, List.suffix_refl _, n, b, S2, rfl, hS2,
        Or.inl ⟨it, List.mem_append_right _
          (processItem_pot_mono dist m pp ppos st item hitP), hterm, hble⟩⟩
  · -- a map cover persists unchanged
    exact Or.inr ⟨(n, b) :: S2, List.suffix_refl _, n, b, S2, rfl, hS2,
      Or.inr ⟨od, processItem_lookup_mono dist m pp ppos st item hod, hob⟩⟩

theorem reach_step (dist : Point → Point → ℚ) (m : Maze) (pp : ℕ × ℕ)
    (ppos : Point) (L : List (ℕ × ℚ)) (t : ℚ)
    (HBC : BudgetChain m L) (HCL : Closes dist m pp ppos L t)
    (HIF : IntFree pp L) (st : SState) (item : ℚ × List ℕ)
    (rest : List (ℚ × List ℕ))
    (hside : SideInv pp st.tried ((item :: rest) ++ st.newPot))
    (hr : Reach st.tried ((item :: rest) ++ st.newPot) st.completed L t) :
    Reach (processItem dist m pp ppos st item).tried
      (rest ++ (processItem dist m pp ppos st item).newPot)
      (processItem dist m pp ppos st item).completed L t := by
  rcases hr with ⟨c, hc, hct⟩ | ⟨S, hS, hcov⟩
  · exact Or.inl ⟨c, processItem_comp_mono dist m pp ppos st item hc, hct⟩
  · rcases cov_step dist m pp ppos L t HBC HCL HIF st item rest hside S hS
      hcov with hC | ⟨S3, hS3, hcov3⟩
    · exact Or.inl hC
    · exact Or.inr ⟨S3, hS3.trans hS, hcov3⟩

theorem tg_step (dist : Point → Point → ℚ) (m : Maze) (pp : ℕ × ℕ)
    (ppos : Point) (L : List (ℕ × ℚ)) (t : ℚ)
    (HBC : BudgetChain m L) (HCL : Closes dist m pp ppos L t)
    (HIF : IntFree pp L) (st : SState) (item : ℚ × List ℕ)
    (rest : List (ℚ × List ℕ))
    (hside : SideInv pp st.tried ((item :: rest) ++ st.newPot))
    (htg : TGood st.tried ((item :: rest) ++ st.newPot) st.completed L t) :
    TGood (processItem dist m pp ppos st item).tried
      (rest ++ (processItem dist m pp ppos st item).newPot)
      (processItem dist m pp ppos st item).completed L t := by
  intro n b S2 hS hS2 htc
  obtain ⟨od, hod, hob⟩ := htc
  have hpush : Tcov st.tried n b →
      Ccov (processItem dist m pp ppos st item).completed t ∨
        ∃ S3, S3 <:+ S2 ∧
          Cov (processItem dist m pp ppos st item).tried
            (rest ++ (processItem dist m pp ppos st item).newPot) S3 := by
    intro htc0
    rcases htg n b S2 hS hS2 htc0 with ⟨c, hc, hct⟩ | ⟨S3, hS3, hcov3⟩
    · exact Or.inl ⟨c, processItem_comp_mono dist m pp ppos st item hc, hct⟩
    · have hS3L : S3 <:+ L := hS3.trans ((List.suffix_cons _ _).trans hS)
      rcases cov_step dist m pp ppos L t HBC HCL HIF st item rest hside S3
        hS3L hcov3 with hC | ⟨S4, hS4, hcov4⟩
      · exact Or.inl hC
      · exact Or.inr ⟨S4, hS4.trans hS3, hcov4⟩
  rcases processItem_tried_spec dist m pp ppos st item with
    hsame | ⟨hnone, hcons⟩
  · rw [hsame] at hod
    exact hpush ⟨od, hod, hob⟩
  · by_cases hkey : n = item.2.getLastD 0
    · -- the fresh record: its expansions are dispatched in this very call
      rw [hcons, hkey, List.lookup_cons, beq_self_eq_true] at hod
      obtain rfl : item.1 = od := Option.some_injective _ hod
      rcases S2 with _ | ⟨⟨n2, b2⟩, S2'⟩
      · exact absurd rfl hS2
      have hbcS : BudgetChain m ((n, b) :: (n2, b2) :: S2') := by
        obtain ⟨pre, hpre⟩ := hS
        exact budgetChain_suffix m pre _ (hpre ▸ HBC)
      obtain ⟨jp, hjp, hjend, hjb⟩ := hbcS.1
      have hacc : item.1 + jp.length ≤ b2 := by linarith
      have hnterm : ¬ isPPE pp n := by
        rw [hkey]
        exact hside.2.2 item (List.mem_append_left _
          (List.mem_cons_self _ _))
      have hc1 : (((n, item.1) :: st.tried).lookup pp.1) = none := by
        rw [lookup_cons_of_ne _ (fun hc => hnterm (Or.inl hc.symm))]
        exact hside.1
      have hc2 : (((n, item.1) :: st.tried).lookup pp.2) = none := by
        rw [lookup_cons_of_ne _ (fun hc => hnterm (Or.inr hc.symm))]
        exact hside.2.1
      rw [processItem_fresh dist m pp ppos st item hnone]
      rw [← hkey]
      exact cov_dispatch dist m pp ppos L t HCL HIF rest
        ⟨(n, item.1) :: st.tried, st.newPot, st.completed⟩ item.1 item.2
        n n2 b b2 S2' hS jp hjp hjend hacc hc1 hc2
    · rw [hcons, lookup_cons_of_ne _ hkey] at hod
      exact hpush ⟨od, hod, hob⟩

theorem side_step (dist : Point → Point → ℚ) (m : Maze) (pp : ℕ × ℕ)
    (ppos : Point) (st : SState) (item : ℚ × List ℕ)
    (rest : List (ℚ × List ℕ))
    (hside : SideInv pp st.tried ((item :: rest) ++ st.newPot)) :
    SideInv pp (processItem dist m pp ppos st item).tried
      (rest ++ (processItem dist m pp ppos st item).newPot) := by
  obtain ⟨h1, h2, h3⟩ := hside
  have hterm : ¬ isPPE pp (item.2.getLastD 0) :=
    h3 item (List.mem_append_left _ (List.mem_cons_self _ _))
  refine ⟨?_, ?_, ?_⟩
  · rcases processItem_tried_spec dist m pp ppos st item with
      hsame | ⟨_, hcons⟩
    · rw [hsame]
      exact h1
    · rw [hcons, lookup_cons_of_ne _ (fun hc => hterm (Or.inl hc.symm))]
      exact h1
  · rcases processItem_tried_spec dist m pp ppos st item with
      hsame | ⟨_, hcons⟩
    · rw [hsame]
      exact h2
    · rw [hcons, lookup_cons_of_ne _ (fun hc => hterm (Or.inr hc.symm))]
      exact h2
  · intro it hit
    rcases List.mem_append.mp hit with h4 | h4
    · exact h3 it (List.mem_append_left _ (List.mem_cons_of_mem _ h4))
    · rcases processItem_pot_ppe dist m pp ppos st item h4 with h5 | h5
      · exact h3 it (List.mem_append_right _ h5)
      · exact h5

/-- One full round preserves the side invariants, reach, and the dispatch
property. -/
theorem round_fold (dist : Point → Point → ℚ) (m : Maze) (pp : ℕ × ℕ)
    (ppos : Point) (L : List (ℕ × ℚ)) (t : ℚ)
    (HBC : BudgetChain m L) (HCL : Closes dist m pp ppos L t)
    (HIF : IntFree pp L) :
    ∀ (rest : List (ℚ × List ℕ)) (st : SState),
      SideInv pp st.tried (rest ++ st.newPot) →
      Reach st.tried (rest ++ st.newPot) st.completed L t →
      TGood st.tried (rest ++ st.newPot) st.completed L t →
      SideInv pp (rest.foldl (processItem dist m pp ppos) st).tried
          ((rest.foldl (processItem dist m pp ppos) st).newPot) ∧
        Reach (rest.foldl (processItem dist m pp ppos) st).tried
          ((rest.foldl (processItem dist m pp ppos) st).newPot)
          ((rest.foldl (processItem dist m pp ppos) st).completed) L t ∧
        TGood (rest.foldl (processItem dist m pp ppos) st).tried
          ((rest.foldl (processItem dist m pp ppos) st).newPot)
          ((rest.foldl (processItem dist m pp ppos) st).completed) L t
  | [], st => fun hs hr ht => ⟨hs, hr, ht⟩
  | item :: rest, st => fun hs hr ht => by
    rw [List.foldl_cons]
    exact round_fold dist m pp ppos L t HBC HCL HIF rest
      (processItem dist m pp ppos st item)
      (side_step dist m pp ppos st item rest hs)
      (reach_step dist m pp ppos L t HBC HCL HIF st item rest hs hr)
      (tg_step dist m pp ppos L t HBC HCL HIF st item rest hs ht)

/-- With an empty frontier, chained map covers resolve into a completed
route within the total. -/
theorem reach_resolve (T : List (ℕ × ℚ)) (C : List (ℚ × List ℕ))
    (L : List (ℕ × ℚ)) (t : ℚ) (htg : TGood T [] C L t) :
    ∀ (k : ℕ) (S : List (ℕ × ℚ)), S.length ≤ k → S <:+ L →
      Cov T [] S → Ccov C t
  | 0, S => fun hk _ hcov => by
    obtain ⟨n, b, S2, rfl, _, _⟩ := hcov
    exact absurd hk (by simp)
  | k + 1, S => fun hk hS hcov => by
    obtain ⟨n, b, S2, rfl, hS2, hfc | htc⟩ := hcov
    · obtain ⟨it, hit, _, _⟩ := hfc
      exact absurd hit (List.not_mem_nil _)
    · rcases htg n b S2 hS hS2 htc with hC | ⟨S3, hS3, hcov3⟩
      · exact hC
      · refine reach_resolve T C L t htg k S3 ?_
          (hS3.trans ((List.suffix_cons _ _).trans hS)) hcov3
        have h4 := hS3.length_le
        have h5 : ((n, b) :: S2).length = S2.length + 1 :=
          List.length_cons _ _
        omega

/-- Completeness of the frontier loop: if it terminates and the state
covers a closed budget chain, some returned route costs at most the
chain's total. -/
theorem searchLoop_reach (dist : Point → Point → ℚ) (m : Maze)
    (pp : ℕ × ℕ) (ppos : Point) (L : List (ℕ × ℚ)) (t : ℚ)
    (HBC : BudgetChain m L) (HCL : Closes dist m pp ppos L t)
    (HIF : IntFree pp L) :
    ∀ (fuel : ℕ) (T : List (ℕ × ℚ)) (F C Cf : List (ℚ × List ℕ)),
      searchLoop dist m pp ppos fuel T F C = some Cf →
      SideInv pp T F → Reach T F C L t → TGood T F C L t → Ccov Cf t
  | fuel, T, [], C, Cf => fun heq _ hr ht => by
    rw [searchLoop_nilF] at heq
    obtain rfl : C = Cf := Option.some_injective _ heq
    rcases hr with hC | ⟨S, hS, hcov⟩
    · exact hC
    · exact reach_resolve T C L t ht S.length S (le_refl _) hS hcov
  | 0, T, x :: xs, C, Cf => fun heq => absurd heq (by
    intro h
    exact Option.noConfusion h)
  | fuel + 1, T, x :: xs, C, Cf => fun heq hs hr ht => by
    rw [searchLoop_succ] at heq
    have hs2 : SideInv pp ((⟨T, [], C⟩ : SState)).tried
        ((x :: xs) ++ (⟨T, [], C⟩ : SState).newPot) := by
      rw [List.append_nil]
      exact hs
    have hr2 : Reach ((⟨T, [], C⟩ : SState)).tried
        ((x :: xs) ++ (⟨T, [], C⟩ : SState).newPot)
        ((⟨T, [], C⟩ : SState)).completed L t := by
      rw [List.append_nil]
      exact hr
    have ht2 : TGood ((⟨T, [], C⟩ : SState)).tried
        ((x :: xs) ++ (⟨T, [], C⟩ : SState).newPot)
        ((⟨T, [], C⟩ : SState)).completed L t := by
      rw [List.append_nil]
      exact ht
    obtain ⟨h1, h2, h3⟩ := round_fold dist m pp ppos L t HBC HCL HIF
      (x :: xs) ⟨T, [], C⟩ hs2 hr2 ht2
    exact searchLoop_reach dist m pp ppos L t HBC HCL HIF fuel _ _ _ Cf
      heq h1 h2 h3

theorem getLastD_cons₂ {α : Type} (a b : α) (r : List α) (d : α) :
    (a :: b :: r).getLastD d = (b :: r).getLastD d := by
  simp only [List.getLastD_cons]

theorem chainCost_congr (m : Maze) {P : List ℕ} {c c' : ℚ}
    (h : ChainCost m P c) (he : c = c') : ChainCost m P c' := he ▸ h

/-- Extending a traversal by one stored edge from its terminal. -/
theorem chainCost_append (m : Maze) {P : List ℕ} {c : ℚ}
    (h : ChainCost m P c) :
    ∀ jp ∈ joining m (P.getLastD 0),
      ChainCost m (P ++ [jp.end_index]) (c + jp.length) := by
  induction h with
  | single a =>
    intro jp hjp
    refine chainCost_congr m
      (ChainCost.cons a jp.end_index [] jp.length 0 ⟨jp, hjp, rfl, rfl⟩
        (ChainCost.single _)) ?_
    ring
  | cons a b r l c he hr ih =>
    intro jp hjp
    rw [getLastD_cons₂] at hjp
    refine chainCost_congr m
      (ChainCost.cons a b (r ++ [jp.end_index]) l (c + jp.length) he
        (ih jp hjp)) ?_
    ring

/-- A traversal with a seed value carries a budget list: exact prefix
budgets along the nodes. -/
theorem budget_build (m : Maze) {P : List ℕ} {c : ℚ}
    (h : ChainCost m P c) :
    ∀ s : ℚ, ∃ L : List (ℕ × ℚ), L.map Prod.fst = P ∧ BudgetChain m L ∧
      (∀ a, P.head? = some a → L.head? = some (a, s)) ∧
      ∀ w, P.getLast? = some w → L.getLast? = some (w, s + c) := by
  induction h with
  | single a =>
    intro s
    refine ⟨[(a, s)], rfl, trivial, ?_, ?_⟩
    · intro a2 ha2
      obtain rfl : a = a2 := Option.some_injective _ ha2
      rfl
    · intro w hw
      obtain rfl : a = w := Option.some_injective _ hw
      rw [add_zero]
      rfl
  | cons a b r l c he hr ih =>
    intro s
    obtain ⟨L', hmap, hbc, hhead, hlast⟩ := ih (s + l)
    rcases L' with _ | ⟨⟨b', s'⟩, L''⟩
    · exact absurd hmap (by simp)
    have h3 := hhead b rfl
    have h5 : ((b' : ℕ), (s' : ℚ)) = (b, s + l) :=
      Option.some_injective _ h3
    have hb' : b' = b := congrArg Prod.fst h5
    have hs' : s' = s + l := congrArg Prod.snd h5
    subst hb'
    subst hs'
    have h2 : L''.map Prod.fst = r := by
      simp only [List.map_cons] at hmap
      injection hmap
    refine ⟨(a, s) :: (b', s + l) :: L'', ?_, ?_, ?_, ?_⟩
    · simp only [List.map_cons, h2]
    · refine ⟨?_, hbc⟩
      obtain ⟨jp, hjp, hje, hjl⟩ := he
      refine ⟨jp, hjp, hje, ?_⟩
      rw [hjl]
    · intro a2 ha2
      obtain rfl : a = a2 := Option.some_injective _ ha2
      rfl
    · intro w hw
      rw [List.getLast?_cons_cons] at hw
      rw [List.getLast?_cons_cons, hlast w hw, add_assoc]

/-! ### Soundness: completed entries are first-arrival connecting routes -/

theorem expandStep_sound (dist : Point → Point → ℚ) (m : Maze)
    (pp gp : ℕ × ℕ) (ppos gpos : Point) (acc : ℚ) (path : List ℕ)
    (st : SState) (jp : Path)
    (hitem : ItemSound dist m pp gp gpos (acc, path))
    (hjp : jp ∈ joining m (path.getLastD 0)) :
    (∀ x ∈ (expandStep dist m pp ppos acc path st jp).newPot,
      x ∈ st.newPot ∨ ItemSound dist m pp gp gpos x) ∧
    (∀ y ∈ (expandStep dist m pp ppos acc path st jp).completed,
      y ∈ st.completed ∨ CompSound dist m pp gp ppos gpos y) := by
  obtain ⟨g, hg, hhead, hnp, c, hcc, hval⟩ := hitem
  have hne : path ≠ [] := fun h0 => by
    rw [h0] at hhead
    exact Option.noConfusion hhead
  have hccw : ChainCost m (path ++ [jp.end_index]) (c + jp.length) :=
    chainCost_append m hcc jp hjp
  have hh : (path ++ [jp.end_index]).head? = some g := by
    rw [List.head?_append_of_ne_nil path hne]
    exact hhead
  have hhd : (path ++ [jp.end_index]).headD 0 = g := by
    rw [List.headD_eq_head?_getD, hh]
    rfl
  have hpotSound : ¬ (jp.end_index = pp.1 ∨ jp.end_index = pp.2) →
      ItemSound dist m pp gp gpos
        (acc + jp.length, path ++ [jp.end_index]) := by
    intro hppe
    refine ⟨g, hg, hh, ?_, c + jp.length, hccw, ?_⟩
    · intro a ha
      rcases List.mem_append.mp ha with h4 | h4
      · exact hnp a h4
      · obtain rfl := List.mem_singleton.mp h4
        exact hppe
    · dsimp only at hval ⊢
      rw [hval]
      ring
  have hcompSound : (jp.end_index = pp.1 ∨ jp.end_index = pp.2) →
      CompSound dist m pp gp ppos gpos
        (acc + jp.length + hop dist m ppos jp.end_index,
          path ++ [jp.end_index]) := by
    intro hppe
    refine ⟨⟨?_, ?_⟩, ?_, c + jp.length, hccw, ?_⟩
    · rcases hg with h4 | h4
      · exact Or.inl (by rw [hh, h4])
      · exact Or.inr (by rw [hh, h4])
    · rcases hppe with h4 | h4
      · exact Or.inl (by rw [List.getLast?_concat, h4])
      · exact Or.inr (by rw [List.getLast?_concat, h4])
    · intro a ha
      rw [List.dropLast_concat] at ha
      have h5 := hnp a ha
      exact ⟨fun hc => h5 (Or.inl hc), fun hc => h5 (Or.inr hc)⟩
    · dsimp only at hval ⊢
      rw [hhd, List.getLastD_concat, hval]
      ring
  constructor
  · intro x hx
    rcases h : st.tried.lookup jp.end_index with _ | od
    · rw [expandStep_fresh dist m pp ppos acc path st jp h] at hx
      by_cases he : jp.end_index = pp.1 ∨ jp.end_index = pp.2
      · rw [expandKeep_done dist m pp ppos path st jp _ he] at hx
        exact Or.inl hx
      · rw [expandKeep_pot dist m pp ppos path st jp _ he] at hx
        rcases List.mem_append.mp hx with h4 | h4
        · exact Or.inl h4
        · obtain rfl := List.mem_singleton.mp h4
          exact Or.inr (hpotSound he)
    · by_cases hle : od ≤ acc + jp.length
      · rw [expandStep_drop dist m pp ppos acc path st jp od h hle] at hx
        exact Or.inl hx
      · rw [expandStep_old_keep dist m pp ppos acc path st jp od h hle] at hx
        by_cases he : jp.end_index = pp.1 ∨ jp.end_index = pp.2
        · rw [expandKeep_done dist m pp ppos path st jp _ he] at hx
          exact Or.inl hx
        · rw [expandKeep_pot dist m pp ppos path st jp _ he] at hx
          rcases List.mem_append.mp hx with h4 | h4
          · exact Or.inl h4
          · obtain rfl := List.mem_singleton.mp h4
            exact Or.inr (hpotSound he)
  · intro y hy
    rcases h : st.tried.lookup jp.end_index with _ | od
    · rw [expandStep_fresh dist m pp ppos acc path st jp h] at hy
      by_cases he : jp.end_index = pp.1 ∨ jp.end_index = pp.2
      · rw [expandKeep_done dist m pp ppos path st jp _ he] at hy
        rcases List.mem_append.mp hy with h4 | h4
        · exact Or.inl h4
        · obtain rfl := List.mem_singleton.mp h4
          exact Or.inr (hcompSound he)
      · rw [expandKeep_pot dist m pp ppos path st jp _ he] at hy
        exact Or.inl hy
    · by_cases hle : od ≤ acc + jp.length
      · rw [expandStep_drop dist m pp ppos acc path st jp od h hle] at hy
        exact Or.inl hy
      · rw [expandStep_old_keep dist m pp ppos acc path st jp od h hle] at hy
        by_cases he : jp.end_index = pp.1 ∨ jp.end_index = pp.2
        · rw [expandKeep_done dist m pp ppos path st jp _ he] at hy
          rcases List.mem_append.mp hy with h4 | h4
          · exact Or.inl h4
          · obtain rfl := List.mem_singleton.mp h4
            exact Or.inr (hcompSound he)
        · rw [expandKeep_pot dist m pp ppos path st jp _ he] at hy
          exact Or.inl hy

theorem expandFold_sound (dist : Point → Point → ℚ) (m : Maze)
    (pp gp : ℕ × ℕ) (ppos gpos : Point) (acc : ℚ) (path : List ℕ)
    (hitem : ItemSound dist m pp gp gpos (acc, path)) :
    ∀ (jps : List Path) (st : SState),
      (∀ jp ∈ jps, jp ∈ joining m (path.getLastD 0)) →
      (∀ x ∈ ((jps.foldl (expandStep dist m pp ppos acc path) st).newPot),
        x ∈ st.newPot ∨ ItemSound dist m pp gp gpos x) ∧
      (∀ y ∈ ((jps.foldl (expandStep dist m pp ppos acc path)
          st).completed),
        y ∈ st.completed ∨ CompSound dist m pp gp ppos gpos y)
  | [], st => fun _ => ⟨fun _ hx => Or.inl hx, fun _ hy => Or.inl hy⟩
  | jp :: jps, st => fun hjps => by
    rw [List.foldl_cons]
    obtain ⟨ih1, ih2⟩ := expandFold_sound dist m pp gp ppos gpos acc path
      hitem jps (expandStep dist m pp ppos acc path st jp)
      (fun jp2 h2 => hjps jp2 (List.mem_cons_of_mem _ h2))
    obtain ⟨hs1, hs2⟩ := expandStep_sound dist m pp gp ppos gpos acc path
      st jp hitem (hjps jp (List.mem_cons_self _ _))
    constructor
    · intro x hx
      rcases ih1 x hx with h4 | h4
      · exact hs1 x h4
      · exact Or.inr h4
    · intro y hy
      rcases ih2 y hy with h4 | h4
      · exact hs2 y h4
      · exact Or.inr h4

theorem processItem_sound (dist : Point → Point → ℚ) (m : Maze)
    (pp gp : ℕ × ℕ) (ppos gpos : Point) (st : SState)
    (item : ℚ × List ℕ) (hitem : ItemSound dist m pp gp gpos item) :
    (∀ x ∈ (processItem dist m pp ppos st item).newPot,
      x ∈ st.newPot ∨ ItemSound dist m pp gp gpos x) ∧
    (∀ y ∈ (processItem dist m pp ppos st item).completed,
      y ∈ st.completed ∨ CompSound dist m pp gp ppos gpos y) := by
  rcases h : st.tried.lookup (item.2.getLastD 0) with _ | d
  · rw [processItem_fresh dist m pp ppos st item h]
    exact expandFold_sound dist m pp gp ppos gpos item.1 item.2 hitem
      (joining m (item.2.getLastD 0)) _ (fun jp h2 => h2)
  · by_cases hlt : d < item.1
    · rw [processItem_skip dist m pp ppos st item d h hlt]
      exact ⟨fun _ hx => Or.inl hx, fun _ hy => Or.inl hy⟩
    · rw [processItem_old dist m pp ppos st item d h hlt]
      exact expandFold_sound dist m pp gp ppos gpos item.1 item.2 hitem
        (joining m (item.2.getLastD 0)) _ (fun jp h2 => h2)

theorem round_sound (dist : Point → Point → ℚ) (m : Maze) (pp gp : ℕ × ℕ)
    (ppos gpos : Point) :
    ∀ (rest : List (ℚ × List ℕ)) (st : SState),
      (∀ it ∈ rest, ItemSound dist m pp gp gpos it) →
      (∀ x ∈ st.newPot, ItemSound dist m pp gp gpos x) →
      (∀ y ∈ st.completed, CompSound dist m pp gp ppos gpos y) →
      (∀ x ∈ ((rest.foldl (processItem dist m pp ppos) st).newPot),
        ItemSound dist m pp gp gpos x) ∧
      (∀ y ∈ ((rest.foldl (processItem dist m pp ppos) st).completed),
        CompSound dist m pp gp ppos gpos y)
  | [], st => fun _ h2 h3 => ⟨h2, h3⟩
  | item :: rest, st => fun h1 h2 h3 => by
    rw [List.foldl_cons]
    obtain ⟨hp1, hp2⟩ := processItem_sound dist m pp gp ppos gpos st item
      (h1 item (List.mem_cons_self _ _))
    refine round_sound dist m pp gp ppos gpos rest _
      (fun it h4 => h1 it (List.mem_cons_of_mem _ h4)) ?_ ?_
    · intro x hx
      rcases hp1 x hx with h4 | h4
      · exact h2 x h4
      · exact h4
    · intro y hy
      rcases hp2 y hy with h4 | h4
      · exact h3 y h4
      · exact h4

theorem searchLoop_sound (dist : Point → Point → ℚ) (m : Maze)
    (pp gp : ℕ × ℕ) (ppos gpos : Point) :
    ∀ (fuel : ℕ) (T : List (ℕ × ℚ)) (F C Cf : List (ℚ × List ℕ)),
      searchLoop dist m pp ppos fuel T F C = some Cf →
      (∀ it ∈ F, ItemSound dist m pp gp gpos it) →
      (∀ y ∈ C, CompSound dist m pp gp ppos gpos y) →
      ∀ y ∈ Cf, CompSound dist m pp gp ppos gpos y
  | fuel, T, [], C, Cf => fun heq _ hC => by
    rw [searchLoop_nilF] at heq
    obtain rfl : C = Cf := Option.some_injective _ heq
    exact hC
  | 0, T, x :: xs, C, Cf => fun heq => absurd heq (by
    intro h
    exact Option.noConfusion h)
  | fuel + 1, T, x :: xs, C, Cf => fun heq hF hC => by
    rw [searchLoop_succ] at heq
    obtain ⟨h1, h2⟩ := round_sound dist m pp gp ppos gpos (x :: xs)
      ⟨T, [], C⟩ hF (fun _ hx => absurd hx (List.not_mem_nil _)) hC
    exact searchLoop_sound dist m pp gp ppos gpos fuel _ _ _ Cf heq h1 h2

/-! ### The minimum completed route and the planning body -/

theorem minByFold_mem :
    ∀ (xs : List (ℚ × List ℕ)) (x : ℚ × List ℕ),
      xs.foldl (fun b y => if y.1 < b.1 then y else b) x ∈ x :: xs
  | [], _ => List.mem_cons_self _ _
  | y :: ys, x => by
    rw [List.foldl_cons]
    rcases List.mem_cons.mp (minByFold_mem ys (if y.1 < x.1 then y else x))
      with h | h
    · rw [h]
      by_cases hc : y.1 < x.1
      · rw [if_pos hc]
        exact List.mem_cons_of_mem _ (List.mem_cons_self _ _)
      · rw [if_neg hc]
        exact List.mem_cons_self _ _
    · exact List.mem_cons_of_mem _ (List.mem_cons_of_mem _ h)

theorem minByFold_le :
    ∀ (xs : List (ℚ × List ℕ)) (x z : ℚ × List ℕ), z ∈ x :: xs →
      (xs.foldl (fun b y => if y.1 < b.1 then y else b) x).1 ≤ z.1
  | [], x, z => fun hz => by
    obtain rfl := List.mem_singleton.mp hz
    exact le_refl _
  | y :: ys, x, z => fun hz => by
    rw [List.foldl_cons]
    have hpick : (if y.1 < x.1 then y else x).1 ≤ x.1 ∧
        (if y.1 < x.1 then y else x).1 ≤ y.1 := by
      by_cases hc : y.1 < x.1
      · rw [if_pos hc]
        exact ⟨le_of_lt hc, le_refl _⟩
      · rw [if_neg hc]
        exact ⟨le_refl _, le_of_not_lt hc⟩
    rcases List.mem_cons.mp hz with h | hz2
    · rw [h]
      exact le_trans (minByFold_le ys _ _ (List.mem_cons_self _ _)) hpick.1
    · rcases List.mem_cons.mp hz2 with h | h3
      · rw [h]
        exact le_trans (minByFold_le ys _ _ (List.mem_cons_self _ _))
          hpick.2
      · exact minByFold_le ys _ z (List.mem_cons_of_mem _ h3)

theorem minByFirst_spec (l : List (ℚ × List ℕ)) (b : ℚ × List ℕ)
    (h : minByFirst l = some b) : b ∈ l ∧ ∀ z ∈ l, b.1 ≤ z.1 := by
  rcases l with _ | ⟨x, xs⟩
  · exact Option.noConfusion h
  · unfold minByFirst at h
    obtain rfl := Option.some_injective _ h
    exact ⟨minByFold_mem xs x, fun z hz => minByFold_le xs x z hz⟩

/-- When no shortcut branch applies and the chaser's edge is proper, the
planning body is the frontier search followed by the minimum choice, with
no trimming. -/
theorem planRoute_search (dist : Point → Point → ℚ) (fuel : ℕ)
    (ppos gpos : Point) (m : Maze) (pp gp : ℕ × ℕ) (route : List ℕ)
    (h1 : ¬ (gp.1 = pp.1 ∨ gp.1 = pp.2))
    (h2 : ¬ (gp.2 = pp.1 ∨ gp.2 = pp.2)) (hgg : gp.1 ≠ gp.2)
    (hrun : planRoute dist fuel ppos gpos m pp gp = some route) :
    ∃ Cf best,
      searchLoop dist m pp ppos fuel []
        [(dist (nodeAt m gp.1).coordinates gpos, [gp.1]),
          (dist (nodeAt m gp.2).coordinates gpos, [gp.2])] [] = some Cf ∧
      minByFirst Cf = some best ∧ route = best.2 := by
  unfold planRoute at hrun
  have hne : ¬ gp = pp := fun hc => h1 (Or.inl (by rw [hc]))
  rw [if_neg hne, if_neg h1, if_neg h2] at hrun
  dsimp only at hrun
  rw [if_pos hgg] at hrun
  rcases hsl : searchLoop dist m pp ppos fuel []
      [(dist (nodeAt m gp.1).coordinates gpos, [gp.1]),
        (dist (nodeAt m gp.2).coordinates gpos, [gp.2])] [] with _ | Cf
  · rw [hsl] at hrun
    exact Option.noConfusion hrun
  · rw [hsl] at hrun
    dsimp only at hrun
    rcases hmb : minByFirst Cf with _ | best
    · rw [hmb] at hrun
      exact Option.noConfusion hrun
    · rw [hmb] at hrun
      dsimp only at hrun
      rw [if_neg hgg] at hrun
      exact ⟨Cf, best, rfl, hmb, (Option.some_injective _ hrun).symm⟩

/-- C1 (amended): when both positions localize, the two localized edges
share no endpoint index, and the chaser's edge is non-degenerate (no snap,
so the returned route is untrimmed), every route returned by
`find_shortest_path` is cost-minimal: its seeding distance plus traversed
edge lengths plus the final hop is the least total over all first-arrival
graph paths connecting the chaser's localized edge to the target's.  (The
original claim, which also admits a snapped chaser, is refuted by
`c1_counterexample`.) -/
theorem c1_amended_optimal (dist : Point → Point → ℚ) (w : ℚ) (fuel : ℕ)
    (ppos gpos : Point) (m : Maze) (pp gp : ℕ × ℕ) (route : List ℕ)
    (hpp : findPath w ppos m = some pp) (hgp : findPath w gpos m = some gp)
    (h1 : ¬ (gp.1 = pp.1 ∨ gp.1 = pp.2))
    (h2 : ¬ (gp.2 = pp.1 ∨ gp.2 = pp.2)) (hgg : gp.1 ≠ gp.2)
    (hrun : findShortestPath dist w fuel ppos gpos m = some route) :
    ∃ t0, ConnTotal dist m ppos gpos route t0 ∧
      IsLeast {t : ℚ | ∃ P, ConnPath pp gp P ∧ FirstArrival pp P ∧
        ConnTotal dist m ppos gpos P t} t0 := by
  rw [findShortestPath_localized dist w fuel ppos gpos m pp gp hpp hgp]
    at hrun
  obtain ⟨Cf, best, hsl, hmb, hroute⟩ := planRoute_search dist fuel ppos
    gpos m pp gp route h1 h2 hgg hrun
  have hseed : ∀ it ∈
      [((dist (nodeAt m gp.1).coordinates gpos : ℚ), [gp.1]),
        (dist (nodeAt m gp.2).coordinates gpos, [gp.2])],
      ItemSound dist m pp gp gpos it := by
    intro it hit
    rcases List.mem_cons.mp hit with h4 | h4
    · rw [h4]
      refine ⟨gp.1, Or.inl rfl, rfl, ?_, 0, ChainCost.single _, ?_⟩
      · intro a ha
        obtain rfl := List.mem_singleton.mp ha
        exact h1
      · exact (add_zero _).symm
    · obtain rfl := List.mem_singleton.mp h4
      refine ⟨gp.2, Or.inr rfl, rfl, ?_, 0, ChainCost.single _, ?_⟩
      · intro a ha
        obtain rfl := List.mem_singleton.mp ha
        exact h2
      · exact (add_zero _).symm
  have hsound := searchLoop_sound dist m pp gp ppos gpos fuel [] _ [] Cf
    hsl hseed (fun y hy => absurd hy (List.not_mem_nil _))
  obtain ⟨hbmem, hble⟩ := minByFirst_spec Cf best hmb
  obtain ⟨hconn, hfa, hct⟩ := hsound best hbmem
  subst hroute
  refine ⟨best.1, hct, ⟨best.2, hconn, hfa, hct⟩, ?_⟩
  intro t ht
  obtain ⟨P, hP, hFA, hCT⟩ := ht
  obtain ⟨c, hcc, hteq⟩ := hCT
  obtain ⟨hPh, hPl⟩ := hP
  obtain ⟨L, hLmap, hLbc, hLhead, hLlast⟩ := budget_build m hcc
    (dist (nodeAt m (P.headD 0)).coordinates gpos)
  obtain ⟨wn, hwn, hwppe⟩ : ∃ wn, P.getLast? = some wn ∧ isPPE pp wn := by
    rcases hPl with h | h
    · exact ⟨pp.1, h, Or.inl rfl⟩
    · exact ⟨pp.2, h, Or.inr rfl⟩
  obtain ⟨g, hgor, hgh⟩ : ∃ g, (g = gp.1 ∨ g = gp.2) ∧
      P.head? = some g := by
    rcases hPh with h | h
    · exact ⟨gp.1, Or.inl rfl, h⟩
    · exact ⟨gp.2, Or.inr rfl, h⟩
  have hPhd : P.headD 0 = g := by
    rw [List.headD_eq_head?_getD, hgh]
    rfl
  have hld : P.getLastD 0 = wn := by
    rw [List.getLastD_eq_getLast?, hwn]
    rfl
  have hclose : Closes dist m pp ppos L t :=
    ⟨wn, _, hLlast wn hwn, hwppe, by rw [hteq, hld]⟩
  have hIF : IntFree pp L := by
    intro p hp
    have h5 : p.1 ∈ P.dropLast := by
      rw [← hLmap, ← List.map_dropLast]
      exact List.mem_map_of_mem _ hp
    have h6 := hFA p.1 h5
    intro hppe
    rcases hppe with h7 | h7
    · exact h6.1 h7
    · exact h6.2 h7
  rcases L with _ | ⟨⟨g0, s0⟩, Lr⟩
  · exact absurd (hLhead g hgh) (fun hc => Option.noConfusion hc)
  have h8 : ((g0 : ℕ), (s0 : ℚ)) =
      (g, dist (nodeAt m (P.headD 0)).coordinates gpos) :=
    Option.some_injective _ (hLhead g hgh)
  have hg0 : g0 = g := congrArg Prod.fst h8
  have hs0 : s0 = dist (nodeAt m (P.headD 0)).coordinates gpos :=
    congrArg Prod.snd h8
  have hLr : Lr ≠ [] := by
    intro h0
    subst h0
    have h9 := congrArg List.length hLmap
    rcases P with _ | ⟨p0, _ | ⟨p1, pr⟩⟩
    · exact Option.noConfusion hgh
    · have ha : p0 = g := Option.some_injective _ hgh
      have hb : p0 = wn := Option.some_injective _ hwn
      have hgw : g = wn := ha ▸ hb
      rcases hgor with h10 | h10 <;> rcases hwppe with h11 | h11 <;>
        rw [← hgw, h10] at h11
      · exact h1 (Or.inl h11)
      · exact h1 (Or.inr h11)
      · exact h2 (Or.inl h11)
      · exact h2 (Or.inr h11)
    · simp at h9
  have hside : SideInv pp []
      [((dist (nodeAt m gp.1).coordinates gpos : ℚ), [gp.1]),
        (dist (nodeAt m gp.2).coordinates gpos, [gp.2])] := by
    refine ⟨rfl, rfl, ?_⟩
    intro it hit
    rcases List.mem_cons.mp hit with h4 | h4
    · rw [h4]
      exact h1
    · obtain rfl := List.mem_singleton.mp h4
      exact h2
  have htg : TGood []
      [((dist (nodeAt m gp.1).coordinates gpos : ℚ), [gp.1]),
        (dist (nodeAt m gp.2).coordinates gpos, [gp.2])] []
      ((g0, s0) :: Lr) t := by
    intro n b S2 _ _ htc
    obtain ⟨od, hod, _⟩ := htc
    exact absurd hod (fun hc => Option.noConfusion hc)
  have hreach : Reach []
      [((dist (nodeAt m gp.1).coordinates gpos : ℚ), [gp.1]),
        (dist (nodeAt m gp.2).coordinates gpos, [gp.2])] []
      ((g0, s0) :: Lr) t := by
    refine Or.inr ⟨(g0, s0) :: Lr, List.suffix_refl _, g0, s0, Lr, rfl,
      hLr, Or.inl ?_⟩
    rcases hgor with h10 | h10
    · refine ⟨(dist (nodeAt m gp.1).coordinates gpos, [gp.1]),
        List.mem_cons_self _ _, ?_, ?_⟩
      · rw [hg0, h10]
        rfl
      · rw [hs0, hPhd, h10]
    · refine ⟨(dist (nodeAt m gp.2).coordinates gpos, [gp.2]),
        List.mem_cons_of_mem _ (List.mem_singleton_self _), ?_, ?_⟩
      · rw [hg0, h10]
        rfl
      · rw [hs0, hPhd, h10]
  obtain ⟨cfe, hcfe, hcfet⟩ := searchLoop_reach dist m pp ppos
    ((g0, s0) :: Lr) t hLbc hclose hIF fuel []
    [((dist (nodeAt m gp.1).coordinates gpos : ℚ), [gp.1]),
      (dist (nodeAt m gp.2).coordinates gpos, [gp.2])] [] Cf hsl hside
    hreach htg
  exact le_trans (hble cfe hcfe) hcfet

/-- C1 (counterexample): on the three-node corridor `c1Maze` the claim's
hypotheses hold — the target localizes to the edge `(1, 2)`, the chaser
snaps to the degenerate pair `(0, 0)`, the two localized edges are distinct
and share no endpoint index — yet the route `[1]` returned by
`find_shortest_path` is not cost-minimal: the snapped-chaser trimming drops
the seed node `0`, and the trimmed route's claim total `147/10` lies
strictly below the total of every graph path connecting the chaser's
localized edge to the target's, so it equals no minimum over them.  Every
distance evaluation lies on the x-axis, where `distM` is exactly the
source's Euclidean distance. -/
theorem c1_counterexample :
    findPath HALF_PATH_WIDTH c1ppos c1Maze = some (1, 2) ∧
    findPath HALF_PATH_WIDTH c1gpos c1Maze = some (0, 0) ∧
    ((0, 0) : ℕ × ℕ) ≠ (1, 2) ∧ (0 : ℕ) ≠ 1 ∧ (0 : ℕ) ≠ 2 ∧
    findShortestPath distM HALF_PATH_WIDTH 1 c1ppos c1gpos c1Maze =
      some [1] ∧
    ConnTotal distM c1Maze c1ppos c1gpos [1] (147 / 10) ∧
    ∀ P t, ConnPath (1, 2) (0, 0) P →
      ConnTotal distM c1Maze c1ppos c1gpos P t → 147 / 10 < t := by
  refine ⟨by decide, by decide, by decide, by decide, by decide, by decide,
    ⟨0, ChainCost.single 1, by decide⟩, ?_⟩
  intro P t hconn htot
  obtain ⟨hhead, hlast⟩ := hconn
  obtain ⟨c, hcc, ht⟩ := htot
  rcases P with _ | ⟨p0, rest⟩
  · rcases hhead with h | h <;> exact Option.noConfusion h
  have hp0 : p0 = 0 := by
    rcases hhead with h | h <;> exact Option.some_injective _ h
  subst hp0
  rcases rest with _ | ⟨p1, rest2⟩
  · rcases hlast with h | h <;>
      exact absurd (Option.some_injective _ h) (by decide)
  have hc10 : (10 : ℚ) ≤ c :=
    (chainCost_lb c1Maze 10 (by decide) (by decide) hcc).2 (by simp)
  have hseed : distM (nodeAt c1Maze ((0 :: p1 :: rest2).headD 0)).coordinates
      c1gpos = 3 / 10 := by
    simp only [List.headD_cons]
    decide
  have hhop : hop distM c1Maze c1ppos ((0 :: p1 :: rest2).getLastD 0) = 5 := by
    have hd : (0 :: p1 :: rest2).getLastD 0 =
        ((0 :: p1 :: rest2).getLast?).getD 0 := List.getLastD_eq_getLast? _ _
    rcases hlast with h | h <;> rw [hd, h] <;> decide
  rw [hseed, hhop] at ht
  rw [ht]
  linarith

/-- The optimality theorem applied to the four-node corridor: the chaser
localizes to the edge `(0, 1)`, the target to `(2, 3)`, and the returned
route `[1, 2]` is cost-minimal.  All distance evaluations lie on the
x-axis, where `distM` is exactly the source's Euclidean distance. -/
theorem c1_amended_witness :
    findPath HALF_PATH_WIDTH (25, 0) c1Maze4 = some (2, 3) ∧
    findPath HALF_PATH_WIDTH (5, 0) c1Maze4 = some (0, 1) ∧
    ¬ ((0 : ℕ) = 2 ∨ (0 : ℕ) = 3) ∧ ¬ ((1 : ℕ) = 2 ∨ (1 : ℕ) = 3) ∧
    (0 : ℕ) ≠ 1 ∧
    findShortestPath distM HALF_PATH_WIDTH 3 (25, 0) (5, 0) c1Maze4 =
      some [1, 2] ∧
    ∃ t0, ConnTotal distM c1Maze4 (25, 0) (5, 0) [1, 2] t0 ∧
      IsLeast {t : ℚ | ∃ P, ConnPath (2, 3) (0, 1) P ∧
        FirstArrival (2, 3) P ∧
        ConnTotal distM c1Maze4 (25, 0) (5, 0) P t} t0 :=
  ⟨by decide, by decide, by decide, by decide, by decide, by decide,
    c1_amended_optimal distM HALF_PATH_WIDTH 3 (25, 0) (5, 0) c1Maze4
      (2, 3) (0, 1) [1, 2] (by decide) (by decide) (by decide) (by decide)
      (by decide) (by decide)⟩

end Pacman
